import Mathlib

/-!
bvhstats: workload orchestration and removal bookkeeping.

A shallow embedding of `src/main/main.go` (the benchmark harness of
briannoyama/bvhstats) and theorems about it.

Conventions of the embedding.

* Go `int` is `Int`; loop counters and slice indices that the code only ever
  counts up from zero are `Nat`.  Go `int32` is `Int` with `wrap32` applied after
  every addition and subtraction.
* A Go run-time panic is a value of `Panic`.  Functions that can panic return
  `Except Panic _`, or an `Outcome` (the state reached together with the panic
  that stopped the run, if any), so that what happened before a panic stays
  visible.
* `*rand.Rand` is a stream of raw draws with a read position; a bounded draw
  reduces the next raw value modulo the bound, so every value the real generator
  can return is returned for some stream.
* `time.Now` / `time.Since` are a stream of durations indexed by the number of
  timed operations performed so far.
* The spatial index (package `bvh`) and the constant `volume.DIM` are not part of
  this repository; they are parameters (`Index`, `bvhTest.DIM`).
* Memory is unbounded: an allocation fails only when its length is negative.
-/

namespace BvhStats

/-! ## Machine integers, panics, the random source -/

/-- Run-time failures of the harness. -/
inductive Panic where
  /-- `make([]T, n)` with `n < 0`. -/
  | makeslice
  /-- `rand.Intn(n)` or `rand.Int31n(n)` with `n <= 0`. -/
  | invalidArgument
  /-- A slice read or write outside `[0, len)`. -/
  | indexOutOfRange
  /-- The structural verification of the index failed. -/
  | verification
  deriving DecidableEq, Repr

/-- Two's-complement wrap of an integer into the `int32` range. -/
def wrap32 (x : Int) : Int := (x + 2147483648) % 4294967296 - 2147483648

/-- Membership in the `int32` range. -/
def isInt32 (x : Int) : Prop := -2147483648 ≤ x ∧ x ≤ 2147483647

instance (x : Int) : Decidable (isInt32 x) := by unfold isInt32; infer_instance

/-- State of a `*rand.Rand`: the stream of raw draws and how many were consumed. -/
structure Rand where
  draws : Nat → Nat
  pos : Nat

/-- Go `r.Intn(n)`: panics when `n <= 0`, otherwise a value in `[0, n)`. -/
def Rand.Intn (r : Rand) (n : Int) : Except Panic (Nat × Rand) :=
  if n ≤ 0 then .error .invalidArgument
  else .ok (r.draws r.pos % n.toNat, { r with pos := r.pos + 1 })

/-- Go `r.Int31n(n)`: panics when `n <= 0`, otherwise a value in `[0, n)`. -/
def Rand.Int31n (r : Rand) (n : Int) : Except Panic (Nat × Rand) :=
  if n ≤ 0 then .error .invalidArgument
  else .ok (r.draws r.pos % n.toNat, { r with pos := r.pos + 1 })

/-! ## Data model -/

/-- Go `volume.Orthotope[int32]`: the two corner arrays `P0` and `P1`. -/
structure Orthotope where
  P0 : List Int
  P1 : List Int
  deriving DecidableEq, Repr

/-- Go `bvhTest`, the configuration record.  `DIM` stands for the package constant
`volume.DIM`, the length of the arrays `MinVol`, `MaxVol`, `MaxBounds.P0` and
`MaxBounds.P1`; an array entry is read with `List.getD _ d 0`. -/
structure bvhTest where
  DIM : Nat
  MaxBounds : Orthotope
  MinVol : List Int
  MaxVol : List Int
  Additions : Int
  Removals : Int
  Queries : Int
  RandSeed : Int

/-! ## distribute (main.go 133-140) -/

/-- The statement `events[i] += 1` on a slice. -/
def bump (events : List Int) (i : Nat) : Except Panic (List Int) :=
  match events[i]? with
  | none => .error .indexOutOfRange
  | some v => .ok (events.set i (v + 1))

/-- The loop `for e := 0; e < totalEvents; e += 1` of `distribute`, with `n`
iterations left. -/
def distributeLoop (steps : Int) : Nat → List Int → Rand → Except Panic (List Int × Rand)
  | 0, events, r => .ok (events, r)
  | n + 1, events, r =>
    match r.Intn steps with
    | .error e => .error e
    | .ok (i, r1) =>
      match bump events i with
      | .error e => .error e
      | .ok events1 => distributeLoop steps n events1 r1

/-- Go `distribute(r, totalEvents, steps)`. -/
def distribute (r : Rand) (totalEvents steps : Int) : Except Panic (List Int × Rand) :=
  if steps < 0 then .error .makeslice
  else distributeLoop steps totalEvents.toNat (List.replicate steps.toNat 0) r

/-! ## makeOrth (main.go 142-151) -/

/-- The loop `for d := 0; d < volume.DIM; d += 1` of `makeOrth`, with `n`
iterations left and loop variable `d`. -/
def makeOrthLoop (b : bvhTest) : Nat → Nat → Orthotope → Rand → Except Panic (Orthotope × Rand)
  | 0, _, orth, r => .ok (orth, r)
  | n + 1, d, orth, r =>
    match r.Int31n (wrap32 (b.MaxVol.getD d 0 - b.MinVol.getD d 0)) with
    | .error e => .error e
    | .ok (x, r1) =>
      let delta := wrap32 (b.MinVol.getD d 0 + (x : Int))
      match r1.Int31n (wrap32 (b.MaxBounds.P1.getD d 0 - delta)) with
      | .error e => .error e
      | .ok (p0, r2) =>
        makeOrthLoop b n (d + 1)
          { P0 := orth.P0.set d (p0 : Int), P1 := orth.P1.set d (wrap32 ((p0 : Int) + delta)) } r2

/-- Go `(b *bvhTest) makeOrth(r)`. -/
def makeOrth (b : bvhTest) (r : Rand) : Except Panic (Orthotope × Rand) :=
  makeOrthLoop b b.DIM 0 { P0 := List.replicate b.DIM 0, P1 := List.replicate b.DIM 0 } r

/-! ## The spatial index, the clock, records and run state -/

/-- The operations of the spatial index that the harness calls (package `bvh`,
outside this repository), over an abstract index state `σ`. -/
structure Index (σ : Type) where
  /-- Go `bvh.NewInt32Node[int](110000)`. -/
  NewInt32Node : σ
  /-- Go `btree.Add(orth, a)`: the reference handle and the new index. -/
  Add : σ → Orthotope → Int → Int × σ
  /-- Go `btree.Remove(ref)`: the removed key with the ok flag, and the new index. -/
  Remove : σ → Int → (Int × Bool) × σ
  /-- Go `for range btree.Query(q)`: how many results the drain yields, and the index. -/
  Query : σ → Orthotope → Int × σ
  /-- Go `btree.Depth()`. -/
  Depth : σ → Int
  /-- Go `btree.Verify()`: whether the structural invariants hold. -/
  Verify : σ → Bool

/-- One line printed by `runTest`. -/
inductive Record where
  /-- The line "Incorrect config, removals larger than additions." -/
  | incorrectConfig
  /-- The line `add, total, depth, duration, orth`. -/
  | add (total depth duration : Int) (orth : Orthotope)
  /-- The line `sub, total, depth, duration, k`. -/
  | sub (total depth duration : Int) (k : Int)
  /-- The line `que, total, depth, duration, count, q`. -/
  | que (total depth duration count : Int) (q : Orthotope)
  deriving DecidableEq, Repr

/-- One call made on the spatial index, tagged with the step `a` at which it is
made; a `Remove` also records the slot `toRemove` whose handle is passed. -/
inductive Op where
  | Add (a : Nat) (orth : Orthotope) (ref : Int)
  | Remove (a : Nat) (toRemove : Nat) (ref : Int)
  | Query (a : Nat) (q : Orthotope)
  | Verify
  deriving DecidableEq, Repr

/-- The local variables of `runTest`, the output printed so far (`out`), the calls
made on the index so far (`hist`), and the steps at which a removal attempt found
nothing and was carried to the next step (`carried`) or dropped (`dropped`). -/
structure State (σ : Type) where
  refs : List Int
  orths : List Orthotope
  removed : Nat → Bool
  btree : σ
  r : Rand
  removals : List Int
  queries : List Int
  total : Int
  addTime : Int
  subTime : Int
  queTime : Int
  ticks : Nat
  out : List Record
  hist : List Op
  carried : List Nat
  dropped : List Nat

/-- A state together with the panic that stopped the run there, if any. -/
structure Outcome (σ : Type) where
  state : State σ
  stopped : Option Panic

/-- Sequencing: continue with `f` unless the run has already stopped. -/
def Outcome.andThen {σ : Type} (o : Outcome σ) (f : State σ → Outcome σ) : Outcome σ :=
  match o.stopped with
  | none => f o.state
  | some _ => o

/-! ## runTest (main.go 65-131) -/

/-- Lines 83-92: generate an orthotope, add it to the index, record the handle in
`refs[a]`, bump `total` and print the `add` line. -/
def addItem {σ : Type} (I : Index σ) (clk : Nat → Int) (b : bvhTest) (a : Nat)
    (s : State σ) : Outcome σ :=
  match makeOrth b s.r with
  | .error e => ⟨s, some e⟩
  | .ok (orth, r1) =>
    let res := I.Add s.btree orth (a : Int)
    let s1 : State σ := { s with
      r := r1, orths := s.orths ++ [orth], btree := res.2, ticks := s.ticks + 1,
      hist := s.hist ++ [Op.Add a orth res.1] }
    if a < s.refs.length then
      let duration := clk s.ticks
      ⟨{ s1 with
          refs := s.refs.set a res.1, total := s.total + 1,
          out := s.out ++ [Record.add (s.total + 1) (I.Depth res.2) duration orth],
          addTime := s.addTime + duration }, none⟩
    else ⟨s1, some .indexOutOfRange⟩

/-- Line 96, `for ; removed[toRemove] && toRemove <= a; toRemove += 1 {}`, with
`n` iterations left; returns the final `toRemove`. -/
def scan (removed : Nat → Bool) (a : Nat) : Nat → Nat → Nat
  | 0, toRemove => toRemove
  | n + 1, toRemove =>
    if removed toRemove && decide (toRemove ≤ a) then scan removed a n (toRemove + 1)
    else toRemove

/-- Line 96 started at `toRemove`: at most `a + 1 - toRemove` iterations can pass
the test `toRemove <= a`. -/
def scanFrom (removed : Nat → Bool) (a toRemove : Nat) : Nat :=
  scan removed a (a + 1 - toRemove) toRemove

/-- Lines 95-110, one removal attempt at step `a`.  The carry of line 109,
`removals[a+1] += 1`, is the slice write `bump`, which panics when `a + 1` is out
of range; only the guard of line 108 keeps it in bounds. -/
def removeOne {σ : Type} (I : Index σ) (clk : Nat → Int) (a : Nat) (s : State σ) :
    Outcome σ :=
  match s.r.Intn ((a : Int) + 1) with
  | .error e => ⟨s, some e⟩
  | .ok (c, r1) =>
    let toRemove := scanFrom s.removed a c
    if toRemove ≤ a then
      match s.refs[toRemove]? with
      | none =>
        ⟨{ s with r := r1, removed := Function.update s.removed toRemove true },
          some .indexOutOfRange⟩
      | some ref =>
        let res := I.Remove s.btree ref
        let duration := clk s.ticks
        ⟨{ s with
            r := r1, removed := Function.update s.removed toRemove true,
            btree := res.2, ticks := s.ticks + 1, total := s.total - 1,
            hist := s.hist ++ [Op.Remove a toRemove ref],
            out := s.out ++ [Record.sub (s.total - 1) (I.Depth res.2) duration res.1.1],
            subTime := s.subTime + duration }, none⟩
    else if a + 1 < s.removals.length then
      match bump s.removals (a + 1) with
      | .error e => ⟨{ s with r := r1 }, some e⟩
      | .ok removals1 =>
        ⟨{ s with r := r1, removals := removals1, carried := s.carried ++ [a] }, none⟩
    else ⟨{ s with r := r1, dropped := s.dropped ++ [a] }, none⟩

/-- Line 94, `for removal := 0; removal < removals[a]; removal += 1`, with `n`
evaluations of the loop test left and loop variable `removal`. -/
def removalLoop {σ : Type} (I : Index σ) (clk : Nat → Int) (a : Nat) :
    Nat → Nat → State σ → Outcome σ
  | 0, _, s => ⟨s, none⟩
  | n + 1, removal, s =>
    match s.removals[a]? with
    | none => ⟨s, some .indexOutOfRange⟩
    | some m =>
      if (removal : Int) < m then
        (removeOne I clk a s).andThen (removalLoop I clk a n (removal + 1))
      else ⟨s, none⟩

/-- Lines 116-127, one query at step `a`. -/
def queryOne {σ : Type} (I : Index σ) (clk : Nat → Int) (b : bvhTest) (a : Nat)
    (s : State σ) : Outcome σ :=
  match makeOrth b s.r with
  | .error e => ⟨s, some e⟩
  | .ok (q, r1) =>
    let res := I.Query s.btree q
    let duration := clk s.ticks
    ⟨{ s with
        r := r1, btree := res.2, ticks := s.ticks + 1,
        hist := s.hist ++ [Op.Query a q],
        out := s.out ++ [Record.que s.total (I.Depth res.2) duration res.1 q],
        queTime := s.queTime + duration }, none⟩

/-- Line 115, `for query := 0; query < queries[a]; query += 1`, with `n`
evaluations of the loop test left and loop variable `query`. -/
def queryLoop {σ : Type} (I : Index σ) (clk : Nat → Int) (b : bvhTest) (a : Nat) :
    Nat → Nat → State σ → Outcome σ
  | 0, _, s => ⟨s, none⟩
  | n + 1, query, s =>
    match s.queries[a]? with
    | none => ⟨s, some .indexOutOfRange⟩
    | some m =>
      if (query : Int) < m then
        (queryOne I clk b a s).andThen (queryLoop I clk b a n (query + 1))
      else ⟨s, none⟩

/-- The removal attempts of step `a` (lines 94-111).  The loop test is evaluated
once more than the number of iterations, and the body never writes `removals[a]`,
so `removals[a] + 1` evaluations of the test are enough. -/
def removalsOf {σ : Type} (I : Index σ) (clk : Nat → Int) (a : Nat) (s : State σ) :
    Outcome σ :=
  removalLoop I clk a ((s.removals.getD a 0).toNat + 1) 0 s

/-- The queries of step `a` (lines 113-128). -/
def queriesOf {σ : Type} (I : Index σ) (clk : Nat → Int) (b : bvhTest) (a : Nat)
    (s : State σ) : Outcome σ :=
  queryLoop I clk b a ((s.queries.getD a 0).toNat + 1) 0 s

/-- The body of the main loop for step `a` (lines 83-128). -/
def step {σ : Type} (I : Index σ) (clk : Nat → Int) (b : bvhTest) (a : Nat)
    (s : State σ) : Outcome σ :=
  ((addItem I clk b a s).andThen (removalsOf I clk a)).andThen (queriesOf I clk b a)

/-- Line 82, `for a := 0; a < b.Additions; a += 1`, with `n` iterations left and
loop variable `a`. -/
def stepsFrom {σ : Type} (I : Index σ) (clk : Nat → Int) (b : bvhTest) :
    Nat → Nat → State σ → Outcome σ
  | 0, _, s => ⟨s, none⟩
  | n + 1, a, s =>
    if (a : Int) < b.Additions then
      (step I clk b a s).andThen (stepsFrom I clk b n (a + 1))
    else ⟨s, none⟩

/-- Lines 66-70 and 79-80: the allocations and the zeroed counters.  The two
schedules are filled in by `setup`. -/
def initState {σ : Type} (I : Index σ) (NewSource : Int → Nat → Nat) (b : bvhTest) :
    State σ :=
  { refs := List.replicate b.Additions.toNat 0, orths := [], removed := fun _ => false,
    btree := I.NewInt32Node, r := ⟨NewSource b.RandSeed, 0⟩, removals := [], queries := [],
    total := 0, addTime := 0, subTime := 0, queTime := 0, ticks := 0, out := [],
    hist := [], carried := [], dropped := [] }

/-- Lines 77-78: the removals schedule, then the queries schedule, drawn from the
same random source. -/
def setup {σ : Type} (I : Index σ) (NewSource : Int → Nat → Nat) (b : bvhTest) :
    Outcome σ :=
  let s0 := initState I NewSource b
  match distribute s0.r b.Removals b.Additions with
  | .error e => ⟨s0, some e⟩
  | .ok (removals, r1) =>
    match distribute r1 b.Queries b.Additions with
    | .error e => ⟨{ s0 with r := r1, removals := removals }, some e⟩
    | .ok (queries, r2) => ⟨{ s0 with r := r2, removals := removals, queries := queries }, none⟩

/-- Modelled from the spec: `btree.Verify()` on line 130 is a method of the package
`bvh`, which is not part of this repository; the spec gives it as failing when the
internal invariants of the index are broken, and such a failure as fatal to the
run. -/
def verify {σ : Type} (I : Index σ) (s : State σ) : Outcome σ :=
  ⟨{ s with hist := s.hist ++ [Op.Verify] },
    if I.Verify s.btree then none else some .verification⟩

/-- The run up to the end of its first `n` steps (steps `0 .. n-1`), for a
configuration that passed the check of line 72. -/
def runPrefix {σ : Type} (I : Index σ) (NewSource : Int → Nat → Nat) (clk : Nat → Int)
    (b : bvhTest) (n : Nat) : Outcome σ :=
  (setup I NewSource b).andThen (stepsFrom I clk b n 0)

/-- Go `(b *bvhTest) runTest()`.  `make([]int, b.Additions)` on line 66 panics for
a negative length, before the configuration is checked on line 72. -/
def runTest {σ : Type} (I : Index σ) (NewSource : Int → Nat → Nat) (clk : Nat → Int)
    (b : bvhTest) : Outcome σ :=
  if b.Additions < 0 then ⟨initState I NewSource b, some .makeslice⟩
  else if b.Removals > b.Additions then
    ⟨{ initState I NewSource b with out := [Record.incorrectConfig] }, none⟩
  else (runPrefix I NewSource clk b b.Additions.toNat).andThen (verify I)

/-! ## Observations on a run and closed forms of the inner loops -/

/-- The slots whose handles were passed to `Remove`, in call order. -/
def removedSlots : List Op → List Nat
  | [] => []
  | Op.Remove _ toRemove _ :: rest => toRemove :: removedSlots rest
  | _ :: rest => removedSlots rest

/-- How many keys below `n` have their `removed` flag set. -/
def removedCount (removed : Nat → Bool) (n : Nat) : Nat :=
  (List.range n).countP removed

/-- The live count printed on a line (`0` for the configuration error line). -/
def Record.liveCount : Record → Int
  | .incorrectConfig => 0
  | .add total _ _ _ => total
  | .sub total _ _ _ => total
  | .que total _ _ _ _ => total

/-- Whether a line is an `add` line. -/
def Record.isAdd : Record → Bool
  | .add _ _ _ _ => true
  | _ => false

/-- Whether a line is a `sub` line. -/
def Record.isSub : Record → Bool
  | .sub _ _ _ _ => true
  | _ => false

/-- Whether a line is a `que` line. -/
def Record.isQue : Record → Bool
  | .que _ _ _ _ _ => true
  | _ => false

/-- A line with its duration field blanked. -/
def Record.withoutDuration : Record → Record
  | .incorrectConfig => .incorrectConfig
  | .add total depth _ orth => .add total depth 0 orth
  | .sub total depth _ k => .sub total depth 0 k
  | .que total depth _ count q => .que total depth 0 count q

/-- The body of the loop of line 94 executed `n` times in a row at step `a`. -/
def attempts {σ : Type} (I : Index σ) (clk : Nat → Int) (a : Nat) :
    Nat → State σ → Outcome σ
  | 0, s => ⟨s, none⟩
  | n + 1, s => (removeOne I clk a s).andThen (attempts I clk a n)

/-- The body of the loop of line 115 executed `n` times in a row at step `a`. -/
def queryRuns {σ : Type} (I : Index σ) (clk : Nat → Int) (b : bvhTest) (a : Nat) :
    Nat → State σ → Outcome σ
  | 0, s => ⟨s, none⟩
  | n + 1, s => (queryOne I clk b a s).andThen (queryRuns I clk b a n)

/-- The slices of a run of `N` steps have their allocated lengths, and `n` items
have been generated so far. -/
def Shape {σ : Type} (N n : Nat) (s : State σ) : Prop :=
  s.refs.length = N ∧ s.removals.length = N ∧ s.queries.length = N ∧ s.orths.length = n

/-- Bookkeeping of the removed flags: the flags set are exactly the slots passed
to `Remove`, no slot was passed twice, and every `Remove` made at step `a` took a
slot in `[0, a]` of an item already generated. -/
def SlotsInv {σ : Type} (s : State σ) : Prop :=
  (∀ i, s.removed i = true ↔ i ∈ removedSlots s.hist) ∧
  (removedSlots s.hist).Nodup ∧
  (∀ a t ref, Op.Remove a t ref ∈ s.hist → t ≤ a ∧ a < s.orths.length)

/-- Bookkeeping of the live counter: `total` is the number of items generated minus
the number of flags set among them, no flag is set beyond them, and every line
printed so far carries a non-negative live count. -/
def LiveInv {σ : Type} (s : State σ) : Prop :=
  s.total = (s.orths.length : Int) - (removedCount s.removed s.orths.length : Int) ∧
  (∀ i, s.removed i = true → i < s.orths.length) ∧
  (∀ rec ∈ s.out, 0 ≤ rec.liveCount)

/-- Accounting of the removal attempts when the schedule is read from step `a` on:
the removals realized so far, the attempts dropped so far and the attempts still
scheduled for steps `a, a+1, ...` add up to `R`; the schedule is non-negative;
attempts were dropped only at the last step and carried only before it. -/
def Pending {σ : Type} (a : Nat) (R : Int) (s : State σ) : Prop :=
  ((removedSlots s.hist).length : Int) + (s.dropped.length : Int) + (s.removals.drop a).sum = R ∧
  (∀ x ∈ s.removals, 0 ≤ x) ∧
  (∀ x ∈ s.dropped, x + 1 = s.removals.length) ∧
  (∀ x ∈ s.carried, x + 1 < s.removals.length)

/-- The precondition the spec gives for `makeOrth`: in every dimension the maximum
extent exceeds the minimum extent, and the upper bound of the universe exceeds every
extent of the range `[MinVol[d], MaxVol[d])`. -/
def makeOrthPre (b : bvhTest) : Prop :=
  ∀ d, d < b.DIM →
    b.MinVol.getD d 0 < b.MaxVol.getD d 0 ∧
    ∀ e, b.MinVol.getD d 0 ≤ e → e < b.MaxVol.getD d 0 → e < b.MaxBounds.P1.getD d 0

/-- The entries of the configuration arrays that `makeOrth` reads are `int32` values. -/
def int32Config (b : bvhTest) : Prop :=
  ∀ d, d < b.DIM →
    isInt32 (b.MinVol.getD d 0) ∧ isInt32 (b.MaxVol.getD d 0) ∧
    isInt32 (b.MaxBounds.P1.getD d 0)

/-- No minimum extent is negative. -/
def nonnegMinVol (b : bvhTest) : Prop :=
  ∀ d, d < b.DIM → 0 ≤ b.MinVol.getD d 0

/-- What `makeOrth` is meant to achieve in dimension `d`: the minimum corner is not
negative and lies below `MaxBounds.P1[d] - extent`, and the extent `P1[d] - P0[d]`
lies in `[MinVol[d], MaxVol[d])`. -/
def GoodDim (b : bvhTest) (orth : Orthotope) (d : Nat) : Prop :=
  0 ≤ orth.P0.getD d 0 ∧
  b.MinVol.getD d 0 ≤ orth.P1.getD d 0 - orth.P0.getD d 0 ∧
  orth.P1.getD d 0 - orth.P0.getD d 0 < b.MaxVol.getD d 0 ∧
  orth.P0.getD d 0 < b.MaxBounds.P1.getD d 0 - (orth.P1.getD d 0 - orth.P0.getD d 0)

/-- The shape of a run that has only inserted: after `n` insertions the counter is
`n`, the output is `n` lines, all of them `add` lines, the `k`-th of which carries
the live count `k`, and the only calls made on the index are `Add` (and the final
`Verify`). -/
def AddsOnly {σ : Type} (n : Nat) (s : State σ) : Prop :=
  s.total = (n : Int) ∧ s.out.length = n ∧
  (∀ k, k < n → ∃ depth duration orth,
    s.out[k]? = some (Record.add ((k : Int) + 1) depth duration orth)) ∧
  (∀ rec ∈ s.out, rec.isAdd = true) ∧
  (∀ op ∈ s.hist, op = Op.Verify ∨ ∃ a orth ref, op = Op.Add a orth ref)

/-- A state with everything that depends on the clock blanked: the duration field
of every printed line and the three accumulated times. -/
def State.untimed {σ : Type} (s : State σ) : State σ :=
  { s with
    out := s.out.map Record.withoutDuration, addTime := 0, subTime := 0, queTime := 0 }

/-- An outcome with its state blanked of everything that depends on the clock. -/
def Outcome.untimed {σ : Type} (o : Outcome σ) : Outcome σ :=
  ⟨o.state.untimed, o.stopped⟩

/-- The clock that reads zero for every operation. -/
def zeroClock : Nat → Int := fun _ => 0

/-- The range of the first draw of `makeOrth` in dimension `d` (line 145): the
`int32` value of `MaxVol[d] - MinVol[d]`. -/
def extentRange (b : bvhTest) (d : Nat) : Int :=
  wrap32 (b.MaxVol.getD d 0 - b.MinVol.getD d 0)

/-- The extent `delta` that `makeOrth`, called with the random source in state `r`,
computes in dimension `d` (line 145) once the draws of the dimensions before `d`
have been accepted; each dimension takes two draws. -/
def drawnExtent (b : bvhTest) (r : Rand) (d : Nat) : Int :=
  wrap32 (b.MinVol.getD d 0 +
    ((r.draws (r.pos + 2 * d) % (extentRange b d).toNat : Nat) : Int))

/-- The range of the second draw of `makeOrth` in dimension `d` (line 147): the
`int32` value of `MaxBounds.P1[d] - delta`. -/
def cornerRange (b : bvhTest) (r : Rand) (d : Nat) : Int :=
  wrap32 (b.MaxBounds.P1.getD d 0 - drawnExtent b r d)

/-- The minimum corner that `makeOrth`, called with the random source in state `r`,
draws in dimension `d` (line 147). -/
def drawnCorner (b : bvhTest) (r : Rand) (d : Nat) : Int :=
  ((r.draws (r.pos + 2 * d + 1) % (cornerRange b r d).toNat : Nat) : Int)

/-- Alignment of the parallel structures `orths`, `refs` and the calls made on the
index: every generated item `i` has its orthotope in `orths[i]` and, in `refs[i]`,
the handle that the `Add` of step `i` returned; the slots of `refs` beyond the
generated items still hold the initial zero; every `Add` in the list of calls is
the one recorded for its step; and every `Remove` was passed the handle `refs[t]`
of a generated item `t`, after the `Add` of step `t` had returned it. -/
def HandlesInv {σ : Type} (s : State σ) : Prop :=
  (∀ i, i < s.orths.length → ∃ orth ref,
    s.orths[i]? = some orth ∧ s.refs[i]? = some ref ∧ Op.Add i orth ref ∈ s.hist) ∧
  (∀ i, s.orths.length ≤ i → i < s.refs.length → s.refs[i]? = some 0) ∧
  (∀ a orth ref, Op.Add a orth ref ∈ s.hist →
    s.orths[a]? = some orth ∧ s.refs[a]? = some ref) ∧
  (∀ a t ref, Op.Remove a t ref ∈ s.hist →
    t ≤ a ∧ a < s.orths.length ∧ s.refs[t]? = some ref) ∧
  (∀ before after a t ref, s.hist = before ++ Op.Remove a t ref :: after →
    ∃ orth, Op.Add t orth ref ∈ before)

/-! ## Concrete inputs for evaluating the embedding -/

/-- A small concrete index used to evaluate the harness on explicit inputs: the index
state is the number of stored items, the handle of the item added with value `a` is
`100 + a`, and `Remove` gives back the value. -/
def countingIndex : Index Nat :=
  { NewInt32Node := 0
    Add := fun n _ a => (100 + a, n + 1)
    Remove := fun n ref => ((ref - 100, true), n - 1)
    Query := fun n _ => ((n : Int), n)
    Depth := fun n => (n : Int)
    Verify := fun _ => true }

/-- A concrete configuration with the given counts: two dimensions, extents drawn
from `[1, 5)` inside the universe `[0, 100)`. -/
def sampleConfig (additions removals queries : Int) : bvhTest :=
  { DIM := 2, MaxBounds := ⟨[0, 0], [100, 100]⟩, MinVol := [1, 1], MaxVol := [5, 5],
    Additions := additions, Removals := removals, Queries := queries, RandSeed := 7 }

/-- A one-dimensional configuration whose extents are drawn from `[-5, -2)` inside
the universe `[0, 10)`. -/
def negativeExtentConfig : bvhTest :=
  { DIM := 1, MaxBounds := ⟨[0], [10]⟩, MinVol := [-5], MaxVol := [-2],
    Additions := 1, Removals := 0, Queries := 0, RandSeed := 7 }

/-- A one-dimensional configuration whose extents are drawn from
`[-2000000000, -1999999990)` inside the universe `[0, 2000000000)`. -/
def wideRangeConfig : bvhTest :=
  { DIM := 1, MaxBounds := ⟨[0], [2000000000]⟩, MinVol := [-2000000000],
    MaxVol := [-1999999990], Additions := 1, Removals := 0, Queries := 0, RandSeed := 7 }

/-- A one-dimensional configuration with `MinVol = [2147483647]`,
`MaxVol = [-2147483648]` and `MaxBounds.P1 = [-2147483648]`. -/
def wrappedRangeConfig : bvhTest :=
  { DIM := 1, MaxBounds := ⟨[0], [-2147483648]⟩, MinVol := [2147483647],
    MaxVol := [-2147483648], Additions := 1, Removals := 0, Queries := 0, RandSeed := 7 }

/-- A one-dimensional configuration whose extents are drawn from `[1, 5)` inside the
universe `[0, 3)`, with two insertions and no removal or query. -/
def narrowUniverseConfig : bvhTest :=
  { DIM := 1, MaxBounds := ⟨[0], [3]⟩, MinVol := [1], MaxVol := [5],
    Additions := 2, Removals := 0, Queries := 0, RandSeed := 7 }

/-- A one-dimensional configuration whose extents are drawn from `[1, 5)` and whose
`MaxBounds` is the interval from 50 to 100. -/
def offsetUniverseConfig : bvhTest :=
  { DIM := 1, MaxBounds := ⟨[50], [100]⟩, MinVol := [1], MaxVol := [5],
    Additions := 1, Removals := 0, Queries := 0, RandSeed := 7 }

/-- A one-dimensional configuration with `MaxVol = MinVol`: the range of extents is
empty. -/
def emptyRangeConfig : bvhTest :=
  { DIM := 1, MaxBounds := ⟨[0], [100]⟩, MinVol := [5], MaxVol := [5],
    Additions := 2, Removals := 0, Queries := 0, RandSeed := 7 }

/-- The state reached in the run of `sampleConfig 2 2 0` on `countingIndex` with every
raw draw equal to 1, in step 1 after the insertion and the first removal attempt:
the state in which the second and last removal attempt of the run is made. -/
def beforeLastAttempt : State Nat :=
  (((runPrefix countingIndex (fun _ _ => 1) (fun _ => 5) (sampleConfig 2 2 0) 1).andThen
    (addItem countingIndex (fun _ => 5) (sampleConfig 2 2 0) 1)).andThen
      (removeOne countingIndex (fun _ => 5) 1)).state

theorem Intn_ok (r : Rand) (n : Int) (h : 0 < n) :
    r.Intn n = .ok (r.draws r.pos % n.toNat, ⟨r.draws, r.pos + 1⟩) := by
  unfold Rand.Intn
  rw [if_neg (by omega)]

theorem Intn_lt (r : Rand) (n : Int) (h : 0 < n) : ((r.draws r.pos % n.toNat : Nat) : Int) < n := by
  have h1 : 0 < n.toNat := by omega
  have h2 := Nat.mod_lt (r.draws r.pos) h1
  omega

theorem Intn_error (r : Rand) (n : Int) (h : n ≤ 0) : r.Intn n = .error .invalidArgument := by
  unfold Rand.Intn
  rw [if_pos h]

theorem Int31n_ok (r : Rand) (n : Int) (h : 0 < n) :
    r.Int31n n = .ok (r.draws r.pos % n.toNat, ⟨r.draws, r.pos + 1⟩) := by
  unfold Rand.Int31n
  rw [if_neg (by omega)]

/-- The statement `events[i] += 1` with the index in range: the element is
replaced by its successor. -/
theorem bump_eq_set (events : List Int) (i : Nat) (h : i < events.length) :
    bump events i = .ok (events.set i (events.getD i 0 + 1)) := by
  unfold bump
  rw [List.getElem?_eq_getElem h, List.getD_eq_getElem events 0 h]

/-- The statement `events[i] += 1` with the index out of range panics. -/
theorem bump_out_of_range (events : List Int) (i : Nat) (h : events.length ≤ i) :
    bump events i = .error .indexOutOfRange := by
  unfold bump
  rw [List.getElem?_eq_none h]

theorem bump_ok (events : List Int) (i : Nat) (h : i < events.length) :
    ∃ ev, bump events i = .ok ev ∧ ev.length = events.length ∧ ev.sum = events.sum + 1 ∧
      ((∀ x ∈ events, 0 ≤ x) → ∀ x ∈ ev, 0 ≤ x) := by
  induction events generalizing i with
  | nil => simp at h
  | cons y ys ih =>
    cases i with
    | zero =>
      refine ⟨(y + 1) :: ys, by simp [bump], by simp, by simp; ring, ?_⟩
      intro hx x hmem
      simp at hmem hx
      rcases hmem with rfl | hmem
      · omega
      · exact hx.2 x hmem
    | succ j =>
      obtain ⟨ev, h1, h2, h3, h4⟩ := ih j (by simpa using h)
      simp only [bump, List.getElem?_cons_succ, List.set_cons_succ] at h1 ⊢
      cases hj : ys[j]? with
      | none => rw [hj] at h1; simp at h1
      | some v =>
        rw [hj] at h1
        simp only [Except.ok.injEq] at h1
        subst h1
        refine ⟨_, rfl, by simp [h2], by simp at h3 ⊢; omega, ?_⟩
        intro hx x hmem
        simp only [List.mem_cons] at hmem hx
        rcases hmem with rfl | hmem
        · exact hx x (Or.inl rfl)
        · exact h4 (fun z hz => hx z (Or.inr hz)) x hmem

theorem distributeLoop_ok (steps : Int) (hs : 0 < steps) (n : Nat) :
    ∀ (events : List Int) (r : Rand), (events.length : Int) = steps →
      ∃ ev, distributeLoop steps n events r = .ok (ev, ⟨r.draws, r.pos + n⟩) ∧
        ev.length = events.length ∧ ev.sum = events.sum + n ∧
        ((∀ x ∈ events, 0 ≤ x) → ∀ x ∈ ev, 0 ≤ x) := by
  induction n with
  | zero => intro events r _; exact ⟨events, rfl, rfl, by simp, fun h => h⟩
  | succ n ih =>
    intro events r hlen
    have hi : r.draws r.pos % steps.toNat < events.length := by
      have := Intn_lt r steps hs
      omega
    obtain ⟨ev1, hb, hl1, hs1, hn1⟩ := bump_ok events _ hi
    obtain ⟨ev, hd, hl, hsum, hnn⟩ := ih ev1 ⟨r.draws, r.pos + 1⟩ (by rw [hl1]; exact hlen)
    refine ⟨ev, ?_, by rw [hl, hl1], by rw [hsum, hs1]; push_cast; ring, fun h => hnn (hn1 h)⟩
    simp only [distributeLoop, Intn_ok r steps hs, hb]
    rw [hd]
    congr 3
    show r.pos + 1 + n = r.pos + (n + 1)
    omega

theorem distribute_ok (r : Rand) (T S : Int) (hS : 1 ≤ S) :
    ∃ events, distribute r T S = .ok (events, ⟨r.draws, r.pos + T.toNat⟩) ∧
      (events.length : Int) = S ∧ (∀ x ∈ events, 0 ≤ x) ∧ events.sum = (T.toNat : Int) := by
  have hlen : ((List.replicate S.toNat (0 : Int)).length : Int) = S := by
    simp; omega
  obtain ⟨ev, h1, h2, h3, h4⟩ := distributeLoop_ok S (by omega) T.toNat _ r hlen
  refine ⟨ev, ?_, by rw [h2]; exact hlen, h4 (by simp), ?_⟩
  · unfold distribute
    rw [if_neg (by omega)]
    exact h1
  · rw [h3]; simp

theorem setup_ok {σ : Type} (I : Index σ) (NewSource : Int → Nat → Nat) (b : bvhTest)
    (hA : 1 ≤ b.Additions) :
    ∃ removals queries,
      setup I NewSource b =
        ⟨{ initState I NewSource b with
            r := ⟨NewSource b.RandSeed, b.Removals.toNat + b.Queries.toNat⟩,
            removals := removals, queries := queries }, none⟩ ∧
      (removals.length : Int) = b.Additions ∧ (∀ x ∈ removals, 0 ≤ x) ∧
      removals.sum = (b.Removals.toNat : Int) ∧
      (queries.length : Int) = b.Additions ∧ (∀ x ∈ queries, 0 ≤ x) ∧
      queries.sum = (b.Queries.toNat : Int) := by
  obtain ⟨rem, h1, h2, h3, h4⟩ := distribute_ok ⟨NewSource b.RandSeed, 0⟩ b.Removals b.Additions hA
  obtain ⟨que, g1, g2, g3, g4⟩ :=
    distribute_ok ⟨NewSource b.RandSeed, 0 + b.Removals.toNat⟩ b.Queries b.Additions hA
  refine ⟨rem, que, ?_, h2, h3, h4, g2, g3, g4⟩
  simp only [Nat.zero_add] at h1 g1
  simp only [setup, initState, h1, g1]

/-- C1: for a total `T >= 0` and a step count `S >= 1`, `distribute` returns a
sequence of length `S` of non-negative integers whose sum is `T`; so the removals
and queries schedules of `runTest` have length `Additions` and sums `Removals` and
`Queries`. -/
theorem distribute_length_sum {σ : Type} (I : Index σ) (NewSource : Int → Nat → Nat)
    (b : bvhTest) (r : Rand) (T S : Int) (hT : 0 ≤ T) (hS : 1 ≤ S)
    (hA : 1 ≤ b.Additions) (hR : 0 ≤ b.Removals) (hQ : 0 ≤ b.Queries) :
    (∃ events r1, distribute r T S = .ok (events, r1) ∧
      (events.length : Int) = S ∧ (∀ x ∈ events, 0 ≤ x) ∧ events.sum = T) ∧
    ((setup I NewSource b).stopped = none ∧
      ((setup I NewSource b).state.removals.length : Int) = b.Additions ∧
      (setup I NewSource b).state.removals.sum = b.Removals ∧
      ((setup I NewSource b).state.queries.length : Int) = b.Additions ∧
      (setup I NewSource b).state.queries.sum = b.Queries) := by
  constructor
  · obtain ⟨ev, h1, h2, h3, h4⟩ := distribute_ok r T S hS
    exact ⟨ev, _, h1, h2, h3, by rw [h4]; omega⟩
  · obtain ⟨rem, que, h, h1, _, h3, h4, _, h6⟩ := setup_ok I NewSource b hA
    rw [h]
    exact ⟨rfl, h1, by rw [h3]; omega, h4, by rw [h6]; omega⟩

/-- Instance of C1: three events over two steps, and the schedules of a run with
`Additions = 3`, `Removals = 2`, `Queries = 1`. -/
theorem distribute_length_sum_witness :
    (∃ events r1, distribute ⟨fun n => n, 0⟩ 3 2 = .ok (events, r1) ∧
      (events.length : Int) = 2 ∧ (∀ x ∈ events, 0 ≤ x) ∧ events.sum = 3) ∧
    ((setup countingIndex (fun _ n => n) (sampleConfig 3 2 1)).stopped = none ∧
      ((setup countingIndex (fun _ n => n) (sampleConfig 3 2 1)).state.removals.length : Int) = 3 ∧
      (setup countingIndex (fun _ n => n) (sampleConfig 3 2 1)).state.removals.sum = 2 ∧
      ((setup countingIndex (fun _ n => n) (sampleConfig 3 2 1)).state.queries.length : Int) = 3 ∧
      (setup countingIndex (fun _ n => n) (sampleConfig 3 2 1)).state.queries.sum = 1) :=
  distribute_length_sum countingIndex (fun _ n => n) (sampleConfig 3 2 1) ⟨fun n => n, 0⟩ 3 2
    (by decide) (by decide) (by decide) (by decide) (by decide)

/-- C10 (as stated, refuted): with zero steps and one event to place, `distribute`
makes the draw `Intn(0)`, which is rejected; `runTest` with `Additions = 0`,
`Removals = 0`, `Queries = 1` stops there. -/
theorem distribute_zero_steps_one_event_fails :
    distribute ⟨fun _ => 0, 0⟩ 1 0 = .error .invalidArgument ∧
    (runTest countingIndex (fun _ _ => 0) (fun _ => 0) (sampleConfig 0 0 1)).stopped =
      some .invalidArgument := by
  constructor <;> rfl

/-- C10 (amended): with zero steps and no event to place, `distribute` makes no
draw and returns the empty sequence; `runTest` with `Additions = 0`, `Removals = 0`
and `Queries = 0` gets empty schedules, performs no step and goes straight to the
final verification. -/
theorem distribute_zero_steps_zero_events {σ : Type} (I : Index σ)
    (NewSource : Int → Nat → Nat) (clk : Nat → Int) (b : bvhTest) (r : Rand)
    (hA : b.Additions = 0) (hR : b.Removals = 0) (hQ : b.Queries = 0) :
    distribute r 0 0 = .ok ([], r) ∧
    (runTest I NewSource clk b).state.removals = [] ∧
    (runTest I NewSource clk b).state.queries = [] ∧
    (runTest I NewSource clk b).state.out = [] ∧
    (runTest I NewSource clk b).state.hist = [Op.Verify] ∧
    (runTest I NewSource clk b).state.r.pos = 0 := by
  refine ⟨rfl, ?_⟩
  simp [runTest, runPrefix, setup, initState, hA, hR, hQ, distribute, distributeLoop,
    stepsFrom, Outcome.andThen, verify]

/-- Instance of C10 (amended): the run with `Additions = 0`, `Removals = 0`,
`Queries = 0`. -/
theorem distribute_zero_steps_zero_events_witness :
    distribute ⟨fun n => n, 5⟩ 0 0 = .ok ([], ⟨fun n => n, 5⟩) ∧
    (runTest countingIndex (fun _ n => n) (fun _ => 0) (sampleConfig 0 0 0)).state.removals = [] ∧
    (runTest countingIndex (fun _ n => n) (fun _ => 0) (sampleConfig 0 0 0)).state.queries = [] ∧
    (runTest countingIndex (fun _ n => n) (fun _ => 0) (sampleConfig 0 0 0)).state.out = [] ∧
    (runTest countingIndex (fun _ n => n) (fun _ => 0) (sampleConfig 0 0 0)).state.hist = [Op.Verify] ∧
    (runTest countingIndex (fun _ n => n) (fun _ => 0) (sampleConfig 0 0 0)).state.r.pos = 0 :=
  distribute_zero_steps_zero_events countingIndex (fun _ n => n) (fun _ => 0) (sampleConfig 0 0 0)
    ⟨fun n => n, 5⟩ rfl rfl rfl

/-! ## Sequencing -/

theorem andThen_ok {σ : Type} (s : State σ) (f : State σ → Outcome σ) :
    (Outcome.mk s none).andThen f = f s := rfl

theorem andThen_stop {σ : Type} (s : State σ) (e : Panic) (f : State σ → Outcome σ) :
    (Outcome.mk s (some e)).andThen f = ⟨s, some e⟩ := rfl

theorem andThen_of_running {σ : Type} (o : Outcome σ) (f : State σ → Outcome σ)
    (h : o.stopped = none) : o.andThen f = f o.state := by
  unfold Outcome.andThen; rw [h]

theorem andThen_of_stopped {σ : Type} (o : Outcome σ) (f : State σ → Outcome σ)
    (h : o.stopped ≠ none) : o.andThen f = o := by
  unfold Outcome.andThen
  cases hs : o.stopped with
  | none => exact absurd hs h
  | some e => rfl

theorem andThen_assoc {σ : Type} (o : Outcome σ) (f g : State σ → Outcome σ) :
    (o.andThen f).andThen g = o.andThen (fun s => (f s).andThen g) := by
  obtain ⟨s, st⟩ := o
  cases st <;> rfl

/-! ## The forward scan of line 96 -/

theorem scan_spec (removed : Nat → Bool) (a : Nat) (n : Nat) :
    ∀ t, t ≤ scan removed a n t ∧ scan removed a n t ≤ t + n ∧
      (∀ i, t ≤ i → i < scan removed a n t → removed i = true ∧ i ≤ a) ∧
      (scan removed a n t < t + n →
        ¬ (removed (scan removed a n t) = true ∧ scan removed a n t ≤ a)) := by
  induction n with
  | zero =>
    intro t
    simp only [scan]
    exact ⟨le_refl _, by omega, fun i h1 h2 => by omega, fun h => by omega⟩
  | succ n ih =>
    intro t
    simp only [scan]
    by_cases hc : (removed t && decide (t ≤ a)) = true
    · rw [if_pos hc]
      obtain ⟨h1, h2, h3, h4⟩ := ih (t + 1)
      simp only [Bool.and_eq_true, decide_eq_true_eq] at hc
      refine ⟨by omega, by omega, ?_, fun h => h4 (by omega)⟩
      intro i hi1 hi2
      by_cases hit : i = t
      · subst hit; exact hc
      · exact h3 i (by omega) hi2
    · rw [if_neg hc]
      simp only [Bool.and_eq_true, decide_eq_true_eq] at hc
      exact ⟨le_refl _, by omega, fun i h1 h2 => by omega, fun _ => hc⟩

theorem scanFrom_spec (removed : Nat → Bool) (a c : Nat) (hc : c ≤ a) :
    c ≤ scanFrom removed a c ∧ scanFrom removed a c ≤ a + 1 ∧
      (∀ i, c ≤ i → i < scanFrom removed a c → removed i = true) ∧
      (scanFrom removed a c ≤ a → removed (scanFrom removed a c) = false) := by
  obtain ⟨h1, h2, h3, h4⟩ := scan_spec removed a (a + 1 - c) c
  unfold scanFrom
  refine ⟨h1, by omega, fun i hi1 hi2 => (h3 i hi1 hi2).1, ?_⟩
  intro hle
  have := h4 (by omega)
  cases hr : removed (scan removed a (a + 1 - c) c) with
  | false => rfl
  | true => exact absurd ⟨hr, hle⟩ this

/-- The loop of line 96 has stopped for the right reason: its test is false at the
value `scanFrom` returns, so the bound on the number of iterations was enough. -/
theorem scanFrom_exit (removed : Nat → Bool) (a c : Nat) (hc : c ≤ a) :
    ¬ (removed (scanFrom removed a c) = true ∧ scanFrom removed a c ≤ a) := by
  obtain ⟨_, _, _, h4⟩ := scanFrom_spec removed a c hc
  intro ⟨h1, h2⟩
  rw [h4 h2] at h1
  exact Bool.false_ne_true h1

/-! ## One removal attempt -/

/-- The candidate drawn on line 95 at step `a`. -/
theorem candidate_le (r : Rand) (a : Nat) : r.draws r.pos % (a + 1) ≤ a :=
  Nat.lt_succ_iff.mp (Nat.mod_lt _ (Nat.succ_pos a))

theorem Intn_step (r : Rand) (a : Nat) :
    r.Intn ((a : Int) + 1) = .ok (r.draws r.pos % (a + 1), ⟨r.draws, r.pos + 1⟩) := by
  rw [Intn_ok r _ (by omega)]
  have : ((a : Int) + 1).toNat = a + 1 := by omega
  rw [this]

/-- The three ways an attempt can go, with the state each one produces. -/
theorem removeOne_cases {σ : Type} (I : Index σ) (clk : Nat → Int) (a : Nat) (s : State σ)
    (ha : a < s.refs.length) :
    (∃ t ref, t = scanFrom s.removed a (s.r.draws s.r.pos % (a + 1)) ∧ t ≤ a ∧
        s.removed t = false ∧ s.refs[t]? = some ref ∧
        removeOne I clk a s =
          ⟨{ s with
              r := ⟨s.r.draws, s.r.pos + 1⟩, removed := Function.update s.removed t true,
              btree := (I.Remove s.btree ref).2, ticks := s.ticks + 1, total := s.total - 1,
              hist := s.hist ++ [Op.Remove a t ref],
              out := s.out ++ [Record.sub (s.total - 1) (I.Depth (I.Remove s.btree ref).2)
                (clk s.ticks) (I.Remove s.btree ref).1.1],
              subTime := s.subTime + clk s.ticks }, none⟩) ∨
    (scanFrom s.removed a (s.r.draws s.r.pos % (a + 1)) = a + 1 ∧
        a + 1 < s.removals.length ∧
        removeOne I clk a s =
          ⟨{ s with
              r := ⟨s.r.draws, s.r.pos + 1⟩,
              removals := s.removals.set (a + 1) (s.removals.getD (a + 1) 0 + 1),
              carried := s.carried ++ [a] }, none⟩) ∨
    (scanFrom s.removed a (s.r.draws s.r.pos % (a + 1)) = a + 1 ∧
        ¬ a + 1 < s.removals.length ∧
        removeOne I clk a s =
          ⟨{ s with r := ⟨s.r.draws, s.r.pos + 1⟩, dropped := s.dropped ++ [a] }, none⟩) := by
  obtain ⟨h1, h2, h3, h4⟩ := scanFrom_spec s.removed a _ (candidate_le s.r a)
  by_cases hle : scanFrom s.removed a (s.r.draws s.r.pos % (a + 1)) ≤ a
  · left
    have hlt : scanFrom s.removed a (s.r.draws s.r.pos % (a + 1)) < s.refs.length := by omega
    refine ⟨_, s.refs[scanFrom s.removed a (s.r.draws s.r.pos % (a + 1))], rfl, hle, h4 hle,
      List.getElem?_eq_getElem hlt, ?_⟩
    simp only [removeOne, Intn_step, if_pos hle, List.getElem?_eq_getElem hlt]
  · have heq : scanFrom s.removed a (s.r.draws s.r.pos % (a + 1)) = a + 1 := by omega
    by_cases hlen : a + 1 < s.removals.length
    · right; left
      refine ⟨heq, hlen, ?_⟩
      simp only [removeOne, Intn_step, if_neg hle, if_pos hlen, bump_eq_set _ _ hlen]
    · right; right
      refine ⟨heq, hlen, ?_⟩
      simp only [removeOne, Intn_step, if_neg hle, if_neg hlen]

theorem removeOne_running {σ : Type} (I : Index σ) (clk : Nat → Int) (a : Nat) (s : State σ)
    (ha : a < s.refs.length) : (removeOne I clk a s).stopped = none := by
  rcases removeOne_cases I clk a s ha with ⟨t, ref, _, _, _, _, h⟩ | ⟨_, _, h⟩ | ⟨_, _, h⟩ <;>
    rw [h]

theorem andThen_congr {σ : Type} (o : Outcome σ) (f g : State σ → Outcome σ)
    (h : o.stopped = none → f o.state = g o.state) : o.andThen f = o.andThen g := by
  obtain ⟨s, st⟩ := o
  cases st with
  | none => exact h rfl
  | some e => rfl

/-! ## One insertion, one query -/

theorem addItem_error {σ : Type} (I : Index σ) (clk : Nat → Int) (b : bvhTest) (a : Nat)
    (s : State σ) (e : Panic) (h : makeOrth b s.r = .error e) :
    addItem I clk b a s = ⟨s, some e⟩ := by
  simp only [addItem, h]

theorem addItem_ok {σ : Type} (I : Index σ) (clk : Nat → Int) (b : bvhTest) (a : Nat)
    (s : State σ) (orth : Orthotope) (r1 : Rand) (h : makeOrth b s.r = .ok (orth, r1))
    (ha : a < s.refs.length) :
    addItem I clk b a s =
      ⟨{ s with
          r := r1, orths := s.orths ++ [orth], btree := (I.Add s.btree orth (a : Int)).2,
          ticks := s.ticks + 1, hist := s.hist ++ [Op.Add a orth (I.Add s.btree orth (a : Int)).1],
          refs := s.refs.set a (I.Add s.btree orth (a : Int)).1, total := s.total + 1,
          out := s.out ++ [Record.add (s.total + 1) (I.Depth (I.Add s.btree orth (a : Int)).2)
            (clk s.ticks) orth],
          addTime := s.addTime + clk s.ticks }, none⟩ := by
  simp only [addItem, h, if_pos ha]

theorem queryOne_error {σ : Type} (I : Index σ) (clk : Nat → Int) (b : bvhTest) (a : Nat)
    (s : State σ) (e : Panic) (h : makeOrth b s.r = .error e) :
    queryOne I clk b a s = ⟨s, some e⟩ := by
  simp only [queryOne, h]

theorem queryOne_ok {σ : Type} (I : Index σ) (clk : Nat → Int) (b : bvhTest) (a : Nat)
    (s : State σ) (q : Orthotope) (r1 : Rand) (h : makeOrth b s.r = .ok (q, r1)) :
    queryOne I clk b a s =
      ⟨{ s with
          r := r1, btree := (I.Query s.btree q).2, ticks := s.ticks + 1,
          hist := s.hist ++ [Op.Query a q],
          out := s.out ++ [Record.que s.total (I.Depth (I.Query s.btree q).2) (clk s.ticks)
            (I.Query s.btree q).1 q],
          queTime := s.queTime + clk s.ticks }, none⟩ := by
  simp only [queryOne, h]

/-! ## What an attempt and a query leave alone -/

theorem removeOne_frame {σ : Type} (I : Index σ) (clk : Nat → Int) (a : Nat) (s : State σ)
    (ha : a < s.refs.length) :
    (removeOne I clk a s).state.refs = s.refs ∧
    (removeOne I clk a s).state.orths = s.orths ∧
    (removeOne I clk a s).state.queries = s.queries ∧
    (removeOne I clk a s).state.removals.length = s.removals.length ∧
    (∀ j, j ≤ a → (removeOne I clk a s).state.removals[j]? = s.removals[j]?) := by
  rcases removeOne_cases I clk a s ha with ⟨t, ref, _, _, _, _, h⟩ | ⟨_, _, h⟩ | ⟨_, _, h⟩ <;>
    rw [h] <;> simp
  intro j hj
  rw [List.getElem?_set_ne (by omega)]

theorem queryOne_frame {σ : Type} (I : Index σ) (clk : Nat → Int) (b : bvhTest) (a : Nat)
    (s : State σ) :
    (queryOne I clk b a s).state.refs = s.refs ∧
    (queryOne I clk b a s).state.orths = s.orths ∧
    (queryOne I clk b a s).state.queries = s.queries ∧
    (queryOne I clk b a s).state.removals = s.removals ∧
    (queryOne I clk b a s).state.removed = s.removed ∧
    (queryOne I clk b a s).state.total = s.total ∧
    (queryOne I clk b a s).state.carried = s.carried ∧
    (queryOne I clk b a s).state.dropped = s.dropped := by
  cases h : makeOrth b s.r with
  | error e => rw [queryOne_error I clk b a s e h]; simp
  | ok p => obtain ⟨q, r1⟩ := p; rw [queryOne_ok I clk b a s q r1 h]; simp

/-! ## The inner loops run the number of times their schedules say -/

theorem removalLoop_eq_attempts {σ : Type} (I : Index σ) (clk : Nat → Int) (a : Nat) (m : Int) :
    ∀ (n k : Nat) (s : State σ), a < s.refs.length → s.removals[a]? = some m →
      m.toNat + 1 ≤ n + k → k ≤ m.toNat →
      removalLoop I clk a n k s = attempts I clk a (m.toNat - k) s := by
  intro n
  induction n with
  | zero => intro k s _ _ h1 h2; omega
  | succ n ih =>
    intro k s ha hm h1 h2
    simp only [removalLoop, hm]
    by_cases hk : (k : Int) < m
    · rw [if_pos hk]
      have hsplit : m.toNat - k = (m.toNat - (k + 1)) + 1 := by omega
      rw [hsplit]
      simp only [attempts]
      apply andThen_congr
      intro _
      obtain ⟨f1, _, _, _, f5⟩ := removeOne_frame I clk a s ha
      exact ih (k + 1) _ (by rw [f1]; exact ha) (by rw [f5 a (le_refl a)]; exact hm)
        (by omega) (by omega)
    · rw [if_neg hk]
      have : m.toNat - k = 0 := by omega
      rw [this]
      rfl

theorem removalsOf_eq_attempts {σ : Type} (I : Index σ) (clk : Nat → Int) (a : Nat)
    (s : State σ) (ha : a < s.refs.length) (hr : a < s.removals.length) :
    removalsOf I clk a s = attempts I clk a (s.removals.getD a 0).toNat s := by
  unfold removalsOf
  have hm : s.removals[a]? = some (s.removals.getD a 0) := by
    rw [List.getD_eq_getElem?_getD, List.getElem?_eq_getElem hr]; rfl
  rw [removalLoop_eq_attempts I clk a _ _ 0 s ha hm (by omega) (by omega)]
  rfl

theorem queryLoop_eq_queryRuns {σ : Type} (I : Index σ) (clk : Nat → Int) (b : bvhTest)
    (a : Nat) (m : Int) :
    ∀ (n k : Nat) (s : State σ), s.queries[a]? = some m →
      m.toNat + 1 ≤ n + k → k ≤ m.toNat →
      queryLoop I clk b a n k s = queryRuns I clk b a (m.toNat - k) s := by
  intro n
  induction n with
  | zero => intro k s _ h1 h2; omega
  | succ n ih =>
    intro k s hm h1 h2
    simp only [queryLoop, hm]
    by_cases hk : (k : Int) < m
    · rw [if_pos hk]
      have hsplit : m.toNat - k = (m.toNat - (k + 1)) + 1 := by omega
      rw [hsplit]
      simp only [queryRuns]
      apply andThen_congr
      intro _
      obtain ⟨_, _, f3, _⟩ := queryOne_frame I clk b a s
      exact ih (k + 1) _ (by rw [f3]; exact hm) (by omega) (by omega)
    · rw [if_neg hk]
      have : m.toNat - k = 0 := by omega
      rw [this]
      rfl

theorem queriesOf_eq_queryRuns {σ : Type} (I : Index σ) (clk : Nat → Int) (b : bvhTest)
    (a : Nat) (s : State σ) (hq : a < s.queries.length) :
    queriesOf I clk b a s = queryRuns I clk b a (s.queries.getD a 0).toNat s := by
  unfold queriesOf
  have hm : s.queries[a]? = some (s.queries.getD a 0) := by
    rw [List.getD_eq_getElem?_getD, List.getElem?_eq_getElem hq]; rfl
  rw [queryLoop_eq_queryRuns I clk b a _ _ 0 s hm (by omega) (by omega)]
  rfl

/-! ## The shape of the state along a run -/

theorem addItem_shape {σ : Type} (I : Index σ) (clk : Nat → Int) (b : bvhTest) (N a : Nat)
    (s : State σ) (hs : Shape N a s) (ha : a < N) :
    ((addItem I clk b a s).stopped = none ∧ Shape N (a + 1) (addItem I clk b a s).state ∧
        ∃ orth r1, makeOrth b s.r = .ok (orth, r1)) ∨
    ((addItem I clk b a s).stopped ≠ none ∧ (addItem I clk b a s).state = s) := by
  obtain ⟨h1, h2, h3, h4⟩ := hs
  cases h : makeOrth b s.r with
  | error e => right; rw [addItem_error I clk b a s e h]; simp
  | ok p =>
    obtain ⟨orth, r1⟩ := p
    left
    rw [addItem_ok I clk b a s orth r1 h (by omega)]
    refine ⟨rfl, ⟨?_, h2, h3, ?_⟩, orth, r1, rfl⟩
    · simp [h1]
    · simp [h4]

theorem removeOne_shape {σ : Type} (I : Index σ) (clk : Nat → Int) (N a : Nat)
    (s : State σ) (hs : Shape N (a + 1) s) (ha : a < N) :
    (removeOne I clk a s).stopped = none ∧ Shape N (a + 1) (removeOne I clk a s).state := by
  obtain ⟨h1, h2, h3, h4⟩ := hs
  obtain ⟨f1, f2, f3, f4, _⟩ := removeOne_frame I clk a s (by omega)
  exact ⟨removeOne_running I clk a s (by omega), by rw [f1]; exact h1, by rw [f4]; exact h2,
    by rw [f3]; exact h3, by rw [f2]; exact h4⟩

theorem queryOne_shape {σ : Type} (I : Index σ) (clk : Nat → Int) (b : bvhTest) (N n a : Nat)
    (s : State σ) (hs : Shape N n s) : Shape N n (queryOne I clk b a s).state := by
  obtain ⟨h1, h2, h3, h4⟩ := hs
  obtain ⟨f1, f2, f3, f4, _⟩ := queryOne_frame I clk b a s
  exact ⟨by rw [f1]; exact h1, by rw [f4]; exact h2, by rw [f3]; exact h3, by rw [f2]; exact h4⟩

/-- Invariants of the attempts of one step. -/
theorem attempts_always {σ : Type} (I : Index σ) (clk : Nat → Int) (N a : Nat) (ha : a < N)
    (K : State σ → Prop)
    (hRem : ∀ s, Shape N (a + 1) s → K s → K (removeOne I clk a s).state) :
    ∀ (n : Nat) (s : State σ), Shape N (a + 1) s → K s →
      (attempts I clk a n s).stopped = none ∧ Shape N (a + 1) (attempts I clk a n s).state ∧
        K (attempts I clk a n s).state := by
  intro n
  induction n with
  | zero => intro s hs hk; exact ⟨rfl, hs, hk⟩
  | succ n ih =>
    intro s hs hk
    obtain ⟨h1, h2⟩ := removeOne_shape I clk N a s hs ha
    simp only [attempts]
    rw [andThen_of_running _ _ h1]
    exact ih _ h2 (hRem s hs hk)

/-- Invariants of the queries of one step. -/
theorem queryRuns_always {σ : Type} (I : Index σ) (clk : Nat → Int) (b : bvhTest) (N n a : Nat)
    (K : State σ → Prop)
    (hQue : ∀ s, Shape N n s → K s → K (queryOne I clk b a s).state) :
    ∀ (m : Nat) (s : State σ), Shape N n s → K s →
      Shape N n (queryRuns I clk b a m s).state ∧ K (queryRuns I clk b a m s).state := by
  intro m
  induction m with
  | zero => intro s hs hk; exact ⟨hs, hk⟩
  | succ m ih =>
    intro s hs hk
    simp only [queryRuns]
    cases hst : (queryOne I clk b a s).stopped with
    | none =>
      rw [andThen_of_running _ _ hst]
      exact ih _ (queryOne_shape I clk b N n a s hs) (hQue s hs hk)
    | some e =>
      rw [andThen_of_stopped _ _ (by rw [hst]; simp)]
      exact ⟨queryOne_shape I clk b N n a s hs, hQue s hs hk⟩

/-- One step of the main loop, with its inner loops in closed form. -/
theorem step_eq {σ : Type} (I : Index σ) (clk : Nat → Int) (b : bvhTest) (N a : Nat)
    (s : State σ) (hs : Shape N a s) (ha : a < N) :
    step I clk b a s =
      ((addItem I clk b a s).andThen
        (fun s1 => attempts I clk a (s1.removals.getD a 0).toNat s1)).andThen
        (fun s2 => queryRuns I clk b a (s2.queries.getD a 0).toNat s2) := by
  unfold step
  have hadd : (addItem I clk b a s).andThen (removalsOf I clk a) =
      (addItem I clk b a s).andThen
        (fun s1 => attempts I clk a (s1.removals.getD a 0).toNat s1) := by
    apply andThen_congr
    intro hrun
    rcases addItem_shape I clk b N a s hs ha with ⟨_, ⟨h1, h2, _, _⟩, _⟩ | ⟨h, _⟩
    · exact removalsOf_eq_attempts I clk a _ (by omega) (by omega)
    · exact absurd hrun h
  rw [hadd]
  apply andThen_congr
  intro _
  have hsh : Shape N (a + 1) ((addItem I clk b a s).andThen
        (fun s1 => attempts I clk a (s1.removals.getD a 0).toNat s1)).state ∨
      Shape N a ((addItem I clk b a s).andThen
        (fun s1 => attempts I clk a (s1.removals.getD a 0).toNat s1)).state := by
    rcases addItem_shape I clk b N a s hs ha with ⟨h0, h1, _⟩ | ⟨h, h1⟩
    · left
      rw [andThen_of_running _ _ h0]
      exact (attempts_always I clk N a ha (fun _ => True) (fun _ _ _ => trivial) _ _ h1
        trivial).2.1
    · right
      rw [andThen_of_stopped _ _ h, h1]
      exact hs
  have hq : a < ((addItem I clk b a s).andThen
        (fun s1 => attempts I clk a (s1.removals.getD a 0).toNat s1)).state.queries.length := by
    rcases hsh with ⟨_, _, h3, _⟩ | ⟨_, _, h3, _⟩ <;> omega
  exact queriesOf_eq_queryRuns I clk b a _ hq

/-- A property that every insertion, every removal attempt and every query preserves
holds throughout the main loop, whether or not the run is stopped by a panic. -/
theorem stepsFrom_always {σ : Type} (I : Index σ) (clk : Nat → Int) (b : bvhTest)
    (K : State σ → Prop)
    (hAdd : ∀ a s, Shape b.Additions.toNat a s → a < b.Additions.toNat → K s →
      K (addItem I clk b a s).state)
    (hRem : ∀ a s, Shape b.Additions.toNat (a + 1) s → a < b.Additions.toNat → K s →
      K (removeOne I clk a s).state)
    (hQue : ∀ a s, Shape b.Additions.toNat (a + 1) s → a < b.Additions.toNat → K s →
      K (queryOne I clk b a s).state) :
    ∀ (n a : Nat) (s : State σ), Shape b.Additions.toNat a s → a + n ≤ b.Additions.toNat →
      K s →
      K (stepsFrom I clk b n a s).state ∧
      ∃ m, a ≤ m ∧ m ≤ a + n ∧ Shape b.Additions.toNat m (stepsFrom I clk b n a s).state ∧
        ((stepsFrom I clk b n a s).stopped = none → m = a + n) := by
  intro n
  induction n with
  | zero => intro a s hs _ hk; exact ⟨hk, a, le_refl _, le_refl _, hs, fun _ => rfl⟩
  | succ n ih =>
    intro a s hs han hk
    have ha : a < b.Additions.toNat := by omega
    have hcond : (a : Int) < b.Additions := by omega
    simp only [stepsFrom, if_pos hcond]
    rw [step_eq I clk b _ a s hs ha]
    rcases addItem_shape I clk b _ a s hs ha with ⟨h0, h1, _⟩ | ⟨h, h1⟩
    · rw [andThen_of_running _ _ h0]
      obtain ⟨g0, g1, g2⟩ := attempts_always I clk _ a ha K (fun s hs hk => hRem a s hs ha hk)
        ((addItem I clk b a s).state.removals.getD a 0).toNat _ h1 (hAdd a s hs ha hk)
      rw [andThen_of_running _ _ g0]
      obtain ⟨q1, q2⟩ := queryRuns_always I clk b _ (a + 1) a K
        (fun s hs hk => hQue a s hs ha hk)
        (((attempts I clk a ((addItem I clk b a s).state.removals.getD a 0).toNat
          (addItem I clk b a s).state).state.queries.getD a 0).toNat) _ g1 g2
      cases hst : (queryRuns I clk b a
          (((attempts I clk a ((addItem I clk b a s).state.removals.getD a 0).toNat
            (addItem I clk b a s).state).state.queries.getD a 0).toNat)
          (attempts I clk a ((addItem I clk b a s).state.removals.getD a 0).toNat
            (addItem I clk b a s).state).state).stopped with
      | none =>
        rw [andThen_of_running _ _ hst]
        obtain ⟨r1, m, r2, r3, r4, r5⟩ := ih (a + 1) _ q1 (by omega) q2
        exact ⟨r1, m, by omega, by omega, r4, fun h => by have := r5 h; omega⟩
      | some e =>
        rw [andThen_of_stopped _ _ (by rw [hst]; simp)]
        exact ⟨q2, a + 1, by omega, by omega, q1, fun h => by rw [hst] at h; simp at h⟩
    · rw [andThen_of_stopped _ _ h, andThen_of_stopped _ _ h, andThen_of_stopped _ _ h, h1]
      exact ⟨hk, a, le_refl _, by omega, hs, fun hh => absurd hh h⟩

/-! ## The schedules and the state in which the main loop starts -/

theorem distribute_zero_steps (r : Rand) (T : Int) :
    distribute r T 0 = if T.toNat = 0 then .ok ([], r) else .error .invalidArgument := by
  unfold distribute
  rw [if_neg (by omega)]
  cases h : T.toNat with
  | zero => rfl
  | succ n => simp [distributeLoop, Intn_error r 0 (le_refl 0)]

theorem distribute_spec (r : Rand) (T S : Int) (events : List Int) (r1 : Rand)
    (h : distribute r T S = .ok (events, r1)) :
    0 ≤ S ∧ events.length = S.toNat ∧ (∀ x ∈ events, 0 ≤ x) ∧ events.sum = (T.toNat : Int) ∧
      r1 = ⟨r.draws, r.pos + T.toNat⟩ := by
  by_cases hneg : S < 0
  · unfold distribute at h
    rw [if_pos hneg] at h
    cases h
  · by_cases hz : S = 0
    · subst hz
      rw [distribute_zero_steps] at h
      by_cases ht : T.toNat = 0
      · rw [if_pos ht] at h
        simp only [Except.ok.injEq, Prod.mk.injEq] at h
        obtain ⟨h1, h2⟩ := h
        subst h1; subst h2
        simp [ht]
      · rw [if_neg ht] at h
        cases h
    · obtain ⟨ev, h1, h2, h3, h4⟩ := distribute_ok r T S (by omega)
      rw [h1] at h
      simp only [Except.ok.injEq, Prod.mk.injEq] at h
      obtain ⟨g1, g2⟩ := h
      subst g1; subst g2
      exact ⟨by omega, by omega, h3, h4, rfl⟩

/-- Everything but the random source and the two schedules is as allocated. -/
theorem setup_fields {σ : Type} (I : Index σ) (NewSource : Int → Nat → Nat) (b : bvhTest) :
    (setup I NewSource b).state.refs = List.replicate b.Additions.toNat 0 ∧
    (setup I NewSource b).state.orths = [] ∧
    (setup I NewSource b).state.removed = (fun _ => false) ∧
    (setup I NewSource b).state.total = 0 ∧
    (setup I NewSource b).state.out = [] ∧
    (setup I NewSource b).state.hist = [] ∧
    (setup I NewSource b).state.carried = [] ∧
    (setup I NewSource b).state.dropped = [] ∧
    (setup I NewSource b).state.ticks = 0 ∧
    (setup I NewSource b).state.btree = I.NewInt32Node := by
  unfold setup
  dsimp only []
  split
  · simp [initState]
  · split <;> simp [initState]

/-- When both schedules are produced, they have length `Additions`, the removals
schedule is non-negative and sums to the number of events placed. -/
theorem setup_running {σ : Type} (I : Index σ) (NewSource : Int → Nat → Nat) (b : bvhTest)
    (h : (setup I NewSource b).stopped = none) :
    Shape b.Additions.toNat 0 (setup I NewSource b).state ∧
    (∀ x ∈ (setup I NewSource b).state.removals, 0 ≤ x) ∧
    (setup I NewSource b).state.removals.sum = (b.Removals.toNat : Int) ∧
    (∀ x ∈ (setup I NewSource b).state.queries, 0 ≤ x) ∧
    (setup I NewSource b).state.queries.sum = (b.Queries.toNat : Int) := by
  obtain ⟨f1, f2, _⟩ := setup_fields I NewSource b
  have hrefs : (setup I NewSource b).state.refs.length = b.Additions.toNat := by
    rw [f1]; simp
  have horths : (setup I NewSource b).state.orths.length = 0 := by
    rw [f2]; rfl
  unfold setup at h ⊢
  dsimp only [] at h ⊢
  split at h
  · simp at h
  · rename_i rem r1 h1
    split at h
    · simp at h
    · rename_i que r2 h2
      obtain ⟨_, a2, a3, a4, _⟩ := distribute_spec _ _ _ _ _ h1
      obtain ⟨_, b2, b3, b4, _⟩ := distribute_spec _ _ _ _ _ h2
      simp only [Shape]
      refine ⟨⟨?_, a2, b2, ?_⟩, a3, a4, b3, b4⟩
      · simp [initState]
      · simp [initState]

/-! ## Properties that hold throughout every run -/

theorem runPrefix_always {σ : Type} (I : Index σ) (NewSource : Int → Nat → Nat)
    (clk : Nat → Int) (b : bvhTest) (K : State σ → Prop)
    (hSetup : K (setup I NewSource b).state)
    (hAdd : ∀ a s, Shape b.Additions.toNat a s → a < b.Additions.toNat → K s →
      K (addItem I clk b a s).state)
    (hRem : ∀ a s, Shape b.Additions.toNat (a + 1) s → a < b.Additions.toNat → K s →
      K (removeOne I clk a s).state)
    (hQue : ∀ a s, Shape b.Additions.toNat (a + 1) s → a < b.Additions.toNat → K s →
      K (queryOne I clk b a s).state)
    (n : Nat) (hn : n ≤ b.Additions.toNat) :
    K (runPrefix I NewSource clk b n).state ∧
    (runPrefix I NewSource clk b n).state.orths.length ≤ n ∧
    ((runPrefix I NewSource clk b n).stopped = none →
      Shape b.Additions.toNat n (runPrefix I NewSource clk b n).state) := by
  unfold runPrefix
  cases hst : (setup I NewSource b).stopped with
  | none =>
    rw [andThen_of_running _ _ hst]
    obtain ⟨hsh, _⟩ := setup_running I NewSource b hst
    obtain ⟨h1, m, h2, h3, h4, h5⟩ :=
      stepsFrom_always I clk b K hAdd hRem hQue n 0 _ hsh (by omega) hSetup
    refine ⟨h1, by rw [h4.2.2.2]; omega, fun hrun => ?_⟩
    have hm : m = n := by have := h5 hrun; omega
    subst hm
    exact h4
  | some e =>
    rw [andThen_of_stopped _ _ (by rw [hst]; simp)]
    obtain ⟨_, f2, _⟩ := setup_fields I NewSource b
    exact ⟨hSetup, by rw [f2]; simp, fun h => by rw [hst] at h; simp at h⟩

theorem runTest_always {σ : Type} (I : Index σ) (NewSource : Int → Nat → Nat)
    (clk : Nat → Int) (b : bvhTest) (K : State σ → Prop)
    (hNeg : K (initState I NewSource b))
    (hErr : K { initState I NewSource b with out := [Record.incorrectConfig] })
    (hSetup : K (setup I NewSource b).state)
    (hAdd : ∀ a s, Shape b.Additions.toNat a s → a < b.Additions.toNat → K s →
      K (addItem I clk b a s).state)
    (hRem : ∀ a s, Shape b.Additions.toNat (a + 1) s → a < b.Additions.toNat → K s →
      K (removeOne I clk a s).state)
    (hQue : ∀ a s, Shape b.Additions.toNat (a + 1) s → a < b.Additions.toNat → K s →
      K (queryOne I clk b a s).state)
    (hVerify : ∀ s, K s → K (verify I s).state) :
    K (runTest I NewSource clk b).state ∧
      (runTest I NewSource clk b).state.orths.length ≤ b.Additions.toNat := by
  unfold runTest
  by_cases h1 : b.Additions < 0
  · rw [if_pos h1]; exact ⟨hNeg, by simp [initState]⟩
  · rw [if_neg h1]
    by_cases h2 : b.Removals > b.Additions
    · rw [if_pos h2]; exact ⟨hErr, by simp [initState]⟩
    · rw [if_neg h2]
      obtain ⟨g1, g2, _⟩ := runPrefix_always I NewSource clk b K hSetup hAdd hRem hQue
        b.Additions.toNat (le_refl _)
      cases hst : (runPrefix I NewSource clk b b.Additions.toNat).stopped with
      | none =>
        rw [andThen_of_running _ _ hst]
        exact ⟨hVerify _ g1, by simpa [verify] using g2⟩
      | some e =>
        rw [andThen_of_stopped _ _ (by rw [hst]; simp)]
        exact ⟨g1, g2⟩

/-! ## The slots passed to Remove -/

theorem removedSlots_append (h1 h2 : List Op) :
    removedSlots (h1 ++ h2) = removedSlots h1 ++ removedSlots h2 := by
  induction h1 with
  | nil => rfl
  | cons op rest ih =>
    cases op <;> simp [removedSlots, ih]

theorem mem_removedSlots (hist : List Op) (t : Nat) :
    t ∈ removedSlots hist ↔ ∃ a ref, Op.Remove a t ref ∈ hist := by
  induction hist with
  | nil => simp [removedSlots]
  | cons op rest ih =>
    cases op with
    | Remove a1 t1 ref1 =>
      simp only [removedSlots, List.mem_cons, ih, Op.Remove.injEq]
      constructor
      · rintro (h | ⟨a, ref, h⟩)
        · exact ⟨a1, ref1, Or.inl ⟨rfl, h, rfl⟩⟩
        · exact ⟨a, ref, Or.inr h⟩
      · rintro ⟨a, ref, (⟨_, h, _⟩ | h)⟩
        · exact Or.inl h
        · exact Or.inr ⟨a, ref, h⟩
    | Add a1 o1 ref1 => simp [removedSlots, ih]
    | Query a1 q1 => simp [removedSlots, ih]
    | Verify => simp [removedSlots, ih]

/-! ## Counting flags -/

theorem removedCount_le (removed : Nat → Bool) (n : Nat) : removedCount removed n ≤ n := by
  unfold removedCount
  have := List.countP_le_length removed (l := List.range n)
  simpa using this

theorem removedCount_succ (removed : Nat → Bool) (n : Nat) :
    removedCount removed (n + 1) = removedCount removed n + if removed n then 1 else 0 := by
  unfold removedCount
  rw [List.range_succ, List.countP_append]
  cases h : removed n <;> simp [List.countP_cons, h]

theorem removedCount_mono (f g : Nat → Bool) (h : ∀ i, f i = true → g i = true) (n : Nat) :
    removedCount f n ≤ removedCount g n := by
  induction n with
  | zero => simp [removedCount]
  | succ n ih =>
    rw [removedCount_succ, removedCount_succ]
    cases hf : f n with
    | false => simp; omega
    | true => rw [h n hf]; simp; omega

theorem removedCount_update_ge (f : Nat → Bool) (t n : Nat) (h : n ≤ t) :
    removedCount (Function.update f t true) n = removedCount f n := by
  induction n with
  | zero => simp [removedCount]
  | succ n ih =>
    rw [removedCount_succ, removedCount_succ, ih (by omega),
      Function.update_noteq (by omega : n ≠ t)]

theorem removedCount_update_lt (f : Nat → Bool) (t n : Nat) (h : t < n) (hf : f t = false) :
    removedCount (Function.update f t true) n = removedCount f n + 1 := by
  induction n with
  | zero => omega
  | succ n ih =>
    rw [removedCount_succ, removedCount_succ]
    by_cases htn : t = n
    · subst htn
      rw [removedCount_update_ge f t t (le_refl t), hf]
      simp
    · rw [ih (by omega), Function.update_noteq (by omega : n ≠ t)]
      omega

/-! ## What one attempt does to the flags, from any state -/

theorem removeOne_flags {σ : Type} (I : Index σ) (clk : Nat → Int) (a : Nat) (s : State σ) :
    (removeOne I clk a s).state.removed = s.removed ∨
    ∃ t, t ≤ a ∧ s.removed t = false ∧
      (removeOne I clk a s).state.removed = Function.update s.removed t true := by
  obtain ⟨_, _, _, h4⟩ := scanFrom_spec s.removed a _ (candidate_le s.r a)
  simp only [removeOne, Intn_step]
  by_cases hle : scanFrom s.removed a (s.r.draws s.r.pos % (a + 1)) ≤ a
  · right
    rw [if_pos hle]
    refine ⟨_, hle, h4 hle, ?_⟩
    cases s.refs[scanFrom s.removed a (s.r.draws s.r.pos % (a + 1))]? <;> rfl
  · left
    rw [if_neg hle]
    by_cases hlen : a + 1 < s.removals.length
    · rw [if_pos hlen, bump_eq_set _ _ hlen]
    · rw [if_neg hlen]

theorem removeOne_keeps_flags {σ : Type} (I : Index σ) (clk : Nat → Int) (a : Nat)
    (s : State σ) (i : Nat) (h : s.removed i = true) :
    (removeOne I clk a s).state.removed i = true := by
  rcases removeOne_flags I clk a s with h1 | ⟨t, _, ht, h1⟩
  · rw [h1]; exact h
  · rw [h1]
    by_cases hit : i = t
    · subst hit; simp
    · rw [Function.update_noteq hit]; exact h

theorem addItem_removed {σ : Type} (I : Index σ) (clk : Nat → Int) (b : bvhTest) (a : Nat)
    (s : State σ) : (addItem I clk b a s).state.removed = s.removed := by
  unfold addItem
  split
  · rfl
  · dsimp only []
    split <;> rfl

/-! ## The removed flags along a run -/

theorem addItem_slots {σ : Type} (I : Index σ) (clk : Nat → Int) (b : bvhTest) (N a : Nat)
    (s : State σ) (hs : Shape N a s) (ha : a < N) (hk : SlotsInv s) :
    SlotsInv (addItem I clk b a s).state := by
  obtain ⟨h1, h2, h3⟩ := hk
  cases h : makeOrth b s.r with
  | error e => rw [addItem_error I clk b a s e h]; exact ⟨h1, h2, h3⟩
  | ok p =>
    obtain ⟨orth, r1⟩ := p
    rw [addItem_ok I clk b a s orth r1 h (by rw [hs.1]; exact ha)]
    refine ⟨?_, ?_, ?_⟩
    · intro i
      simp only [removedSlots_append, removedSlots, List.append_nil]
      exact h1 i
    · simp only [removedSlots_append, removedSlots, List.append_nil]
      exact h2
    · intro a1 t ref hmem
      simp only [List.mem_append, List.mem_singleton, List.length_append, List.length_singleton,
        reduceCtorEq, or_false] at hmem ⊢
      have := h3 a1 t ref hmem
      omega

theorem removeOne_slots {σ : Type} (I : Index σ) (clk : Nat → Int) (N a : Nat)
    (s : State σ) (hs : Shape N (a + 1) s) (ha : a < N) (hk : SlotsInv s) :
    SlotsInv (removeOne I clk a s).state := by
  obtain ⟨h1, h2, h3⟩ := hk
  rcases removeOne_cases I clk a s (by rw [hs.1]; exact ha) with
    ⟨t, ref, _, hle, hf, _, h⟩ | ⟨_, _, h⟩ | ⟨_, _, h⟩
  · rw [h]
    have hnot : t ∉ removedSlots s.hist := by
      intro hmem
      rw [(h1 t).mpr hmem] at hf
      exact Bool.noConfusion hf
    refine ⟨?_, ?_, ?_⟩
    · intro i
      simp only [removedSlots_append, removedSlots, List.mem_append, List.mem_singleton]
      by_cases hit : i = t
      · subst hit; simp
      · rw [Function.update_noteq hit, h1 i]
        simp [hit]
    · simp only [removedSlots_append, removedSlots]
      exact List.Nodup.append h2 (List.nodup_singleton t) (by simpa using hnot)
    · intro a1 t1 ref1 hmem
      simp only [List.mem_append, List.mem_singleton, Op.Remove.injEq] at hmem
      rcases hmem with hmem | ⟨e1, e2, _⟩
      · exact h3 a1 t1 ref1 hmem
      · subst e1; subst e2
        exact ⟨hle, by rw [hs.2.2.2]; omega⟩
  · rw [h]; exact ⟨h1, h2, h3⟩
  · rw [h]; exact ⟨h1, h2, h3⟩

theorem queryOne_slots {σ : Type} (I : Index σ) (clk : Nat → Int) (b : bvhTest) (a : Nat)
    (s : State σ) (hk : SlotsInv s) : SlotsInv (queryOne I clk b a s).state := by
  obtain ⟨h1, h2, h3⟩ := hk
  cases h : makeOrth b s.r with
  | error e => rw [queryOne_error I clk b a s e h]; exact ⟨h1, h2, h3⟩
  | ok p =>
    obtain ⟨q, r1⟩ := p
    rw [queryOne_ok I clk b a s q r1 h]
    refine ⟨?_, ?_, ?_⟩
    · intro i
      simp only [removedSlots_append, removedSlots, List.append_nil]
      exact h1 i
    · simp only [removedSlots_append, removedSlots, List.append_nil]
      exact h2
    · intro a1 t ref hmem
      simp only [List.mem_append, List.mem_singleton, reduceCtorEq, or_false] at hmem
      exact h3 a1 t ref hmem

theorem verify_slots {σ : Type} (I : Index σ) (s : State σ) (hk : SlotsInv s) :
    SlotsInv (verify I s).state := by
  obtain ⟨h1, h2, h3⟩ := hk
  refine ⟨?_, ?_, ?_⟩
  · intro i
    simp only [verify, removedSlots_append, removedSlots, List.append_nil]
    exact h1 i
  · simp only [verify, removedSlots_append, removedSlots, List.append_nil]
    exact h2
  · intro a1 t ref hmem
    simp only [verify, List.mem_append, List.mem_singleton, reduceCtorEq, or_false] at hmem
    exact h3 a1 t ref hmem

theorem slotsInv_of_fresh {σ : Type} (s : State σ) (h1 : s.removed = fun _ => false)
    (h2 : s.hist = []) : SlotsInv s := by
  refine ⟨?_, ?_, ?_⟩
  · intro i; rw [h1, h2]; simp [removedSlots]
  · rw [h2]; simp [removedSlots]
  · intro a t ref hmem; rw [h2] at hmem; simp at hmem

theorem runTest_slots {σ : Type} (I : Index σ) (NewSource : Int → Nat → Nat)
    (clk : Nat → Int) (b : bvhTest) :
    SlotsInv (runTest I NewSource clk b).state ∧
      (runTest I NewSource clk b).state.orths.length ≤ b.Additions.toNat := by
  obtain ⟨_, _, f3, _, _, f6, _⟩ := setup_fields I NewSource b
  exact runTest_always I NewSource clk b SlotsInv
    (slotsInv_of_fresh _ rfl rfl) (slotsInv_of_fresh _ rfl rfl) (slotsInv_of_fresh _ f3 f6)
    (fun a s hs ha hk => addItem_slots I clk b _ a s hs ha hk)
    (fun a s hs ha hk => removeOne_slots I clk _ a s hs ha hk)
    (fun a s _ _ hk => queryOne_slots I clk b a s hk)
    (fun s hk => verify_slots I s hk)

/-- C2: every slot passed to `Remove` at step `a` lies in `[0, a]` and had its flag
clear just before the flag was set; so no slot is removed twice, no flag is ever
cleared again, the number of flags set never decreases, and no slot beyond the
current step is marked. -/
theorem removal_targets_distinct_in_range {σ : Type} (I : Index σ)
    (NewSource : Int → Nat → Nat) (clk : Nat → Int) (b : bvhTest) :
    (∀ a t ref, Op.Remove a t ref ∈ (runTest I NewSource clk b).state.hist →
      t ≤ a ∧ (a : Int) < b.Additions) ∧
    (removedSlots (runTest I NewSource clk b).state.hist).Nodup ∧
    (∀ i, (runTest I NewSource clk b).state.removed i = true ↔
      ∃ a ref, Op.Remove a i ref ∈ (runTest I NewSource clk b).state.hist) ∧
    (∀ (a : Nat) (s : State σ),
      (removeOne I clk a s).state.removed = s.removed ∨
      ∃ t, t ≤ a ∧ s.removed t = false ∧
        (removeOne I clk a s).state.removed = Function.update s.removed t true) ∧
    (∀ (a : Nat) (s : State σ) (i : Nat), s.removed i = true →
      (addItem I clk b a s).state.removed i = true ∧
      (removeOne I clk a s).state.removed i = true ∧
      (queryOne I clk b a s).state.removed i = true) ∧
    (∀ (a : Nat) (s : State σ) (n : Nat),
      removedCount s.removed n ≤ removedCount (addItem I clk b a s).state.removed n ∧
      removedCount s.removed n ≤ removedCount (removeOne I clk a s).state.removed n ∧
      removedCount s.removed n ≤ removedCount (queryOne I clk b a s).state.removed n) := by
  obtain ⟨⟨h1, h2, h3⟩, h4⟩ := runTest_slots I NewSource clk b
  refine ⟨?_, h2, ?_, removeOne_flags I clk, ?_, ?_⟩
  · intro a t ref hmem
    have := h3 a t ref hmem
    omega
  · intro i
    rw [h1 i, mem_removedSlots]
  · intro a s i hi
    refine ⟨by rw [addItem_removed]; exact hi, removeOne_keeps_flags I clk a s i hi, ?_⟩
    rw [(queryOne_frame I clk b a s).2.2.2.2.1]; exact hi
  · intro a s n
    refine ⟨by rw [addItem_removed], ?_, by rw [(queryOne_frame I clk b a s).2.2.2.2.1]⟩
    exact removedCount_mono _ _ (fun i hi => removeOne_keeps_flags I clk a s i hi) n

/-! ## The main loop, cut in two -/

theorem stepsFrom_done {σ : Type} (I : Index σ) (clk : Nat → Int) (b : bvhTest) (n a : Nat)
    (s : State σ) (h : ¬ (a : Int) < b.Additions) : stepsFrom I clk b n a s = ⟨s, none⟩ := by
  cases n with
  | zero => rfl
  | succ n => simp only [stepsFrom, if_neg h]

theorem stepsFrom_add {σ : Type} (I : Index σ) (clk : Nat → Int) (b : bvhTest) (m k : Nat) :
    ∀ (a : Nat) (s : State σ),
      stepsFrom I clk b (m + k) a s =
        (stepsFrom I clk b m a s).andThen (stepsFrom I clk b k (a + m)) := by
  induction m with
  | zero => intro a s; simp only [Nat.zero_add, Nat.add_zero, stepsFrom, andThen_ok]
  | succ m ih =>
    intro a s
    have e1 : m + 1 + k = (m + k) + 1 := by omega
    rw [e1]
    simp only [stepsFrom]
    by_cases h : (a : Int) < b.Additions
    · rw [if_pos h, if_pos h, andThen_assoc]
      apply andThen_congr
      intro _
      rw [ih]
      have e2 : a + 1 + m = a + (m + 1) := by omega
      rw [e2]
    · rw [if_neg h, if_neg h, andThen_ok]
      exact (stepsFrom_done I clk b k _ s (by omega)).symm

theorem runPrefix_continue {σ : Type} (I : Index σ) (NewSource : Int → Nat → Nat)
    (clk : Nat → Int) (b : bvhTest) (n k : Nat) :
    runPrefix I NewSource clk b (n + k) =
      (runPrefix I NewSource clk b n).andThen (stepsFrom I clk b k n) := by
  unfold runPrefix
  rw [andThen_assoc]
  apply andThen_congr
  intro _
  rw [stepsFrom_add, Nat.zero_add]

/-! ## The live counter along a run -/

theorem liveInv_total_nonneg {σ : Type} (s : State σ) (h : LiveInv s) : 0 ≤ s.total := by
  have := removedCount_le s.removed s.orths.length
  rw [h.1]
  omega

theorem addItem_live {σ : Type} (I : Index σ) (clk : Nat → Int) (b : bvhTest) (N a : Nat)
    (s : State σ) (hs : Shape N a s) (ha : a < N) (hk : LiveInv s) :
    LiveInv (addItem I clk b a s).state := by
  have hnn := liveInv_total_nonneg s hk
  obtain ⟨h1, h2, h3⟩ := hk
  cases h : makeOrth b s.r with
  | error e => rw [addItem_error I clk b a s e h]; exact ⟨h1, h2, h3⟩
  | ok p =>
    obtain ⟨orth, r1⟩ := p
    rw [addItem_ok I clk b a s orth r1 h (by rw [hs.1]; exact ha)]
    have hfalse : s.removed s.orths.length = false := by
      cases hr : s.removed s.orths.length with
      | false => rfl
      | true => exact absurd (h2 _ hr) (lt_irrefl _)
    refine ⟨?_, ?_, ?_⟩
    · simp only [List.length_append, List.length_singleton]
      rw [removedCount_succ, hfalse, h1]
      push_cast
      simp only [Bool.false_eq_true, if_false, Nat.cast_zero, add_zero]
      ring
    · intro i hi
      simp only [List.length_append, List.length_singleton]
      exact Nat.lt_succ_of_lt (h2 i hi)
    · intro rec hmem
      simp only [List.mem_append, List.mem_singleton] at hmem
      rcases hmem with hmem | rfl
      · exact h3 rec hmem
      · simp only [Record.liveCount]; omega

theorem removeOne_live {σ : Type} (I : Index σ) (clk : Nat → Int) (N a : Nat)
    (s : State σ) (hs : Shape N (a + 1) s) (ha : a < N) (hk : LiveInv s) :
    LiveInv (removeOne I clk a s).state := by
  obtain ⟨h1, h2, h3⟩ := hk
  rcases removeOne_cases I clk a s (by rw [hs.1]; exact ha) with
    ⟨t, ref, _, hle, hf, _, h⟩ | ⟨_, _, h⟩ | ⟨_, _, h⟩
  · rw [h]
    have hlen : s.orths.length = a + 1 := hs.2.2.2
    have hcnt := removedCount_update_lt s.removed t s.orths.length (by omega) hf
    have hbound := removedCount_le (Function.update s.removed t true) s.orths.length
    refine ⟨?_, ?_, ?_⟩
    · show s.total - 1 = _
      rw [hcnt, h1]; push_cast; ring
    · intro i hi
      by_cases hit : i = t
      · subst hit; show i < s.orths.length; omega
      · exact h2 i (by simpa [Function.update_noteq hit] using hi)
    · intro rec hmem
      simp only [List.mem_append, List.mem_singleton] at hmem
      rcases hmem with hmem | rfl
      · exact h3 rec hmem
      · simp only [Record.liveCount]
        rw [h1]; omega
  · rw [h]; exact ⟨h1, h2, h3⟩
  · rw [h]; exact ⟨h1, h2, h3⟩

theorem queryOne_live {σ : Type} (I : Index σ) (clk : Nat → Int) (b : bvhTest) (a : Nat)
    (s : State σ) (hk : LiveInv s) : LiveInv (queryOne I clk b a s).state := by
  have hnn := liveInv_total_nonneg s hk
  obtain ⟨h1, h2, h3⟩ := hk
  cases h : makeOrth b s.r with
  | error e => rw [queryOne_error I clk b a s e h]; exact ⟨h1, h2, h3⟩
  | ok p =>
    obtain ⟨q, r1⟩ := p
    rw [queryOne_ok I clk b a s q r1 h]
    refine ⟨h1, h2, ?_⟩
    intro rec hmem
    simp only [List.mem_append, List.mem_singleton] at hmem
    rcases hmem with hmem | rfl
    · exact h3 rec hmem
    · exact hnn

theorem liveInv_of_fresh {σ : Type} (s : State σ) (h1 : s.removed = fun _ => false)
    (h2 : s.orths = []) (h3 : s.total = 0)
    (h4 : s.out = [] ∨ s.out = [Record.incorrectConfig]) : LiveInv s := by
  refine ⟨?_, ?_, ?_⟩
  · rw [h2, h3]; simp [removedCount]
  · intro i hi; rw [h1] at hi; simp at hi
  · intro rec hmem
    rcases h4 with h4 | h4 <;> rw [h4] at hmem <;> simp at hmem
    subst hmem; simp [Record.liveCount]

theorem setup_live {σ : Type} (I : Index σ) (NewSource : Int → Nat → Nat) (b : bvhTest) :
    LiveInv (setup I NewSource b).state := by
  obtain ⟨_, f2, f3, f4, f5, _⟩ := setup_fields I NewSource b
  exact liveInv_of_fresh _ f3 f2 f4 (Or.inl f5)

theorem runPrefix_live {σ : Type} (I : Index σ) (NewSource : Int → Nat → Nat)
    (clk : Nat → Int) (b : bvhTest) (n : Nat) (hn : n ≤ b.Additions.toNat) :
    LiveInv (runPrefix I NewSource clk b n).state ∧
    ((runPrefix I NewSource clk b n).stopped = none →
      Shape b.Additions.toNat n (runPrefix I NewSource clk b n).state) := by
  obtain ⟨h1, _, h3⟩ := runPrefix_always I NewSource clk b LiveInv (setup_live I NewSource b)
    (fun a s hs ha hk => addItem_live I clk b _ a s hs ha hk)
    (fun a s hs ha hk => removeOne_live I clk _ a s hs ha hk)
    (fun a s _ _ hk => queryOne_live I clk b a s hk) n hn
  exact ⟨h1, h3⟩

theorem runTest_live {σ : Type} (I : Index σ) (NewSource : Int → Nat → Nat)
    (clk : Nat → Int) (b : bvhTest) : LiveInv (runTest I NewSource clk b).state :=
  (runTest_always I NewSource clk b LiveInv
    (liveInv_of_fresh _ rfl rfl rfl (Or.inl rfl)) (liveInv_of_fresh _ rfl rfl rfl (Or.inr rfl))
    (setup_live I NewSource b)
    (fun a s hs ha hk => addItem_live I clk b _ a s hs ha hk)
    (fun a s hs ha hk => removeOne_live I clk _ a s hs ha hk)
    (fun a s _ _ hk => queryOne_live I clk b a s hk)
    (fun _ hk => hk)).1

/-! ## What each operation does to the counter, from any state -/

theorem addItem_total {σ : Type} (I : Index σ) (clk : Nat → Int) (b : bvhTest) (a : Nat)
    (s : State σ) (h : (addItem I clk b a s).stopped = none) :
    (addItem I clk b a s).state.total = s.total + 1 := by
  cases hm : makeOrth b s.r with
  | error e => rw [addItem_error I clk b a s e hm] at h; simp at h
  | ok p =>
    obtain ⟨orth, r1⟩ := p
    by_cases ha : a < s.refs.length
    · rw [addItem_ok I clk b a s orth r1 hm ha]
    · simp [addItem, hm, ha] at h

theorem removeOne_total {σ : Type} (I : Index σ) (clk : Nat → Int) (a : Nat) (s : State σ) :
    ((removeOne I clk a s).state.hist = s.hist ∧ (removeOne I clk a s).state.total = s.total) ∨
    ∃ t ref, (removeOne I clk a s).state.hist = s.hist ++ [Op.Remove a t ref] ∧
      (removeOne I clk a s).state.total = s.total - 1 := by
  simp only [removeOne, Intn_step]
  split
  · split
    · left; exact ⟨rfl, rfl⟩
    · right; exact ⟨_, _, rfl, rfl⟩
  · by_cases hlen : a + 1 < s.removals.length
    · rw [if_pos hlen, bump_eq_set _ _ hlen]
      exact Or.inl ⟨rfl, rfl⟩
    · rw [if_neg hlen]
      exact Or.inl ⟨rfl, rfl⟩

/-- C3: in a run with `Removals <= Additions`, once step `a` has finished the
counter `total` equals `(a+1)` minus the number of slots in `[0, a]` marked removed;
the run goes on from that state; `total` is never negative (at every step boundary,
on every printed line, at the end); it starts at 0, an insertion adds exactly 1, a
realized removal subtracts exactly 1 and nothing else changes it. -/
theorem live_count_tracks_removed {σ : Type} (I : Index σ) (NewSource : Int → Nat → Nat)
    (clk : Nat → Int) (b : bvhTest) (hRA : b.Removals ≤ b.Additions) (a : Nat)
    (ha : (a : Int) < b.Additions)
    (hfin : (runPrefix I NewSource clk b (a + 1)).stopped = none) :
    (runPrefix I NewSource clk b (a + 1)).state.total =
      ((a : Int) + 1) - (removedCount (runPrefix I NewSource clk b (a + 1)).state.removed (a + 1) : Int) ∧
    (∀ i, (runPrefix I NewSource clk b (a + 1)).state.removed i = true → i ≤ a) ∧
    runTest I NewSource clk b =
      ((runPrefix I NewSource clk b (a + 1)).andThen
        (stepsFrom I clk b (b.Additions.toNat - (a + 1)) (a + 1))).andThen (verify I) ∧
    (∀ n : Nat, (n : Int) ≤ b.Additions → 0 ≤ (runPrefix I NewSource clk b n).state.total) ∧
    (∀ rec ∈ (runTest I NewSource clk b).state.out, 0 ≤ rec.liveCount) ∧
    0 ≤ (runTest I NewSource clk b).state.total ∧
    (setup I NewSource b).state.total = 0 ∧
    (∀ (k : Nat) (s : State σ), (addItem I clk b k s).stopped = none →
      (addItem I clk b k s).state.total = s.total + 1) ∧
    (∀ (k : Nat) (s : State σ),
      ((removeOne I clk k s).state.hist = s.hist ∧ (removeOne I clk k s).state.total = s.total) ∨
      ∃ t ref, (removeOne I clk k s).state.hist = s.hist ++ [Op.Remove k t ref] ∧
        (removeOne I clk k s).state.total = s.total - 1) ∧
    (∀ (k : Nat) (s : State σ), (queryOne I clk b k s).state.total = s.total) := by
  have hle : a + 1 ≤ b.Additions.toNat := by omega
  obtain ⟨⟨h1, h2, _⟩, hsh⟩ := runPrefix_live I NewSource clk b (a + 1) hle
  have hlen := (hsh hfin).2.2.2
  refine ⟨?_, ?_, ?_, ?_, (runTest_live I NewSource clk b).2.2,
    liveInv_total_nonneg _ (runTest_live I NewSource clk b),
    (setup_fields I NewSource b).2.2.2.1, addItem_total I clk b, removeOne_total I clk,
    fun k s => (queryOne_frame I clk b k s).2.2.2.2.2.1⟩
  · rw [h1, hlen]; push_cast; ring
  · intro i hi
    have := h2 i hi
    omega
  · unfold runTest
    rw [if_neg (by omega), if_neg (by omega)]
    have e : b.Additions.toNat = (a + 1) + (b.Additions.toNat - (a + 1)) := by omega
    conv_lhs => rw [e]
    rw [runPrefix_continue]
  · intro n hn
    exact liveInv_total_nonneg _ (runPrefix_live I NewSource clk b n (by omega)).1

/-- Instance of C3: the run with `Additions = 3`, `Removals = 2`, `Queries = 1` after
step 1, in which both removals have been realized. -/
theorem live_count_tracks_removed_witness :
    (sampleConfig 3 2 1).Removals ≤ (sampleConfig 3 2 1).Additions ∧
    ((1 : Nat) : Int) < (sampleConfig 3 2 1).Additions ∧
    (runPrefix countingIndex (fun _ n => n) (fun _ => 5) (sampleConfig 3 2 1) (1 + 1)).stopped = none ∧
    (runPrefix countingIndex (fun _ n => n) (fun _ => 5) (sampleConfig 3 2 1) (1 + 1)).state.total =
      (((1 : Nat) : Int) + 1) -
        (removedCount
          (runPrefix countingIndex (fun _ n => n) (fun _ => 5) (sampleConfig 3 2 1) (1 + 1)).state.removed
          (1 + 1) : Int) :=
  ⟨by decide, by decide, rfl,
    (live_count_tracks_removed countingIndex (fun _ n => n) (fun _ => 5) (sampleConfig 3 2 1)
      (by decide) 1 (by decide) rfl).1⟩

/-! ## Sums over the tail of a schedule -/

theorem sum_drop_succ (l : List Int) (a : Nat) (h : a < l.length) :
    (l.drop a).sum = l.getD a 0 + (l.drop (a + 1)).sum := by
  induction l generalizing a with
  | nil => simp at h
  | cons x xs ih =>
    cases a with
    | zero => simp
    | succ a =>
      simp only [List.drop_succ_cons, List.getD_cons_succ]
      exact ih a (by simpa using h)

theorem sum_drop_bump (l : List Int) (i : Nat) (h : i < l.length) :
    ((l.set i (l.getD i 0 + 1)).drop i).sum = (l.drop i).sum + 1 := by
  induction l generalizing i with
  | nil => simp at h
  | cons x xs ih =>
    cases i with
    | zero => simp; ring
    | succ i =>
      simp only [List.set_cons_succ, List.drop_succ_cons, List.getD_cons_succ]
      exact ih i (by simpa using h)

theorem nonneg_bump (l : List Int) (i : Nat) (h : ∀ x ∈ l, 0 ≤ x) :
    ∀ x ∈ l.set i (l.getD i 0 + 1), 0 ≤ x := by
  induction l generalizing i with
  | nil => intro x hx; simp at hx
  | cons y ys ih =>
    cases i with
    | zero =>
      intro x hx
      simp only [List.set_cons_zero, List.getD_cons_zero, List.mem_cons] at hx
      rcases hx with rfl | hx
      · have := h y (List.mem_cons_self _ _); omega
      · exact h x (List.mem_cons_of_mem _ hx)
    | succ i =>
      intro x hx
      simp only [List.set_cons_succ, List.getD_cons_succ, List.mem_cons] at hx
      rcases hx with rfl | hx
      · exact h x (List.mem_cons_self _ _)
      · exact ih i (fun z hz => h z (List.mem_cons_of_mem _ hz)) x hx

theorem getD_nonneg (l : List Int) (i : Nat) (h : ∀ x ∈ l, 0 ≤ x) : 0 ≤ l.getD i 0 := by
  by_cases hi : i < l.length
  · rw [List.getD_eq_getElem _ _ hi]
    exact h _ (List.getElem_mem hi)
  · rw [List.getD_eq_default _ _ (by omega)]

theorem sum_nonneg_of_nonneg (l : List Int) (h : ∀ x ∈ l, 0 ≤ x) : 0 ≤ l.sum := by
  induction l with
  | nil => simp
  | cons y ys ih =>
    have h1 := h y (List.mem_cons_self _ _)
    have h2 := ih (fun z hz => h z (List.mem_cons_of_mem _ hz))
    simp only [List.sum_cons]
    omega

/-! ## Accounting of the attempts -/

theorem removeOne_pending {σ : Type} (I : Index σ) (clk : Nat → Int) (N a : Nat)
    (s : State σ) (hs : Shape N (a + 1) s) (ha : a < N) (C : Int)
    (hp : Pending (a + 1) C s) : Pending (a + 1) (C + 1) (removeOne I clk a s).state := by
  obtain ⟨h1, h2, h3, h4⟩ := hp
  rcases removeOne_cases I clk a s (by rw [hs.1]; exact ha) with
    ⟨t, ref, _, hle, hf, _, h⟩ | ⟨_, hlen, h⟩ | ⟨_, hlen, h⟩
  · rw [h]
    refine ⟨?_, h2, h3, h4⟩
    simp only [removedSlots_append, removedSlots, List.length_append, List.length_singleton]
    push_cast
    omega
  · rw [h]
    refine ⟨?_, nonneg_bump _ _ h2, ?_, ?_⟩
    · simp only []
      rw [sum_drop_bump _ _ hlen]
      omega
    · intro x hx
      simp only [List.length_set]
      exact h3 x hx
    · intro x hx
      simp only [List.length_set, List.mem_append, List.mem_singleton] at hx ⊢
      rcases hx with hx | rfl
      · exact h4 x hx
      · exact hlen
  · rw [h]
    refine ⟨?_, h2, ?_, h4⟩
    · simp only [List.length_append, List.length_singleton]
      push_cast
      omega
    · intro x hx
      simp only [List.mem_append, List.mem_singleton] at hx ⊢
      rcases hx with hx | rfl
      · exact h3 x hx
      · have := hs.2.1
        omega

theorem attempts_pending {σ : Type} (I : Index σ) (clk : Nat → Int) (N a : Nat) (ha : a < N) :
    ∀ (n : Nat) (s : State σ) (C : Int), Shape N (a + 1) s → Pending (a + 1) C s →
      (attempts I clk a n s).stopped = none ∧ Shape N (a + 1) (attempts I clk a n s).state ∧
        Pending (a + 1) (C + n) (attempts I clk a n s).state := by
  intro n
  induction n with
  | zero => intro s C hs hp; exact ⟨rfl, hs, by simpa using hp⟩
  | succ n ih =>
    intro s C hs hp
    obtain ⟨h1, h2⟩ := removeOne_shape I clk N a s hs ha
    simp only [attempts]
    rw [andThen_of_running _ _ h1]
    obtain ⟨g1, g2, g3⟩ := ih _ (C + 1) h2 (removeOne_pending I clk N a s hs ha C hp)
    refine ⟨g1, g2, ?_⟩
    have e : C + ((n + 1 : Nat) : Int) = C + 1 + (n : Int) := by push_cast; ring
    rw [e]
    exact g3

theorem addItem_pending {σ : Type} (I : Index σ) (clk : Nat → Int) (b : bvhTest) (N a k : Nat)
    (s : State σ) (hs : Shape N a s) (ha : a < N) (C : Int) (hp : Pending k C s) :
    Pending k C (addItem I clk b a s).state ∧
      (addItem I clk b a s).state.removals = s.removals := by
  obtain ⟨h1, h2, h3, h4⟩ := hp
  cases h : makeOrth b s.r with
  | error e => rw [addItem_error I clk b a s e h]; exact ⟨⟨h1, h2, h3, h4⟩, rfl⟩
  | ok p =>
    obtain ⟨orth, r1⟩ := p
    rw [addItem_ok I clk b a s orth r1 h (by rw [hs.1]; exact ha)]
    refine ⟨⟨?_, h2, h3, h4⟩, rfl⟩
    simp only [removedSlots_append, removedSlots, List.append_nil]
    exact h1

theorem queryOne_pending {σ : Type} (I : Index σ) (clk : Nat → Int) (b : bvhTest) (a k : Nat)
    (s : State σ) (C : Int) (hp : Pending k C s) :
    Pending k C (queryOne I clk b a s).state := by
  obtain ⟨h1, h2, h3, h4⟩ := hp
  cases h : makeOrth b s.r with
  | error e => rw [queryOne_error I clk b a s e h]; exact ⟨h1, h2, h3, h4⟩
  | ok p =>
    obtain ⟨q, r1⟩ := p
    rw [queryOne_ok I clk b a s q r1 h]
    refine ⟨?_, h2, h3, h4⟩
    simp only [removedSlots_append, removedSlots, List.append_nil]
    exact h1

/-- Accounting across the main loop: at the point where the loop ends or is stopped,
the accounting holds for the schedule read from some step `m` on, and `m` is the
step the loop was meant to reach unless the run was stopped. -/
theorem stepsFrom_pending {σ : Type} (I : Index σ) (clk : Nat → Int) (b : bvhTest) (R : Int) :
    ∀ (n a : Nat) (s : State σ), Shape b.Additions.toNat a s → a + n ≤ b.Additions.toNat →
      Pending a R s →
      ∃ m, a ≤ m ∧ m ≤ a + n ∧ Pending m R (stepsFrom I clk b n a s).state ∧
        ((stepsFrom I clk b n a s).stopped = none → m = a + n) := by
  intro n
  induction n with
  | zero => intro a s _ _ hp; exact ⟨a, le_refl _, le_refl _, hp, fun _ => rfl⟩
  | succ n ih =>
    intro a s hs han hp
    have ha : a < b.Additions.toNat := by omega
    have hcond : (a : Int) < b.Additions := by omega
    simp only [stepsFrom, if_pos hcond]
    rw [step_eq I clk b _ a s hs ha]
    obtain ⟨hp1, hrem⟩ := addItem_pending I clk b _ a a s hs ha R hp
    rcases addItem_shape I clk b _ a s hs ha with ⟨h0, h1, _⟩ | ⟨h, h1⟩
    · rw [andThen_of_running _ _ h0]
      have hlen : a < (addItem I clk b a s).state.removals.length := by rw [h1.2.1]; exact ha
      have hnn := getD_nonneg _ a hp1.2.1
      have hp2 : Pending (a + 1) (R - (addItem I clk b a s).state.removals.getD a 0)
          (addItem I clk b a s).state := by
        refine ⟨?_, hp1.2.1, hp1.2.2.1, hp1.2.2.2⟩
        have := hp1.1
        rw [sum_drop_succ _ a hlen] at this
        omega
      obtain ⟨g0, g1, g2⟩ := attempts_pending I clk _ a ha
        ((addItem I clk b a s).state.removals.getD a 0).toNat _ _ h1 hp2
      have e : R - (addItem I clk b a s).state.removals.getD a 0 +
          ((((addItem I clk b a s).state.removals.getD a 0).toNat : Nat) : Int) = R := by omega
      rw [e] at g2
      rw [andThen_of_running _ _ g0]
      obtain ⟨q1, q2⟩ := queryRuns_always I clk b _ (a + 1) a (Pending (a + 1) R)
        (fun s _ hk => queryOne_pending I clk b a (a + 1) s R hk)
        (((attempts I clk a ((addItem I clk b a s).state.removals.getD a 0).toNat
          (addItem I clk b a s).state).state.queries.getD a 0).toNat) _ g1 g2
      cases hst : (queryRuns I clk b a
          (((attempts I clk a ((addItem I clk b a s).state.removals.getD a 0).toNat
            (addItem I clk b a s).state).state.queries.getD a 0).toNat)
          (attempts I clk a ((addItem I clk b a s).state.removals.getD a 0).toNat
            (addItem I clk b a s).state).state).stopped with
      | none =>
        rw [andThen_of_running _ _ hst]
        obtain ⟨m, r2, r3, r4, r5⟩ := ih (a + 1) _ q1 (by omega) q2
        exact ⟨m, by omega, by omega, r4, fun h => by have := r5 h; omega⟩
      | some e =>
        rw [andThen_of_stopped _ _ (by rw [hst]; simp)]
        exact ⟨a + 1, by omega, by omega, q2, fun h => by rw [hst] at h; simp at h⟩
    · rw [andThen_of_stopped _ _ h, andThen_of_stopped _ _ h, andThen_of_stopped _ _ h, h1]
      exact ⟨a, le_refl _, by omega, hp, fun hh => absurd hh h⟩

theorem setup_pending {σ : Type} (I : Index σ) (NewSource : Int → Nat → Nat) (b : bvhTest)
    (h : (setup I NewSource b).stopped = none) :
    Pending 0 (b.Removals.toNat : Int) (setup I NewSource b).state := by
  obtain ⟨_, _, _, _, _, f6, f7, f8, _⟩ := setup_fields I NewSource b
  obtain ⟨_, h2, h3, _⟩ := setup_running I NewSource b h
  refine ⟨?_, h2, ?_, ?_⟩
  · rw [f6, f8, List.drop_zero, h3]; simp [removedSlots]
  · intro x hx; rw [f8] at hx; simp at hx
  · intro x hx; rw [f7] at hx; simp at hx

theorem pending_realized_le {σ : Type} (m : Nat) (R : Int) (s : State σ) (h : Pending m R s) :
    ((removedSlots s.hist).length : Int) ≤ R := by
  obtain ⟨h1, h2, _, _⟩ := h
  have := sum_nonneg_of_nonneg (s.removals.drop m) (fun x hx => h2 x (List.mem_of_mem_drop hx))
  omega

/-- Accounting at the end of the first `n` steps of a run. -/
theorem runPrefix_pending {σ : Type} (I : Index σ) (NewSource : Int → Nat → Nat)
    (clk : Nat → Int) (b : bvhTest) (n : Nat) (hn : n ≤ b.Additions.toNat) :
    ((removedSlots (runPrefix I NewSource clk b n).state.hist).length : Int) ≤ b.Removals.toNat ∧
    ((runPrefix I NewSource clk b n).stopped = none →
      Pending n (b.Removals.toNat : Int) (runPrefix I NewSource clk b n).state ∧
      Shape b.Additions.toNat n (runPrefix I NewSource clk b n).state) := by
  have hshape := (runPrefix_live I NewSource clk b n hn).2
  unfold runPrefix at hshape ⊢
  cases hst : (setup I NewSource b).stopped with
  | none =>
    rw [andThen_of_running _ _ hst] at hshape ⊢
    obtain ⟨hsh, _⟩ := setup_running I NewSource b hst
    obtain ⟨m, _, _, h3, h4⟩ := stepsFrom_pending I clk b _ n 0 _ hsh (by omega)
      (setup_pending I NewSource b hst)
    refine ⟨pending_realized_le m _ _ h3, fun hrun => ?_⟩
    have hm : m = n := by have := h4 hrun; omega
    subst hm
    exact ⟨h3, hshape hrun⟩
  | some e =>
    rw [andThen_of_stopped _ _ (by rw [hst]; simp)]
    obtain ⟨_, _, _, _, _, f6, _⟩ := setup_fields I NewSource b
    refine ⟨by rw [f6]; simp [removedSlots], fun h => by rw [hst] at h; simp at h⟩

/-- The state `runTest` ends in, when the configuration passes the checks. -/
theorem runTest_eq {σ : Type} (I : Index σ) (NewSource : Int → Nat → Nat) (clk : Nat → Int)
    (b : bvhTest) (h1 : 0 ≤ b.Additions) (h2 : b.Removals ≤ b.Additions) :
    runTest I NewSource clk b =
      (runPrefix I NewSource clk b b.Additions.toNat).andThen (verify I) := by
  unfold runTest
  rw [if_neg (by omega), if_neg (by omega)]

/-- The final verification changes nothing but the list of calls. -/
theorem andThen_verify_fields {σ : Type} (I : Index σ) (o : Outcome σ) :
    (o.andThen (verify I)).state.out = o.state.out ∧
    (o.andThen (verify I)).state.dropped = o.state.dropped ∧
    (o.andThen (verify I)).state.carried = o.state.carried ∧
    (o.andThen (verify I)).state.removals = o.state.removals ∧
    (o.andThen (verify I)).state.total = o.state.total ∧
    removedSlots (o.andThen (verify I)).state.hist = removedSlots o.state.hist := by
  obtain ⟨s, st⟩ := o
  cases st with
  | none => simp [Outcome.andThen, verify, removedSlots_append, removedSlots]
  | some e => simp [Outcome.andThen]

/-- In every run, stopped or not, at most `Removals` removals are realized (none when
`Removals` is negative). -/
theorem runTest_realized_le {σ : Type} (I : Index σ) (NewSource : Int → Nat → Nat)
    (clk : Nat → Int) (b : bvhTest) :
    ((removedSlots (runTest I NewSource clk b).state.hist).length : Int) ≤ b.Removals.toNat := by
  by_cases h1 : b.Additions < 0
  · simp [runTest, h1, initState, removedSlots]
  · by_cases h2 : b.Removals > b.Additions
    · simp [runTest, h1, h2, initState, removedSlots]
    · rw [runTest_eq I NewSource clk b (by omega) (by omega),
        (andThen_verify_fields I _).2.2.2.2.2]
      exact (runPrefix_pending I NewSource clk b _ (le_refl _)).1

/-! ## One `sub` line per realized removal -/

theorem runTest_sub_lines {σ : Type} (I : Index σ) (NewSource : Int → Nat → Nat)
    (clk : Nat → Int) (b : bvhTest) :
    (runTest I NewSource clk b).state.out.countP Record.isSub =
      (removedSlots (runTest I NewSource clk b).state.hist).length := by
  obtain ⟨_, _, _, _, f5, f6, _⟩ := setup_fields I NewSource b
  refine (runTest_always I NewSource clk b
    (fun s => s.out.countP Record.isSub = (removedSlots s.hist).length)
    (by simp [initState, removedSlots]) (by simp [initState, removedSlots, Record.isSub])
    (by show List.countP _ (setup I NewSource b).state.out = _; rw [f5, f6]; simp [removedSlots])
    ?_ ?_ ?_ ?_).1
  · intro a s hs ha hk
    cases h : makeOrth b s.r with
    | error e => rw [addItem_error I clk b a s e h]; exact hk
    | ok p =>
      obtain ⟨orth, r1⟩ := p
      rw [addItem_ok I clk b a s orth r1 h (by rw [hs.1]; exact ha)]
      simp only [removedSlots_append, removedSlots, List.append_nil, List.countP_append,
        List.countP_cons, List.countP_nil, Record.isSub]
      simpa using hk
  · intro a s hs ha hk
    rcases removeOne_cases I clk a s (by rw [hs.1]; exact ha) with
      ⟨t, ref, _, _, _, _, h⟩ | ⟨_, _, h⟩ | ⟨_, _, h⟩
    · rw [h]
      simp only [removedSlots_append, removedSlots, List.countP_append,
        List.countP_cons, List.countP_nil, Record.isSub, List.length_append,
        List.length_singleton]
      simpa using hk
    · rw [h]; exact hk
    · rw [h]; exact hk
  · intro a s _ _ hk
    cases h : makeOrth b s.r with
    | error e => rw [queryOne_error I clk b a s e h]; exact hk
    | ok p =>
      obtain ⟨q, r1⟩ := p
      rw [queryOne_ok I clk b a s q r1 h]
      simp only [removedSlots_append, removedSlots, List.append_nil, List.countP_append,
        List.countP_cons, List.countP_nil, Record.isSub]
      simpa using hk
  · intro s hk
    simp only [verify, removedSlots_append, removedSlots, List.append_nil]
    exact hk

/-- What an attempt that finds nothing does when a next step exists. -/
theorem removeOne_carries {σ : Type} (I : Index σ) (clk : Nat → Int) (a : Nat) (s : State σ)
    (ha : a < s.refs.length) (hnext : a + 1 < s.removals.length) :
    (removeOne I clk a s).state.dropped = s.dropped ∧
    ((removeOne I clk a s).state.hist = s.hist →
      (removeOne I clk a s).state.removals =
        s.removals.set (a + 1) (s.removals.getD (a + 1) 0 + 1) ∧
      (removeOne I clk a s).state.carried = s.carried ++ [a]) := by
  rcases removeOne_cases I clk a s ha with ⟨t, ref, _, _, _, _, h⟩ | ⟨_, _, h⟩ | ⟨_, hlen, h⟩
  · rw [h]
    refine ⟨rfl, fun hh => ?_⟩
    simp at hh
  · rw [h]; exact ⟨rfl, fun _ => ⟨rfl, rfl⟩⟩
  · exact absurd hnext hlen

/-- C6 (as stated, refuted): with `Removals = -1` and `Additions = 1` the run is
completed with no removal realized, which is more than `Removals`. -/
theorem realized_exceeds_negative_removals :
    (sampleConfig 1 (-1) 0).Removals ≤ (sampleConfig 1 (-1) 0).Additions ∧
    (runTest countingIndex (fun _ n => n) (fun _ => 5) (sampleConfig 1 (-1) 0)).stopped = none ∧
    ¬ (((runTest countingIndex (fun _ n => n) (fun _ => 5)
        (sampleConfig 1 (-1) 0)).state.out.countP Record.isSub : Nat) : Int) ≤
      (sampleConfig 1 (-1) 0).Removals := by
  refine ⟨by decide, rfl, ?_⟩
  decide

/-- C6 (amended): in a run with `0 <= Removals <= Additions` that completes all its
steps, the number of `sub` lines (realized removals) is `Removals` minus the number
of attempts dropped, hence at most `Removals`; attempts are dropped only at the last
step `Additions - 1` and carried only at earlier steps; an attempt that finds nothing
while a next step exists is not dropped but adds one to `removals[a+1]`. -/
theorem realized_removals_accounting {σ : Type} (I : Index σ) (NewSource : Int → Nat → Nat)
    (clk : Nat → Int) (b : bvhTest) (hR0 : 0 ≤ b.Removals) (hRA : b.Removals ≤ b.Additions)
    (hfin : (runPrefix I NewSource clk b b.Additions.toNat).stopped = none) :
    (((runTest I NewSource clk b).state.out.countP Record.isSub : Nat) : Int) =
      b.Removals - ((runTest I NewSource clk b).state.dropped.length : Int) ∧
    (((runTest I NewSource clk b).state.out.countP Record.isSub : Nat) : Int) ≤ b.Removals ∧
    (runTest I NewSource clk b).state.out.countP Record.isSub =
      (removedSlots (runTest I NewSource clk b).state.hist).length ∧
    (∀ x ∈ (runTest I NewSource clk b).state.dropped, (x : Int) + 1 = b.Additions) ∧
    (∀ x ∈ (runTest I NewSource clk b).state.carried, (x : Int) + 1 < b.Additions) ∧
    (∀ (a : Nat) (s : State σ), a < s.refs.length → a + 1 < s.removals.length →
      (removeOne I clk a s).state.dropped = s.dropped ∧
      ((removeOne I clk a s).state.hist = s.hist →
        (removeOne I clk a s).state.removals =
          s.removals.set (a + 1) (s.removals.getD (a + 1) 0 + 1) ∧
        (removeOne I clk a s).state.carried = s.carried ++ [a])) := by
  have hsub := runTest_sub_lines I NewSource clk b
  obtain ⟨_, hp⟩ := runPrefix_pending I NewSource clk b _ (le_refl _)
  obtain ⟨⟨p1, p2, p3, p4⟩, _, hlen, _, _⟩ := hp hfin
  obtain ⟨_, v2, v3, _, _, v6⟩ := andThen_verify_fields I
    (runPrefix I NewSource clk b b.Additions.toNat)
  rw [← runTest_eq I NewSource clk b (by omega) hRA] at v2 v3 v6
  rw [List.drop_of_length_le (by omega)] at p1
  simp only [List.sum_nil, add_zero] at p1
  have key : (((runTest I NewSource clk b).state.out.countP Record.isSub : Nat) : Int) =
      b.Removals - ((runTest I NewSource clk b).state.dropped.length : Int) := by
    rw [hsub, v6, v2]; omega
  refine ⟨key, by omega, hsub, ?_, ?_, removeOne_carries I clk⟩
  · intro x hx
    rw [v2] at hx
    have := p3 x hx
    omega
  · intro x hx
    rw [v3] at hx
    have := p4 x hx
    omega

/-- Instance of C6 (amended): a completed run with `Additions = 2`, `Removals = 2` in
which one removal is realized and one attempt is dropped at the last step. -/
theorem realized_removals_accounting_witness :
    0 ≤ (sampleConfig 2 2 0).Removals ∧
    (sampleConfig 2 2 0).Removals ≤ (sampleConfig 2 2 0).Additions ∧
    (runPrefix countingIndex (fun _ _ => 1) (fun _ => 5) (sampleConfig 2 2 0)
      (sampleConfig 2 2 0).Additions.toNat).stopped = none ∧
    (((runTest countingIndex (fun _ _ => 1) (fun _ => 5)
        (sampleConfig 2 2 0)).state.out.countP Record.isSub : Nat) : Int) =
      (sampleConfig 2 2 0).Removals -
        ((runTest countingIndex (fun _ _ => 1) (fun _ => 5)
          (sampleConfig 2 2 0)).state.dropped.length : Int) :=
  ⟨by decide, by decide, rfl,
    (realized_removals_accounting countingIndex (fun _ _ => 1) (fun _ => 5) (sampleConfig 2 2 0)
      (by decide) (by decide) rfl).1⟩

/-- C5, the code at the failing input `Additions = -1`, `Removals = 0`: the removals
exceed the additions, so the guard of lines 72-75 is meant to report the
configuration error and return; but the allocation `make([]int, -1)` of line 66
runs first and panics, so the run is stopped by that panic, the error line is never
printed and the guard is never reached. The code misses what it attempts by the
order of lines 66 and 72. -/
theorem negative_additions_panics_before_check :
    (sampleConfig (-1) 0 0).Removals > (sampleConfig (-1) 0 0).Additions ∧
    (runTest countingIndex (fun _ n => n) (fun _ => 5) (sampleConfig (-1) 0 0)).stopped =
      some .makeslice ∧
    (runTest countingIndex (fun _ n => n) (fun _ => 5) (sampleConfig (-1) 0 0)).state.out = [] ∧
    (runTest countingIndex (fun _ n => n) (fun _ => 5) (sampleConfig (-1) 0 0)).state.out ≠
      [Record.incorrectConfig] ∧
    (runTest countingIndex (fun _ n => n) (fun _ => 5) (sampleConfig (-1) 0 0)).state.hist = [] := by
  refine ⟨by decide, rfl, rfl, by decide, rfl⟩

/-- The guard of lines 72-75 where it is reached: when the allocations of lines
66-67 succeed (in this embedding, where memory is unbounded, whenever
`Additions >= 0`) and `Removals > Additions`, `runTest` prints the configuration
error and returns normally: the error line is its whole output, no call is made on
the index, no random draw is made and nothing is counted. -/
theorem config_error_no_operations {σ : Type} (I : Index σ) (NewSource : Int → Nat → Nat)
    (clk : Nat → Int) (b : bvhTest) (hA : 0 ≤ b.Additions) (h : b.Removals > b.Additions) :
    (runTest I NewSource clk b).stopped = none ∧
    (runTest I NewSource clk b).state.out = [Record.incorrectConfig] ∧
    (runTest I NewSource clk b).state.hist = [] ∧
    (runTest I NewSource clk b).state.r.pos = 0 ∧
    (runTest I NewSource clk b).state.orths = [] ∧
    (runTest I NewSource clk b).state.total = 0 ∧
    (runTest I NewSource clk b).state.btree = I.NewInt32Node := by
  unfold runTest
  rw [if_neg (by omega), if_pos h]
  simp [initState]

/-- The guard of lines 72-75 on the configuration with `Removals = 10`,
`Additions = 5`. -/
theorem config_error_no_operations_witness :
    0 ≤ (sampleConfig 5 10 0).Additions ∧
    (sampleConfig 5 10 0).Removals > (sampleConfig 5 10 0).Additions ∧
    (runTest countingIndex (fun _ n => n) (fun _ => 5) (sampleConfig 5 10 0)).stopped = none ∧
    (runTest countingIndex (fun _ n => n) (fun _ => 5) (sampleConfig 5 10 0)).state.out =
      [Record.incorrectConfig] ∧
    (runTest countingIndex (fun _ n => n) (fun _ => 5) (sampleConfig 5 10 0)).state.hist = [] :=
  ⟨by decide, by decide,
    (config_error_no_operations countingIndex (fun _ n => n) (fun _ => 5) (sampleConfig 5 10 0)
      (by decide) (by decide)).1,
    (config_error_no_operations countingIndex (fun _ n => n) (fun _ => 5) (sampleConfig 5 10 0)
      (by decide) (by decide)).2.1,
    (config_error_no_operations countingIndex (fun _ n => n) (fun _ => 5) (sampleConfig 5 10 0)
      (by decide) (by decide)).2.2.1⟩

theorem andThen_pure {σ : Type} (o : Outcome σ) : o.andThen (fun s => ⟨s, none⟩) = o := by
  obtain ⟨s, st⟩ := o
  cases st <;> rfl

/-- At step 0, once slot 0 is marked, every further attempt is carried to step 1. -/
theorem attempts_zero_carried {σ : Type} (I : Index σ) (clk : Nat → Int) (N : Nat)
    (hN : 2 ≤ N) :
    ∀ (n : Nat) (s : State σ), Shape N 1 s → s.removed 0 = true →
      (attempts I clk 0 n s).stopped = none ∧
      (attempts I clk 0 n s).state.hist = s.hist ∧
      (attempts I clk 0 n s).state.carried = s.carried ++ List.replicate n 0 ∧
      (attempts I clk 0 n s).state.dropped = s.dropped ∧
      (attempts I clk 0 n s).state.removals.getD 0 0 = s.removals.getD 0 0 ∧
      (attempts I clk 0 n s).state.removals.getD 1 0 = s.removals.getD 1 0 + n := by
  intro n
  induction n with
  | zero => intro s _ _; simp [attempts]
  | succ n ih =>
    intro s hs hrem
    have hrefs : 0 < s.refs.length := by rw [hs.1]; omega
    have hlen : 0 + 1 < s.removals.length := by rw [hs.2.1]; omega
    obtain ⟨h1, h2⟩ := removeOne_shape I clk N 0 s hs (by omega)
    simp only [attempts]
    rw [andThen_of_running _ _ h1]
    rcases removeOne_cases I clk 0 s hrefs with ⟨t, ref, _, hle, hf, _, h⟩ | ⟨_, _, h⟩ | ⟨_, hl, h⟩
    · have : t = 0 := by omega
      subst this
      rw [hrem] at hf
      exact absurd hf (by simp)
    · rw [h] at h2 ⊢
      obtain ⟨g1, g2, g3, g4, g5, g6⟩ := ih _ h2 hrem
      refine ⟨g1, g2, ?_, g4, ?_, ?_⟩
      · rw [g3]
        simp only [List.append_assoc, List.singleton_append]
        rfl
      · rw [g5]
        simp only [List.getD_eq_getElem?_getD]
        rw [List.getElem?_set_ne (by omega)]
      · rw [g6]
        simp only [List.getD_eq_getElem?_getD]
        rw [List.getElem?_set_eq_of_lt _ hlen]
        simp only [Option.getD_some]
        push_cast
        ring
    · exact absurd hlen hl

/-- At step 0 with slot 0 unmarked, the first attempt removes slot 0. -/
theorem removeOne_zero_hit {σ : Type} (I : Index σ) (clk : Nat → Int) (s : State σ)
    (hrefs : 0 < s.refs.length) (hrem : s.removed 0 = false) :
    ∃ ref, s.refs[0]? = some ref ∧
      (removeOne I clk 0 s).state.hist = s.hist ++ [Op.Remove 0 0 ref] ∧
      (removeOne I clk 0 s).state.removed 0 = true ∧
      (removeOne I clk 0 s).state.carried = s.carried ∧
      (removeOne I clk 0 s).state.dropped = s.dropped ∧
      (removeOne I clk 0 s).state.removals = s.removals := by
  obtain ⟨_, _, h3, _⟩ := scanFrom_spec s.removed 0 _ (candidate_le s.r 0)
  have hc : s.r.draws s.r.pos % (0 + 1) = 0 := Nat.mod_one _
  rcases removeOne_cases I clk 0 s hrefs with ⟨t, ref, _, hle, hf, href, h⟩ | ⟨hs, _, _⟩ | ⟨hs, _, _⟩
  · have : t = 0 := by omega
    subst this
    rw [h]
    exact ⟨ref, href, rfl, by simp, rfl, rfl, rfl⟩
  · have := h3 0 (by omega) (by omega)
    rw [hrem] at this
    exact absurd this (by simp)
  · have := h3 0 (by omega) (by omega)
    rw [hrem] at this
    exact absurd this (by simp)

theorem schedule_rest_zero (l : List Int) (T : Int) (hlen : 2 ≤ l.length)
    (hnn : ∀ x ∈ l, 0 ≤ x) (hsum : l.sum = T) (h0 : l.getD 0 0 = T) : l.getD 1 0 = 0 := by
  have e0 := sum_drop_succ l 0 (by omega)
  have e1 := sum_drop_succ l 1 (by omega)
  have n1 := getD_nonneg l 1 hnn
  have n2 := sum_nonneg_of_nonneg (l.drop 2) (fun x hx => hnn x (List.mem_of_mem_drop hx))
  rw [List.drop_zero] at e0
  simp only [Nat.zero_add, Nat.reduceAdd] at e0 e1
  omega

/-- C7: in a run with `Additions >= 2` whose removals schedule puts all `T >= 1`
removals at step 0, once the item of step 0 is inserted the removal loop of step 0
realizes exactly one removal, of slot 0 with the handle its `Add` returned, and
carries the other `T - 1` attempts to step 1, whose scheduled count goes from 0 to
`T - 1`, whatever candidates are drawn; nothing is dropped; the run goes on from
that state, and over the whole run at most `T` removals are realized. -/
theorem all_removals_at_step_zero {σ : Type} (I : Index σ) (NewSource : Int → Nat → Nat)
    (clk : Nat → Int) (b : bvhTest) (hA : 2 ≤ b.Additions) (hT : 1 ≤ b.Removals)
    (hRA : b.Removals ≤ b.Additions)
    (hsched : (setup I NewSource b).state.removals.getD 0 0 = b.Removals)
    (hadd : (addItem I clk b 0 (setup I NewSource b).state).stopped = none) :
    ((addItem I clk b 0 (setup I NewSource b).state).andThen (removalsOf I clk 0)).stopped = none ∧
    (∃ orth ref,
      ((addItem I clk b 0 (setup I NewSource b).state).andThen (removalsOf I clk 0)).state.hist =
        [Op.Add 0 orth ref, Op.Remove 0 0 ref]) ∧
    ((addItem I clk b 0 (setup I NewSource b).state).andThen (removalsOf I clk 0)).state.carried =
      List.replicate (b.Removals.toNat - 1) 0 ∧
    ((addItem I clk b 0 (setup I NewSource b).state).andThen (removalsOf I clk 0)).state.dropped = [] ∧
    (setup I NewSource b).state.removals.getD 1 0 = 0 ∧
    ((addItem I clk b 0 (setup I NewSource b).state).andThen
      (removalsOf I clk 0)).state.removals.getD 1 0 = b.Removals - 1 ∧
    runTest I NewSource clk b =
      ((((addItem I clk b 0 (setup I NewSource b).state).andThen (removalsOf I clk 0)).andThen
        (queriesOf I clk b 0)).andThen (stepsFrom I clk b (b.Additions.toNat - 1) 1)).andThen
        (verify I) ∧
    ((removedSlots (runTest I NewSource clk b).state.hist).length : Int) ≤ b.Removals := by
  obtain ⟨rem, que, hsetup, hl1, hnn1, hsum1, hl2, _, _⟩ := setup_ok I NewSource b (by omega)
  have hrun : (setup I NewSource b).stopped = none := by rw [hsetup]
  obtain ⟨hshape, _⟩ := setup_running I NewSource b hrun
  obtain ⟨f1, f2, f3, f4, f5, f6, f7, f8, _⟩ := setup_fields I NewSource b
  have hN : 2 ≤ b.Additions.toNat := by omega
  have hrem1 : (setup I NewSource b).state.removals.getD 1 0 = 0 := by
    have hnn : ∀ x ∈ (setup I NewSource b).state.removals, 0 ≤ x := by rw [hsetup]; exact hnn1
    have hsum : (setup I NewSource b).state.removals.sum = b.Removals := by
      rw [hsetup]; show rem.sum = _; rw [hsum1]; omega
    exact schedule_rest_zero _ _ (by rw [hshape.2.1]; exact hN) hnn hsum hsched
  have hlast := runTest_realized_le I NewSource clk b
  have hprefix : runTest I NewSource clk b =
      ((((addItem I clk b 0 (setup I NewSource b).state).andThen (removalsOf I clk 0)).andThen
        (queriesOf I clk b 0)).andThen (stepsFrom I clk b (b.Additions.toNat - 1) 1)).andThen
        (verify I) := by
    have e : b.Additions.toNat = 1 + (b.Additions.toNat - 1) := by omega
    rw [runTest_eq I NewSource clk b (by omega) hRA]
    conv_lhs => rw [e]
    rw [runPrefix_continue]
    congr 2
    unfold runPrefix
    rw [andThen_of_running _ _ hrun]
    simp only [stepsFrom]
    rw [if_pos (by omega), andThen_pure]
    rfl
  cases hm : makeOrth b (setup I NewSource b).state.r with
  | error e =>
    rw [addItem_error I clk b 0 _ e hm] at hadd
    simp at hadd
  | ok p =>
    obtain ⟨orth, r1⟩ := p
    have hrefs : 0 < (setup I NewSource b).state.refs.length := by rw [hshape.1]; omega
    have hs1 := addItem_shape I clk b _ 0 _ hshape (by omega : 0 < b.Additions.toNat)
    rcases hs1 with ⟨_, hsh1, _⟩ | ⟨h, _⟩
    · have hadd_eq := addItem_ok I clk b 0 _ orth r1 hm hrefs
      have hrem0 : (addItem I clk b 0 (setup I NewSource b).state).state.removals =
          (setup I NewSource b).state.removals := by rw [hadd_eq]
      have hflag : (addItem I clk b 0 (setup I NewSource b).state).state.removed 0 = false := by
        rw [addItem_removed, f3]
      have hhist : (addItem I clk b 0 (setup I NewSource b).state).state.hist =
          [Op.Add 0 orth (I.Add (setup I NewSource b).state.btree orth ((0 : Nat) : Int)).1] := by
        rw [hadd_eq]; show (setup I NewSource b).state.hist ++ _ = _; rw [f6]; rfl
      have hcar : (addItem I clk b 0 (setup I NewSource b).state).state.carried = [] := by
        rw [hadd_eq]; exact f7
      have hdrop : (addItem I clk b 0 (setup I NewSource b).state).state.dropped = [] := by
        rw [hadd_eq]; exact f8
      have href : (addItem I clk b 0 (setup I NewSource b).state).state.refs[0]? =
          some (I.Add (setup I NewSource b).state.btree orth ((0 : Nat) : Int)).1 := by
        rw [hadd_eq]
        show ((setup I NewSource b).state.refs.set 0 _)[0]? = _
        rw [List.getElem?_set_eq_of_lt _ hrefs]
      have hr1 : 0 < (addItem I clk b 0 (setup I NewSource b).state).state.refs.length := by
        rw [hsh1.1]; omega
      obtain ⟨ref, e1, e2, e3, e4, e5, e6⟩ := removeOne_zero_hit I clk _ hr1 hflag
      obtain ⟨k1, k2⟩ := removeOne_shape I clk _ 0 _ hsh1 (by omega : 0 < b.Additions.toNat)
      have hO : (addItem I clk b 0 (setup I NewSource b).state).andThen (removalsOf I clk 0) =
          attempts I clk 0 (b.Removals.toNat - 1)
            (removeOne I clk 0 (addItem I clk b 0 (setup I NewSource b).state).state).state := by
        rw [andThen_of_running _ _ hadd,
          removalsOf_eq_attempts I clk 0 _ (by rw [hsh1.1]; omega) (by rw [hsh1.2.1]; omega),
          hrem0, hsched]
        have hsplit : b.Removals.toNat = (b.Removals.toNat - 1) + 1 := by omega
        rw [hsplit]
        simp only [attempts]
        rw [andThen_of_running _ _ k1]
        rfl
      obtain ⟨g1, g2, g3, g4, _, g6⟩ := attempts_zero_carried I clk _ hN
        (b.Removals.toNat - 1) _ k2 e3
      rw [e1] at href
      simp only [Option.some.injEq] at href
      refine ⟨?_, ⟨orth, ref, ?_⟩, ?_, ?_, hrem1, ?_, hprefix, by omega⟩
      · rw [hO]; exact g1
      · rw [hO, g2, e2, hhist, href]; rfl
      · rw [hO, g3, e4, hcar]; rfl
      · rw [hO, g4, e5, hdrop]
      · rw [hO, g6, e6, hrem0, hrem1]; omega
    · exact absurd hadd h

/-- Instance of C7: `Additions = 3`, `Removals = 3` with every draw equal to zero, so
that all three removals are scheduled at step 0; two attempts are carried. -/
theorem all_removals_at_step_zero_witness :
    (2 : Int) ≤ (sampleConfig 3 3 0).Additions ∧ 1 ≤ (sampleConfig 3 3 0).Removals ∧
    (sampleConfig 3 3 0).Removals ≤ (sampleConfig 3 3 0).Additions ∧
    (setup countingIndex (fun _ _ => 0) (sampleConfig 3 3 0)).state.removals.getD 0 0 =
      (sampleConfig 3 3 0).Removals ∧
    (addItem countingIndex (fun _ => 5) (sampleConfig 3 3 0) 0
      (setup countingIndex (fun _ _ => 0) (sampleConfig 3 3 0)).state).stopped = none ∧
    ((addItem countingIndex (fun _ => 5) (sampleConfig 3 3 0) 0
      (setup countingIndex (fun _ _ => 0) (sampleConfig 3 3 0)).state).andThen
        (removalsOf countingIndex (fun _ => 5) 0)).state.carried =
      List.replicate ((sampleConfig 3 3 0).Removals.toNat - 1) 0 ∧
    ((addItem countingIndex (fun _ => 5) (sampleConfig 3 3 0) 0
      (setup countingIndex (fun _ _ => 0) (sampleConfig 3 3 0)).state).andThen
        (removalsOf countingIndex (fun _ => 5) 0)).state.removals.getD 1 0 =
      (sampleConfig 3 3 0).Removals - 1 :=
  ⟨by decide, by decide, by decide, rfl, rfl,
    (all_removals_at_step_zero countingIndex (fun _ _ => 0) (fun _ => 5) (sampleConfig 3 3 0)
      (by decide) (by decide) (by decide) rfl rfl).2.2.1,
    (all_removals_at_step_zero countingIndex (fun _ _ => 0) (fun _ => 5) (sampleConfig 3 3 0)
      (by decide) (by decide) (by decide) rfl rfl).2.2.2.2.2.1⟩

/-! ## makeOrth under its precondition -/

theorem wrap32_of_isInt32 (x : Int) (h : isInt32 x) : wrap32 x = x := by
  unfold isInt32 at h
  unfold wrap32
  omega

theorem Int31n_lt (r : Rand) (n : Int) (h : 0 < n) :
    ((r.draws r.pos % n.toNat : Nat) : Int) < n := Intn_lt r n h

theorem getD_set_self (l : List Int) (d : Nat) (v : Int) (h : d < l.length) :
    (l.set d v).getD d 0 = v := by
  rw [List.getD_eq_getElem?_getD, List.getElem?_set_eq_of_lt _ h]
  rfl

theorem getD_set_other (l : List Int) (d j : Nat) (v : Int) (h : j ≠ d) :
    (l.set d v).getD j 0 = l.getD j 0 := by
  rw [List.getD_eq_getElem?_getD, List.getD_eq_getElem?_getD,
    List.getElem?_set_ne (fun e => h e.symm)]

theorem makeOrthLoop_good (b : bvhTest) (hpre : makeOrthPre b) (h32 : int32Config b)
    (hmin : nonnegMinVol b) :
    ∀ (n d : Nat) (orth : Orthotope) (r : Rand), d + n = b.DIM →
      orth.P0.length = b.DIM → orth.P1.length = b.DIM →
      ∃ res, makeOrthLoop b n d orth r = .ok (res, ⟨r.draws, r.pos + 2 * n⟩) ∧
        res.P0.length = b.DIM ∧ res.P1.length = b.DIM ∧
        (∀ j, j < d → res.P0.getD j 0 = orth.P0.getD j 0 ∧ res.P1.getD j 0 = orth.P1.getD j 0) ∧
        (∀ j, d ≤ j → j < b.DIM → GoodDim b res j) := by
  intro n
  induction n with
  | zero =>
    intro d orth r hd h0 h1
    exact ⟨orth, rfl, h0, h1, fun j _ => ⟨rfl, rfl⟩, fun j hj1 hj2 => by omega⟩
  | succ n ih =>
    intro d orth r hd h0 h1
    have hdlt : d < b.DIM := by omega
    obtain ⟨p1, p2⟩ := hpre d hdlt
    obtain ⟨⟨a1, a2⟩, ⟨a3, a4⟩, ⟨a5, a6⟩⟩ := h32 d hdlt
    have hm := hmin d hdlt
    have w1 : wrap32 (b.MaxVol.getD d 0 - b.MinVol.getD d 0) =
        b.MaxVol.getD d 0 - b.MinVol.getD d 0 :=
      wrap32_of_isInt32 _ ⟨by omega, by omega⟩
    have hx := Int31n_lt r (b.MaxVol.getD d 0 - b.MinVol.getD d 0) (by omega)
    have w2 : wrap32 (b.MinVol.getD d 0 +
        ((r.draws r.pos % (b.MaxVol.getD d 0 - b.MinVol.getD d 0).toNat : Nat) : Int)) =
        b.MinVol.getD d 0 +
          ((r.draws r.pos % (b.MaxVol.getD d 0 - b.MinVol.getD d 0).toNat : Nat) : Int) :=
      wrap32_of_isInt32 _ ⟨by omega, by omega⟩
    have hdelta := p2 (b.MinVol.getD d 0 +
        ((r.draws r.pos % (b.MaxVol.getD d 0 - b.MinVol.getD d 0).toNat : Nat) : Int))
      (by omega) (by omega)
    generalize hδ : b.MinVol.getD d 0 +
        ((r.draws r.pos % (b.MaxVol.getD d 0 - b.MinVol.getD d 0).toNat : Nat) : Int) = delta
      at w2 hdelta
    have hδ0 : 0 ≤ delta := by omega
    have hδ1 : b.MinVol.getD d 0 ≤ delta := by omega
    have hδ2 : delta < b.MaxVol.getD d 0 := by omega
    have w3 : wrap32 (b.MaxBounds.P1.getD d 0 - delta) = b.MaxBounds.P1.getD d 0 - delta :=
      wrap32_of_isInt32 _ ⟨by omega, by omega⟩
    have hp := Int31n_lt ⟨r.draws, r.pos + 1⟩ (b.MaxBounds.P1.getD d 0 - delta) (by omega)
    simp only [] at hp
    generalize hπ : ((r.draws (r.pos + 1) % (b.MaxBounds.P1.getD d 0 - delta).toNat : Nat) : Int)
      = p0 at hp
    have hp0 : 0 ≤ p0 := by rw [← hπ]; exact Int.natCast_nonneg _
    have w4 : wrap32 (p0 + delta) = p0 + delta :=
      wrap32_of_isInt32 _ ⟨by omega, by omega⟩
    obtain ⟨res, e1, e2, e3, e4, e5⟩ := ih (d + 1)
      { P0 := orth.P0.set d p0, P1 := orth.P1.set d (p0 + delta) } ⟨r.draws, r.pos + 1 + 1⟩
      (by omega) (by simp [h0]) (by simp [h1])
    refine ⟨res, ?_, e2, e3, ?_, ?_⟩
    · simp only [makeOrthLoop, w1, Int31n_ok r _ (by omega : (0 : Int) < b.MaxVol.getD d 0 - b.MinVol.getD d 0)]
      rw [hδ, w2, w3, Int31n_ok _ _ (by omega : (0 : Int) < b.MaxBounds.P1.getD d 0 - delta)]
      simp only []
      rw [hπ, w4, e1]
      congr 3
      show r.pos + 1 + 1 + 2 * n = r.pos + 2 * (n + 1)
      omega
    · intro j hj
      obtain ⟨g1, g2⟩ := e4 j (by omega)
      rw [g1, g2]
      exact ⟨getD_set_other _ _ _ _ (by omega), getD_set_other _ _ _ _ (by omega)⟩
    · intro j hj1 hj2
      by_cases hjd : j = d
      · subst hjd
        obtain ⟨g1, g2⟩ := e4 j (by omega)
        simp only [GoodDim]
        rw [g1, g2]
        simp only []
        rw [getD_set_self _ _ _ (by omega), getD_set_self _ _ _ (by omega)]
        refine ⟨hp0, by omega, by omega, by omega⟩
      · exact e5 j (by omega) hj2

theorem makeOrth_good (b : bvhTest) (hpre : makeOrthPre b) (h32 : int32Config b)
    (hmin : nonnegMinVol b) (r : Rand) :
    ∃ orth, makeOrth b r = .ok (orth, ⟨r.draws, r.pos + 2 * b.DIM⟩) ∧
      orth.P0.length = b.DIM ∧ orth.P1.length = b.DIM ∧
      ∀ d, d < b.DIM → GoodDim b orth d := by
  obtain ⟨res, e1, e2, e3, _, e5⟩ := makeOrthLoop_good b hpre h32 hmin b.DIM 0
    { P0 := List.replicate b.DIM 0, P1 := List.replicate b.DIM 0 } r (by omega)
    (by simp) (by simp)
  exact ⟨res, e1, e2, e3, fun d hd => e5 d (Nat.zero_le d) hd⟩

/-- C4 (as stated, refuted): with extents drawn from `[-5, -2)` in the universe
`[0, 10)` the stated precondition holds, and `makeOrth` returns the orthotope with
`P0 = [0]` and `P1 = [-5]`, whose maximum corner is below its minimum corner. -/
theorem negative_extent_breaks_ordering :
    makeOrthPre negativeExtentConfig ∧ int32Config negativeExtentConfig ∧
    (makeOrth negativeExtentConfig ⟨fun _ => 0, 0⟩).map Prod.fst = .ok ⟨[0], [-5]⟩ ∧
    ¬ ((⟨[0], [-5]⟩ : Orthotope).P0.getD 0 0 ≤ (⟨[0], [-5]⟩ : Orthotope).P1.getD 0 0) := by
  refine ⟨?_, ?_, rfl, by decide⟩
  · intro d hd
    have : d = 0 := by simp [negativeExtentConfig] at hd; exact hd
    subst this
    refine ⟨by decide, fun e h1 h2 => ?_⟩
    simp [negativeExtentConfig] at h1 h2 ⊢
    omega
  · intro d hd
    have : d = 0 := by simp [negativeExtentConfig] at hd; exact hd
    subst this
    decide

/-- C4 (amended): for a configuration of `int32` values that satisfies the stated
precondition and has no negative minimum extent, `makeOrth` returns an orthotope,
for every state of the random source, and in every dimension `d` it satisfies
`0 <= P0[d] <= P1[d] < MaxBounds.P1[d]`, the arithmetic being that of `int32`. -/
theorem makeOrth_fits_universe (b : bvhTest) (r : Rand) (hpre : makeOrthPre b)
    (h32 : int32Config b) (hmin : nonnegMinVol b) :
    ∃ orth r1, makeOrth b r = .ok (orth, r1) ∧
      orth.P0.length = b.DIM ∧ orth.P1.length = b.DIM ∧
      ∀ d, d < b.DIM →
        0 ≤ orth.P0.getD d 0 ∧ orth.P0.getD d 0 ≤ orth.P1.getD d 0 ∧
        orth.P1.getD d 0 < b.MaxBounds.P1.getD d 0 := by
  obtain ⟨orth, e1, e2, e3, e4⟩ := makeOrth_good b hpre h32 hmin r
  refine ⟨orth, _, e1, e2, e3, fun d hd => ?_⟩
  obtain ⟨g1, g2, g3, g4⟩ := e4 d hd
  have := hmin d hd
  exact ⟨g1, by omega, by omega⟩

theorem sampleConfig_pre (x y z : Int) :
    makeOrthPre (sampleConfig x y z) ∧ int32Config (sampleConfig x y z) ∧
      nonnegMinVol (sampleConfig x y z) := by
  refine ⟨?_, ?_, ?_⟩
  · intro d hd
    have hd2 : d < 2 := hd
    interval_cases d
    · exact ⟨by simp [sampleConfig], fun e h1 h2 => by simp [sampleConfig] at h1 h2 ⊢; omega⟩
    · exact ⟨by simp [sampleConfig], fun e h1 h2 => by simp [sampleConfig] at h1 h2 ⊢; omega⟩
  · intro d hd
    have hd2 : d < 2 := hd
    interval_cases d <;> simp [sampleConfig, isInt32]
  · intro d hd
    have hd2 : d < 2 := hd
    interval_cases d <;> simp [sampleConfig]

/-- Instance of C4 (amended): extents drawn from `[1, 5)` in the universe `[0, 100)`. -/
theorem makeOrth_fits_universe_witness :
    makeOrthPre (sampleConfig 3 2 1) ∧ int32Config (sampleConfig 3 2 1) ∧
    nonnegMinVol (sampleConfig 3 2 1) ∧
    ∃ orth r1, makeOrth (sampleConfig 3 2 1) ⟨fun n => n, 0⟩ = .ok (orth, r1) ∧
      orth.P0.length = (sampleConfig 3 2 1).DIM ∧ orth.P1.length = (sampleConfig 3 2 1).DIM ∧
      ∀ d, d < (sampleConfig 3 2 1).DIM →
        0 ≤ orth.P0.getD d 0 ∧ orth.P0.getD d 0 ≤ orth.P1.getD d 0 ∧
        orth.P1.getD d 0 < (sampleConfig 3 2 1).MaxBounds.P1.getD d 0 :=
  ⟨(sampleConfig_pre 3 2 1).1, (sampleConfig_pre 3 2 1).2.1, (sampleConfig_pre 3 2 1).2.2,
    makeOrth_fits_universe (sampleConfig 3 2 1) ⟨fun n => n, 0⟩ (sampleConfig_pre 3 2 1).1
      (sampleConfig_pre 3 2 1).2.1 (sampleConfig_pre 3 2 1).2.2⟩

/-! ## Runs that only insert -/

theorem distribute_zero_events (r : Rand) (S : Int) (hS : 0 ≤ S) :
    distribute r 0 S = .ok (List.replicate S.toNat 0, r) := by
  unfold distribute
  rw [if_neg (by omega)]
  rfl

theorem getD_of_all_zero (l : List Int) (a : Nat) (h : ∀ x ∈ l, x = 0) : l.getD a 0 = 0 := by
  by_cases hi : a < l.length
  · rw [List.getD_eq_getElem _ _ hi]
    exact h _ (List.getElem_mem hi)
  · rw [List.getD_eq_default _ _ (by omega)]

theorem step_adds {σ : Type} (I : Index σ) (clk : Nat → Int) (b : bvhTest)
    (hpre : makeOrthPre b) (h32 : int32Config b) (hmin : nonnegMinVol b) (N a : Nat)
    (s : State σ) (hs : Shape N a s) (ha : a < N) (hr : ∀ x ∈ s.removals, x = 0)
    (hq : ∀ x ∈ s.queries, x = 0) (hk : AddsOnly a s) :
    (step I clk b a s).stopped = none ∧ Shape N (a + 1) (step I clk b a s).state ∧
    (step I clk b a s).state.removals = s.removals ∧
    (step I clk b a s).state.queries = s.queries ∧
    AddsOnly (a + 1) (step I clk b a s).state := by
  obtain ⟨orth, hm, _⟩ := makeOrth_good b hpre h32 hmin s.r
  have hadd := addItem_ok I clk b a s orth _ hm (by rw [hs.1]; exact ha)
  have hstep : step I clk b a s = addItem I clk b a s := by
    rw [step_eq I clk b N a s hs ha, hadd]
    simp only [andThen_ok]
    rw [getD_of_all_zero _ a hr]
    simp only [Int.toNat_zero, attempts, andThen_ok]
    rw [getD_of_all_zero _ a hq]
    simp only [Int.toNat_zero, queryRuns]
  rw [hstep]
  rcases addItem_shape I clk b N a s hs ha with ⟨h0, h1, _⟩ | ⟨h, _⟩
  · refine ⟨h0, h1, by rw [hadd], by rw [hadd], ?_⟩
    obtain ⟨k1, k2, k3, k4, k5⟩ := hk
    rw [hadd]
    refine ⟨?_, ?_, ?_, ?_, ?_⟩
    · show s.total + 1 = _
      rw [k1]; push_cast; ring
    · simp [k2]
    · intro k hk
      by_cases hka : k < a
      · obtain ⟨dp, du, o, e⟩ := k3 k hka
        refine ⟨dp, du, o, ?_⟩
        show (s.out ++ _)[k]? = _
        rw [List.getElem?_append_left (by omega)]
        exact e
      · have hke : k = a := by omega
        subst hke
        refine ⟨I.Depth (I.Add s.btree orth (k : Int)).2, clk s.ticks, orth, ?_⟩
        show (s.out ++ _)[k]? = _
        rw [List.getElem?_append_right (by omega), k2, Nat.sub_self, k1]
        rfl
    · intro rec hmem
      simp only [List.mem_append, List.mem_singleton] at hmem
      rcases hmem with hmem | rfl
      · exact k4 rec hmem
      · rfl
    · intro op hmem
      simp only [List.mem_append, List.mem_singleton] at hmem
      rcases hmem with hmem | rfl
      · exact k5 op hmem
      · exact Or.inr ⟨_, _, _, rfl⟩
  · rw [hadd] at h
    exact absurd rfl h

theorem stepsFrom_adds {σ : Type} (I : Index σ) (clk : Nat → Int) (b : bvhTest)
    (hpre : makeOrthPre b) (h32 : int32Config b) (hmin : nonnegMinVol b) :
    ∀ (n a : Nat) (s : State σ), Shape b.Additions.toNat a s → a + n ≤ b.Additions.toNat →
      (∀ x ∈ s.removals, x = 0) → (∀ x ∈ s.queries, x = 0) → AddsOnly a s →
      (stepsFrom I clk b n a s).stopped = none ∧ AddsOnly (a + n) (stepsFrom I clk b n a s).state := by
  intro n
  induction n with
  | zero => intro a s _ _ _ _ hk; exact ⟨rfl, hk⟩
  | succ n ih =>
    intro a s hs han hr hq hk
    have ha : a < b.Additions.toNat := by omega
    obtain ⟨g1, g2, g3, g4, g5⟩ := step_adds I clk b hpre h32 hmin _ a s hs ha hr hq hk
    simp only [stepsFrom]
    rw [if_pos (by omega), andThen_of_running _ _ g1]
    obtain ⟨r1, r2⟩ := ih (a + 1) _ g2 (by omega) (by rw [g3]; exact hr) (by rw [g4]; exact hq) g5
    have e : a + (n + 1) = a + 1 + n := by omega
    rw [e]
    exact ⟨r1, r2⟩

theorem setup_no_events {σ : Type} (I : Index σ) (NewSource : Int → Nat → Nat) (b : bvhTest)
    (hA : 0 ≤ b.Additions) (hR : b.Removals = 0) (hQ : b.Queries = 0) :
    (setup I NewSource b).stopped = none ∧
    (∀ x ∈ (setup I NewSource b).state.removals, x = 0) ∧
    (∀ x ∈ (setup I NewSource b).state.queries, x = 0) := by
  unfold setup
  rw [hR, hQ]
  simp only [distribute_zero_events _ _ hA]
  exact ⟨trivial, fun x hx => List.eq_of_mem_replicate hx,
    fun x hx => List.eq_of_mem_replicate hx⟩

theorem addsOnly_counts {σ : Type} (n : Nat) (s : State σ) (h : AddsOnly n s) :
    s.out.countP Record.isAdd = n ∧ s.out.countP Record.isSub = 0 ∧
      s.out.countP Record.isQue = 0 := by
  obtain ⟨_, h2, _, h4, _⟩ := h
  refine ⟨?_, ?_, ?_⟩
  · rw [List.countP_eq_length.mpr h4, h2]
  · rw [List.countP_eq_zero]
    intro rec hmem
    have := h4 rec hmem
    cases rec <;> simp [Record.isAdd, Record.isSub] at this ⊢
  · rw [List.countP_eq_zero]
    intro rec hmem
    have := h4 rec hmem
    cases rec <;> simp [Record.isAdd, Record.isQue] at this ⊢

/-- C8 (as stated, refuted): with extents drawn from `[-2000000000, -1999999990)` in
the universe `[0, 2000000000)` the stated precondition holds, but the range of the
second draw, `2000000000 - (-2000000000)`, wraps to a negative `int32`, the draw is
rejected, and the run with `Additions = 1`, `Removals = 0`, `Queries = 0` prints no
`add` line. -/
theorem wide_range_run_prints_nothing :
    makeOrthPre wideRangeConfig ∧ int32Config wideRangeConfig ∧
    wideRangeConfig.Additions = 1 ∧ wideRangeConfig.Removals = 0 ∧ wideRangeConfig.Queries = 0 ∧
    (runTest countingIndex (fun _ _ => 0) (fun _ => 5) wideRangeConfig).state.out = [] ∧
    (runTest countingIndex (fun _ _ => 0) (fun _ => 5) wideRangeConfig).stopped =
      some .invalidArgument := by
  refine ⟨?_, ?_, rfl, rfl, rfl, rfl, rfl⟩
  · intro d hd
    have : d = 0 := by simp [wideRangeConfig] at hd; exact hd
    subst this
    refine ⟨by decide, fun e h1 h2 => ?_⟩
    simp [wideRangeConfig] at h1 h2 ⊢
    omega
  · intro d hd
    have : d = 0 := by simp [wideRangeConfig] at hd; exact hd
    subst this
    decide

/-- C8 (amended): for every `N >= 0`, every seed and every configuration of `int32`
values with `Additions = N`, `Removals = 0`, `Queries = 0` that satisfies the
precondition of `makeOrth` and has no negative minimum extent, `runTest` completes
all its steps and prints exactly `N` lines, all of them `add` lines (no `sub` or
`que` line), the `k`-th of which carries the live count `k`; the final live count is
`N`, and the only calls on the index are `Add` and the final `Verify`. -/
theorem additions_only_run {σ : Type} (I : Index σ) (NewSource : Int → Nat → Nat)
    (clk : Nat → Int) (b : bvhTest) (hpre : makeOrthPre b) (h32 : int32Config b)
    (hmin : nonnegMinVol b) (hA : 0 ≤ b.Additions) (hR : b.Removals = 0)
    (hQ : b.Queries = 0) :
    (runPrefix I NewSource clk b b.Additions.toNat).stopped = none ∧
    (runTest I NewSource clk b).state.out.length = b.Additions.toNat ∧
    (∀ k, k < b.Additions.toNat → ∃ depth duration orth,
      (runTest I NewSource clk b).state.out[k]? =
        some (Record.add ((k : Int) + 1) depth duration orth)) ∧
    (runTest I NewSource clk b).state.out.countP Record.isAdd = b.Additions.toNat ∧
    (runTest I NewSource clk b).state.out.countP Record.isSub = 0 ∧
    (runTest I NewSource clk b).state.out.countP Record.isQue = 0 ∧
    (runTest I NewSource clk b).state.total = b.Additions ∧
    (∀ op ∈ (runTest I NewSource clk b).state.hist,
      op = Op.Verify ∨ ∃ a orth ref, op = Op.Add a orth ref) := by
  obtain ⟨s1, s2, s3⟩ := setup_no_events I NewSource b hA hR hQ
  obtain ⟨hsh, _⟩ := setup_running I NewSource b s1
  obtain ⟨_, _, _, f4, f5, f6, _⟩ := setup_fields I NewSource b
  have h0 : AddsOnly 0 (setup I NewSource b).state := by
    refine ⟨by rw [f4]; rfl, by rw [f5]; rfl, fun k hk => by omega, ?_, ?_⟩
    · intro rec hmem; rw [f5] at hmem; simp at hmem
    · intro op hmem; rw [f6] at hmem; simp at hmem
  obtain ⟨r1, r2⟩ := stepsFrom_adds I clk b hpre h32 hmin b.Additions.toNat 0 _ hsh
    (by omega) s2 s3 h0
  rw [Nat.zero_add] at r2
  have hpref : runPrefix I NewSource clk b b.Additions.toNat =
      stepsFrom I clk b b.Additions.toNat 0 (setup I NewSource b).state := by
    unfold runPrefix
    rw [andThen_of_running _ _ s1]
  have hrun : runTest I NewSource clk b =
      verify I (stepsFrom I clk b b.Additions.toNat 0 (setup I NewSource b).state).state := by
    rw [runTest_eq I NewSource clk b hA (by omega), hpref, andThen_of_running _ _ r1]
  have hfinal : AddsOnly b.Additions.toNat (runTest I NewSource clk b).state := by
    rw [hrun]
    obtain ⟨k1, k2, k3, k4, k5⟩ := r2
    refine ⟨k1, k2, k3, k4, ?_⟩
    intro op hmem
    simp only [verify, List.mem_append, List.mem_singleton] at hmem
    rcases hmem with hmem | rfl
    · exact k5 op hmem
    · exact Or.inl rfl
  obtain ⟨c1, c2, c3⟩ := addsOnly_counts _ _ hfinal
  obtain ⟨k1, k2, k3, _, k5⟩ := hfinal
  exact ⟨by rw [hpref]; exact r1, k2, k3, c1, c2, c3, by rw [k1]; omega, k5⟩

/-- Instance of C8 (amended): the run with `Additions = 5`, `Removals = 0`,
`Queries = 0`. -/
theorem additions_only_run_witness :
    makeOrthPre (sampleConfig 5 0 0) ∧ int32Config (sampleConfig 5 0 0) ∧
    nonnegMinVol (sampleConfig 5 0 0) ∧ 0 ≤ (sampleConfig 5 0 0).Additions ∧
    (sampleConfig 5 0 0).Removals = 0 ∧ (sampleConfig 5 0 0).Queries = 0 ∧
    (runTest countingIndex (fun _ n => n) (fun _ => 5) (sampleConfig 5 0 0)).state.out.countP
      Record.isAdd = (sampleConfig 5 0 0).Additions.toNat ∧
    (runTest countingIndex (fun _ n => n) (fun _ => 5) (sampleConfig 5 0 0)).state.out.countP
      Record.isSub = 0 ∧
    (runTest countingIndex (fun _ n => n) (fun _ => 5) (sampleConfig 5 0 0)).state.out.countP
      Record.isQue = 0 ∧
    (runTest countingIndex (fun _ n => n) (fun _ => 5) (sampleConfig 5 0 0)).state.total =
      (sampleConfig 5 0 0).Additions :=
  ⟨(sampleConfig_pre 5 0 0).1, (sampleConfig_pre 5 0 0).2.1, (sampleConfig_pre 5 0 0).2.2,
    by decide, rfl, rfl,
    (additions_only_run countingIndex (fun _ n => n) (fun _ => 5) (sampleConfig 5 0 0)
      (sampleConfig_pre 5 0 0).1 (sampleConfig_pre 5 0 0).2.1 (sampleConfig_pre 5 0 0).2.2
      (by decide) rfl rfl).2.2.2.1,
    (additions_only_run countingIndex (fun _ n => n) (fun _ => 5) (sampleConfig 5 0 0)
      (sampleConfig_pre 5 0 0).1 (sampleConfig_pre 5 0 0).2.1 (sampleConfig_pre 5 0 0).2.2
      (by decide) rfl rfl).2.2.2.2.1,
    (additions_only_run countingIndex (fun _ n => n) (fun _ => 5) (sampleConfig 5 0 0)
      (sampleConfig_pre 5 0 0).1 (sampleConfig_pre 5 0 0).2.1 (sampleConfig_pre 5 0 0).2.2
      (by decide) rfl rfl).2.2.2.2.2.1,
    (additions_only_run countingIndex (fun _ n => n) (fun _ => 5) (sampleConfig 5 0 0)
      (sampleConfig_pre 5 0 0).1 (sampleConfig_pre 5 0 0).2.1 (sampleConfig_pre 5 0 0).2.2
      (by decide) rfl rfl).2.2.2.2.2.2.1⟩

/-! ## Independence of the clock -/

theorem untimed_andThen {σ : Type} (o : Outcome σ) (f g : State σ → Outcome σ)
    (h : ∀ s, (f s).untimed = g s.untimed) :
    (o.andThen f).untimed = o.untimed.andThen g := by
  obtain ⟨s, st⟩ := o
  cases st with
  | none => exact h s
  | some e => rfl

theorem addItem_untimed {σ : Type} (I : Index σ) (clk : Nat → Int) (b : bvhTest) (a : Nat)
    (s : State σ) :
    (addItem I clk b a s).untimed = addItem I zeroClock b a s.untimed := by
  unfold addItem
  have hr : s.untimed.r = s.r := rfl
  rw [hr]
  cases makeOrth b s.r with
  | error e => rfl
  | ok p =>
    obtain ⟨orth, r1⟩ := p
    have hl : s.untimed.refs = s.refs := rfl
    simp only [hl]
    by_cases ha : a < s.refs.length
    · simp only [if_pos ha]
      simp [Outcome.untimed, State.untimed, Record.withoutDuration, zeroClock]
    · simp only [if_neg ha]
      rfl

theorem removeOne_untimed {σ : Type} (I : Index σ) (clk : Nat → Int) (a : Nat) (s : State σ) :
    (removeOne I clk a s).untimed = removeOne I zeroClock a s.untimed := by
  unfold removeOne
  have hr : s.untimed.r = s.r := rfl
  have hm : s.untimed.removed = s.removed := rfl
  have hl : s.untimed.refs = s.refs := rfl
  have hv : s.untimed.removals = s.removals := rfl
  simp only [hr, hm, hl, hv, Intn_step]
  by_cases hle : scanFrom s.removed a (s.r.draws s.r.pos % (a + 1)) ≤ a
  · simp only [if_pos hle]
    cases s.refs[scanFrom s.removed a (s.r.draws s.r.pos % (a + 1))]? with
    | none => rfl
    | some ref =>
      simp [Outcome.untimed, State.untimed, Record.withoutDuration, zeroClock]
  · simp only [if_neg hle]
    by_cases hlen : a + 1 < s.removals.length
    · simp only [if_pos hlen, bump_eq_set _ _ hlen]
      rfl
    · simp only [if_neg hlen]
      rfl

theorem queryOne_untimed {σ : Type} (I : Index σ) (clk : Nat → Int) (b : bvhTest) (a : Nat)
    (s : State σ) :
    (queryOne I clk b a s).untimed = queryOne I zeroClock b a s.untimed := by
  unfold queryOne
  have hr : s.untimed.r = s.r := rfl
  rw [hr]
  cases makeOrth b s.r with
  | error e => rfl
  | ok p =>
    obtain ⟨q, r1⟩ := p
    simp [Outcome.untimed, State.untimed, Record.withoutDuration, zeroClock]

theorem removalLoop_untimed {σ : Type} (I : Index σ) (clk : Nat → Int) (a : Nat) :
    ∀ (n k : Nat) (s : State σ),
      (removalLoop I clk a n k s).untimed = removalLoop I zeroClock a n k s.untimed := by
  intro n
  induction n with
  | zero => intro k s; rfl
  | succ n ih =>
    intro k s
    simp only [removalLoop]
    have hv : s.untimed.removals = s.removals := rfl
    rw [hv]
    cases s.removals[a]? with
    | none => rfl
    | some m =>
      simp only []
      by_cases hk : (k : Int) < m
      · rw [if_pos hk, if_pos hk, untimed_andThen _ _ _ (ih (k + 1)), removeOne_untimed]
      · rw [if_neg hk, if_neg hk]
        rfl

theorem queryLoop_untimed {σ : Type} (I : Index σ) (clk : Nat → Int) (b : bvhTest) (a : Nat) :
    ∀ (n k : Nat) (s : State σ),
      (queryLoop I clk b a n k s).untimed = queryLoop I zeroClock b a n k s.untimed := by
  intro n
  induction n with
  | zero => intro k s; rfl
  | succ n ih =>
    intro k s
    simp only [queryLoop]
    have hv : s.untimed.queries = s.queries := rfl
    rw [hv]
    cases s.queries[a]? with
    | none => rfl
    | some m =>
      simp only []
      by_cases hk : (k : Int) < m
      · rw [if_pos hk, if_pos hk, untimed_andThen _ _ _ (ih (k + 1)), queryOne_untimed]
      · rw [if_neg hk, if_neg hk]
        rfl

theorem removalsOf_untimed {σ : Type} (I : Index σ) (clk : Nat → Int) (a : Nat)
    (s : State σ) : (removalsOf I clk a s).untimed = removalsOf I zeroClock a s.untimed :=
  removalLoop_untimed I clk a ((s.removals.getD a 0).toNat + 1) 0 s

theorem queriesOf_untimed {σ : Type} (I : Index σ) (clk : Nat → Int) (b : bvhTest) (a : Nat)
    (s : State σ) : (queriesOf I clk b a s).untimed = queriesOf I zeroClock b a s.untimed :=
  queryLoop_untimed I clk b a ((s.queries.getD a 0).toNat + 1) 0 s

theorem verify_untimed {σ : Type} (I : Index σ) (s : State σ) :
    (verify I s).untimed = verify I s.untimed := rfl

theorem step_untimed {σ : Type} (I : Index σ) (clk : Nat → Int) (b : bvhTest) (a : Nat)
    (s : State σ) : (step I clk b a s).untimed = step I zeroClock b a s.untimed := by
  unfold step
  rw [untimed_andThen _ (queriesOf I clk b a) (queriesOf I zeroClock b a)
      (queriesOf_untimed I clk b a),
    untimed_andThen _ (removalsOf I clk a) (removalsOf I zeroClock a)
      (removalsOf_untimed I clk a),
    addItem_untimed]

theorem stepsFrom_untimed {σ : Type} (I : Index σ) (clk : Nat → Int) (b : bvhTest) :
    ∀ (n a : Nat) (s : State σ),
      (stepsFrom I clk b n a s).untimed = stepsFrom I zeroClock b n a s.untimed := by
  intro n
  induction n with
  | zero => intro a s; rfl
  | succ n ih =>
    intro a s
    simp only [stepsFrom]
    by_cases h : (a : Int) < b.Additions
    · rw [if_pos h, if_pos h, untimed_andThen _ _ _ (ih (a + 1)), step_untimed]
    · rw [if_neg h, if_neg h]
      rfl

theorem setup_untimed {σ : Type} (I : Index σ) (NewSource : Int → Nat → Nat) (b : bvhTest) :
    (setup I NewSource b).untimed = setup I NewSource b := by
  unfold setup
  dsimp only []
  split
  · rfl
  · split <;> rfl

theorem runTest_untimed {σ : Type} (I : Index σ) (NewSource : Int → Nat → Nat)
    (clk : Nat → Int) (b : bvhTest) :
    (runTest I NewSource clk b).untimed = runTest I NewSource zeroClock b := by
  unfold runTest
  by_cases h1 : b.Additions < 0
  · rw [if_pos h1, if_pos h1]; rfl
  · rw [if_neg h1, if_neg h1]
    by_cases h2 : b.Removals > b.Additions
    · rw [if_pos h2, if_pos h2]; rfl
    · rw [if_neg h2, if_neg h2]
      unfold runPrefix
      rw [untimed_andThen _ (verify I) (verify I) (verify_untimed I),
        untimed_andThen _ (stepsFrom I clk b b.Additions.toNat 0)
          (stepsFrom I zeroClock b b.Additions.toNat 0)
          (stepsFrom_untimed I clk b b.Additions.toNat 0),
        setup_untimed]

/-! ## distribute reads only the draws from the current position on -/

theorem distributeLoop_same_draws (steps : Int) :
    ∀ (n : Nat) (events : List Int) (r1 r2 : Rand),
      (∀ k, r1.draws (r1.pos + k) = r2.draws (r2.pos + k)) →
      (distributeLoop steps n events r1).map Prod.fst =
        (distributeLoop steps n events r2).map Prod.fst := by
  intro n
  induction n with
  | zero => intro events r1 r2 _; rfl
  | succ n ih =>
    intro events r1 r2 h
    simp only [distributeLoop]
    by_cases hs : steps ≤ 0
    · rw [Intn_error r1 steps hs, Intn_error r2 steps hs]
    · rw [Intn_ok r1 steps (by omega), Intn_ok r2 steps (by omega)]
      have h0 := h 0
      simp only [Nat.add_zero] at h0
      rw [h0]
      simp only []
      cases bump events (r2.draws r2.pos % steps.toNat) with
      | error e => rfl
      | ok events1 =>
        simp only []
        apply ih
        intro k
        have := h (k + 1)
        simp only [] at this ⊢
        rw [Nat.add_right_comm r1.pos 1 k, Nat.add_right_comm r2.pos 1 k]
        exact this

theorem distribute_same_draws (r1 r2 : Rand) (T S : Int)
    (h : ∀ k, r1.draws (r1.pos + k) = r2.draws (r2.pos + k)) :
    (distribute r1 T S).map Prod.fst = (distribute r2 T S).map Prod.fst := by
  unfold distribute
  by_cases hs : S < 0
  · rw [if_pos hs, if_pos hs]
  · rw [if_neg hs, if_neg hs]
    exact distributeLoop_same_draws S _ _ r1 r2 h

/-- C9: two runs of `runTest` on the same configuration and the same random source
(same seed), read against arbitrary and different clocks, print the same lines up to
the duration field (same kinds in the same order, same live counts, same depths,
same orthotopes, same removed keys), make the same calls on the index (same
orthotopes, same removal slots and handles), stop or not in the same way and end in
the same bookkeeping state.  Likewise `distribute` returns the same sequence from
two random sources that agree on the draws to come. -/
theorem run_structure_independent_of_clock {σ : Type} (I : Index σ)
    (NewSource : Int → Nat → Nat) (clk1 clk2 : Nat → Int) (b : bvhTest) (r1 r2 : Rand)
    (T S : Int) (hdraws : ∀ k, r1.draws (r1.pos + k) = r2.draws (r2.pos + k)) :
    (runTest I NewSource clk1 b).state.out.map Record.withoutDuration =
      (runTest I NewSource clk2 b).state.out.map Record.withoutDuration ∧
    (runTest I NewSource clk1 b).state.hist = (runTest I NewSource clk2 b).state.hist ∧
    (runTest I NewSource clk1 b).stopped = (runTest I NewSource clk2 b).stopped ∧
    (runTest I NewSource clk1 b).state.total = (runTest I NewSource clk2 b).state.total ∧
    (runTest I NewSource clk1 b).state.orths = (runTest I NewSource clk2 b).state.orths ∧
    (runTest I NewSource clk1 b).state.refs = (runTest I NewSource clk2 b).state.refs ∧
    (runTest I NewSource clk1 b).state.removed = (runTest I NewSource clk2 b).state.removed ∧
    (runTest I NewSource clk1 b).state.removals = (runTest I NewSource clk2 b).state.removals ∧
    (runTest I NewSource clk1 b).state.carried = (runTest I NewSource clk2 b).state.carried ∧
    (runTest I NewSource clk1 b).state.dropped = (runTest I NewSource clk2 b).state.dropped ∧
    (runTest I NewSource clk1 b).state.r.pos = (runTest I NewSource clk2 b).state.r.pos ∧
    (distribute r1 T S).map Prod.fst = (distribute r2 T S).map Prod.fst := by
  have h : (runTest I NewSource clk1 b).untimed = (runTest I NewSource clk2 b).untimed := by
    rw [runTest_untimed, runTest_untimed]
  exact ⟨congrArg (fun o => o.state.out) h, congrArg (fun o => o.state.hist) h,
    congrArg (fun o => o.stopped) h, congrArg (fun o => o.state.total) h,
    congrArg (fun o => o.state.orths) h, congrArg (fun o => o.state.refs) h,
    congrArg (fun o => o.state.removed) h, congrArg (fun o => o.state.removals) h,
    congrArg (fun o => o.state.carried) h, congrArg (fun o => o.state.dropped) h,
    congrArg (fun o => o.state.r.pos) h, distribute_same_draws r1 r2 T S hdraws⟩

/-- Instance of C9: one run read against a constant clock and one against a clock that
ticks, and two random sources that agree on the draws to come. -/
theorem run_structure_independent_of_clock_witness :
    (∀ k, (⟨fun n => n, 2⟩ : Rand).draws ((⟨fun n => n, 2⟩ : Rand).pos + k) =
      (⟨fun n => n + 2, 0⟩ : Rand).draws ((⟨fun n => n + 2, 0⟩ : Rand).pos + k)) ∧
    (runTest countingIndex (fun _ n => n) (fun _ => 5) (sampleConfig 3 2 1)).state.out.map
        Record.withoutDuration =
      (runTest countingIndex (fun _ n => n) (fun k => (k : Int)) (sampleConfig 3 2 1)).state.out.map
        Record.withoutDuration ∧
    (runTest countingIndex (fun _ n => n) (fun _ => 5) (sampleConfig 3 2 1)).state.hist =
      (runTest countingIndex (fun _ n => n) (fun k => (k : Int)) (sampleConfig 3 2 1)).state.hist ∧
    (distribute ⟨fun n => n, 2⟩ 3 2).map Prod.fst =
      (distribute ⟨fun n => n + 2, 0⟩ 3 2).map Prod.fst :=
  ⟨fun k => by simp only []; omega,
    (run_structure_independent_of_clock countingIndex (fun _ n => n) (fun _ => 5)
      (fun k => (k : Int)) (sampleConfig 3 2 1) ⟨fun n => n, 2⟩ ⟨fun n => n + 2, 0⟩ 3 2
      (fun k => by simp only []; omega)).1,
    (run_structure_independent_of_clock countingIndex (fun _ n => n) (fun _ => 5)
      (fun k => (k : Int)) (sampleConfig 3 2 1) ⟨fun n => n, 2⟩ ⟨fun n => n + 2, 0⟩ 3 2
      (fun k => by simp only []; omega)).2.1,
    (run_structure_independent_of_clock countingIndex (fun _ n => n) (fun _ => 5)
      (fun k => (k : Int)) (sampleConfig 3 2 1) ⟨fun n => n, 2⟩ ⟨fun n => n + 2, 0⟩ 3 2
      (fun k => by simp only []; omega)).2.2.2.2.2.2.2.2.2.2.2⟩

/-! ## Rejected draws in makeOrth -/

theorem Int31n_error (r : Rand) (n : Int) (h : n ≤ 0) :
    r.Int31n n = .error .invalidArgument := by
  unfold Rand.Int31n
  rw [if_pos h]

/-- The only failure of `makeOrth` is a rejected draw. -/
theorem makeOrthLoop_error_kind (b : bvhTest) :
    ∀ (n d : Nat) (orth : Orthotope) (r : Rand) (e : Panic),
      makeOrthLoop b n d orth r = .error e → e = .invalidArgument := by
  intro n
  induction n with
  | zero => intro d orth r e h; simp [makeOrthLoop] at h
  | succ n ih =>
    intro d orth r e h
    simp only [makeOrthLoop] at h
    by_cases h1 : wrap32 (b.MaxVol.getD d 0 - b.MinVol.getD d 0) ≤ 0
    · rw [Int31n_error r _ h1] at h
      simp only [Except.error.injEq] at h
      exact h.symm
    · rw [Int31n_ok r _ (by omega)] at h
      simp only [] at h
      split at h
      · rename_i e1 he1
        simp only [Except.error.injEq] at h
        subst h
        unfold Rand.Int31n at he1
        split at he1
        · simp only [Except.error.injEq] at he1
          exact he1.symm
        · simp at he1
      · exact ih _ _ _ _ h

theorem makeOrth_error_kind (b : bvhTest) (r : Rand) (e : Panic)
    (h : makeOrth b r = .error e) : e = .invalidArgument :=
  makeOrthLoop_error_kind b _ _ _ _ e h

/-- The loop of `makeOrth`, entered at dimension `d0` with the draws of the earlier
dimensions consumed, fails when a draw range of a dimension `d` still to come is
empty or negative. -/
theorem makeOrthLoop_rejects (b : bvhTest) (r0 : Rand) (d : Nat)
    (hbad : extentRange b d ≤ 0 ∨ cornerRange b r0 d ≤ 0) :
    ∀ (n d0 : Nat) (orth : Orthotope), d0 ≤ d → d < d0 + n →
      makeOrthLoop b n d0 orth ⟨r0.draws, r0.pos + 2 * d0⟩ = .error .invalidArgument := by
  intro n
  induction n with
  | zero => intro d0 orth h1 h2; omega
  | succ n ih =>
    intro d0 orth h1 h2
    simp only [makeOrthLoop]
    by_cases g1 : wrap32 (b.MaxVol.getD d0 0 - b.MinVol.getD d0 0) ≤ 0
    · rw [Int31n_error _ _ g1]
    · rw [Int31n_ok _ _ (by omega)]
      simp only []
      by_cases g2 : wrap32 (b.MaxBounds.P1.getD d0 0 - wrap32 (b.MinVol.getD d0 0 +
          ((r0.draws (r0.pos + 2 * d0) %
            (wrap32 (b.MaxVol.getD d0 0 - b.MinVol.getD d0 0)).toNat : Nat) : Int))) ≤ 0
      · rw [Int31n_error _ _ g2]
      · rw [Int31n_ok _ _ (by omega)]
        simp only []
        by_cases hd : d0 = d
        · subst hd
          rcases hbad with hb | hb
          · exact absurd hb g1
          · exact absurd hb g2
        · have e : r0.pos + 2 * d0 + 1 + 1 = r0.pos + 2 * (d0 + 1) := by omega
          rw [e]
          exact ih (d0 + 1) _ (by omega) (by omega)

theorem makeOrth_rejects (b : bvhTest) (r : Rand) (d : Nat) (hd : d < b.DIM)
    (hbad : extentRange b d ≤ 0 ∨ cornerRange b r d ≤ 0) :
    makeOrth b r = .error .invalidArgument := by
  have h := makeOrthLoop_rejects b r d hbad b.DIM 0
    { P0 := List.replicate b.DIM 0, P1 := List.replicate b.DIM 0 } (Nat.zero_le d) (by omega)
  simp only [Nat.mul_zero, Nat.add_zero] at h
  exact h

/-- C11 (as stated, refuted): with `MinVol = [2147483647]`, `MaxVol = [-2147483648]`
and `MaxBounds.P1 = [-2147483648]` the maximum extent is below the minimum extent and
the upper bound of the universe is below the drawn extent `2147483647`, but both
differences wrap to the `int32` value 1, both draws are accepted, and `makeOrth`
returns the orthotope with `P0 = [0]`, `P1 = [2147483647]`. -/
theorem wrapped_ranges_are_accepted :
    wrappedRangeConfig.MaxVol.getD 0 0 ≤ wrappedRangeConfig.MinVol.getD 0 0 ∧
    drawnExtent wrappedRangeConfig ⟨fun _ => 0, 0⟩ 0 = 2147483647 ∧
    wrappedRangeConfig.MaxBounds.P1.getD 0 0 ≤ drawnExtent wrappedRangeConfig ⟨fun _ => 0, 0⟩ 0 ∧
    (makeOrth wrappedRangeConfig ⟨fun _ => 0, 0⟩).map Prod.fst = .ok ⟨[0], [2147483647]⟩ := by
  refine ⟨by decide, rfl, by decide, rfl⟩

/-- C11 (amended): `makeOrth` fails with a rejected draw, rather than returning an
orthotope, whenever for some dimension `d` a draw range is empty or negative as an
`int32`: the `int32` value of `MaxVol[d] - MinVol[d]` is at most 0, or the `int32`
value of `MaxBounds.P1[d] - delta` is at most 0 for the drawn extent `delta`.  In
particular it fails when `MaxVol[d] <= MinVol[d]`, or `MaxBounds.P1[d] <= delta`, and
the difference concerned does not wrap. -/
theorem makeOrth_rejects_empty_range (b : bvhTest) (r : Rand) (d : Nat) (hd : d < b.DIM)
    (hbad : extentRange b d ≤ 0 ∨ cornerRange b r d ≤ 0 ∨
      (b.MaxVol.getD d 0 ≤ b.MinVol.getD d 0 ∧
        isInt32 (b.MaxVol.getD d 0 - b.MinVol.getD d 0)) ∨
      (b.MaxBounds.P1.getD d 0 ≤ drawnExtent b r d ∧
        isInt32 (b.MaxBounds.P1.getD d 0 - drawnExtent b r d))) :
    makeOrth b r = .error .invalidArgument ∧
    ∀ orth r1, makeOrth b r ≠ .ok (orth, r1) := by
  have hfail : makeOrth b r = .error .invalidArgument := by
    rcases hbad with h | h | ⟨h1, h2⟩ | ⟨h1, h2⟩
    · exact makeOrth_rejects b r d hd (Or.inl h)
    · exact makeOrth_rejects b r d hd (Or.inr h)
    · refine makeOrth_rejects b r d hd (Or.inl ?_)
      unfold extentRange
      rw [wrap32_of_isInt32 _ h2]
      omega
    · refine makeOrth_rejects b r d hd (Or.inr ?_)
      unfold cornerRange
      rw [wrap32_of_isInt32 _ h2]
      omega
  refine ⟨hfail, fun orth r1 h => ?_⟩
  rw [hfail] at h
  cases h

/-- Instance of C11 (amended): `MaxVol = MinVol = [5]`. -/
theorem makeOrth_rejects_empty_range_witness :
    (0 : Nat) < emptyRangeConfig.DIM ∧
    (emptyRangeConfig.MaxVol.getD 0 0 ≤ emptyRangeConfig.MinVol.getD 0 0 ∧
      isInt32 (emptyRangeConfig.MaxVol.getD 0 0 - emptyRangeConfig.MinVol.getD 0 0)) ∧
    makeOrth emptyRangeConfig ⟨fun n => n, 0⟩ = .error .invalidArgument :=
  ⟨by decide, by decide,
    (makeOrth_rejects_empty_range emptyRangeConfig ⟨fun n => n, 0⟩ 0 (by decide)
      (Or.inr (Or.inr (Or.inl (by decide))))).1⟩

/-- When the first call of `makeOrth` fails, the main loop stops where it started. -/
theorem stepsFrom_first_draw_fails {σ : Type} (I : Index σ) (clk : Nat → Int) (b : bvhTest)
    (n : Nat) (s : State σ) (e : Panic) (hA : 1 ≤ b.Additions)
    (hm : makeOrth b s.r = .error e) :
    stepsFrom I clk b (n + 1) 0 s = ⟨s, some e⟩ := by
  simp only [stepsFrom]
  rw [if_pos (by omega)]
  unfold step
  rw [addItem_error I clk b 0 s e hm]
  rfl

/-- C12 (as stated, refuted): with extents drawn from `[1, 5)` in the universe
`[0, 3)` and `Additions = 2`, `Removals = 0`, the first insertion draws the extent 1
and is made; the second draws the extent 3, the range of its corner is empty, and
the run stops there, after one `Add` and one `add` line. -/
theorem narrow_universe_stops_after_an_add :
    narrowUniverseConfig.Removals ≤ narrowUniverseConfig.Additions ∧
    (runTest countingIndex (fun _ n => n) (fun _ => 5) narrowUniverseConfig).stopped =
      some .invalidArgument ∧
    cornerRange narrowUniverseConfig
      (runTest countingIndex (fun _ n => n) (fun _ => 5) narrowUniverseConfig).state.r 0 = 0 ∧
    (runTest countingIndex (fun _ n => n) (fun _ => 5) narrowUniverseConfig).state.hist =
      [Op.Add 0 ⟨[1], [2]⟩ 100] ∧
    (runTest countingIndex (fun _ n => n) (fun _ => 5) narrowUniverseConfig).state.out =
      [Record.add 1 1 5 ⟨[1], [2]⟩] := by
  refine ⟨by decide, rfl, rfl, rfl, rfl⟩

/-- C12 (amended): for a configuration with `Additions >= 1` and
`Removals <= Additions` whose first call of `makeOrth`, the one of step 0, meets a
draw range that is empty or negative as an `int32`, `runTest` is stopped by the
rejected draw before any operation: no `Add`, `Remove`, `Query` or `Verify` is
invoked on the index, nothing is printed and nothing is counted. -/
theorem degenerate_first_draw_stops_run {σ : Type} (I : Index σ)
    (NewSource : Int → Nat → Nat) (clk : Nat → Int) (b : bvhTest) (d : Nat)
    (hA : 1 ≤ b.Additions) (hRA : b.Removals ≤ b.Additions) (hd : d < b.DIM)
    (hbad : extentRange b d ≤ 0 ∨ cornerRange b (setup I NewSource b).state.r d ≤ 0) :
    (runTest I NewSource clk b).stopped = some .invalidArgument ∧
    (runTest I NewSource clk b).state.hist = [] ∧
    (runTest I NewSource clk b).state.out = [] ∧
    (runTest I NewSource clk b).state.total = 0 ∧
    (runTest I NewSource clk b).state.orths = [] ∧
    (runTest I NewSource clk b).state.btree = I.NewInt32Node := by
  obtain ⟨rem, que, hsetup, _⟩ := setup_ok I NewSource b hA
  have hrun : (setup I NewSource b).stopped = none := by rw [hsetup]
  have hm := makeOrth_rejects b _ d hd hbad
  obtain ⟨_, f2, _, f4, f5, f6, _, _, _, f10⟩ := setup_fields I NewSource b
  have hN : b.Additions.toNat = (b.Additions.toNat - 1) + 1 := by omega
  have hrt : runTest I NewSource clk b =
      ⟨(setup I NewSource b).state, some .invalidArgument⟩ := by
    rw [runTest_eq I NewSource clk b (by omega) hRA]
    unfold runPrefix
    rw [andThen_of_running _ _ hrun, hN, stepsFrom_first_draw_fails I clk b _ _ _ hA hm]
    rfl
  rw [hrt]
  exact ⟨rfl, f6, f5, f4, f2, f10⟩

/-- Instance of C12 (amended): `MaxVol = MinVol = [5]` with `Additions = 2`. -/
theorem degenerate_first_draw_stops_run_witness :
    (1 : Int) ≤ emptyRangeConfig.Additions ∧
    emptyRangeConfig.Removals ≤ emptyRangeConfig.Additions ∧
    (0 : Nat) < emptyRangeConfig.DIM ∧ extentRange emptyRangeConfig 0 ≤ 0 ∧
    (runTest countingIndex (fun _ n => n) (fun _ => 5) emptyRangeConfig).stopped =
      some .invalidArgument ∧
    (runTest countingIndex (fun _ n => n) (fun _ => 5) emptyRangeConfig).state.hist = [] ∧
    (runTest countingIndex (fun _ n => n) (fun _ => 5) emptyRangeConfig).state.out = [] :=
  ⟨by decide, by decide, by decide, by decide,
    (degenerate_first_draw_stops_run countingIndex (fun _ n => n) (fun _ => 5)
      emptyRangeConfig 0 (by decide) (by decide) (by decide) (Or.inl (by decide))).1,
    (degenerate_first_draw_stops_run countingIndex (fun _ n => n) (fun _ => 5)
      emptyRangeConfig 0 (by decide) (by decide) (by decide) (Or.inl (by decide))).2.1,
    (degenerate_first_draw_stops_run countingIndex (fun _ n => n) (fun _ => 5)
      emptyRangeConfig 0 (by decide) (by decide) (by decide) (Or.inl (by decide))).2.2.1⟩

/-! ## The values makeOrth draws when no minimum extent is negative -/

theorem draw_values (b : bvhTest) (hpre : makeOrthPre b) (h32 : int32Config b)
    (hmin : nonnegMinVol b) (r : Rand) (d : Nat) (hd : d < b.DIM) :
    extentRange b d = b.MaxVol.getD d 0 - b.MinVol.getD d 0 ∧
    0 < extentRange b d ∧
    drawnExtent b r d = b.MinVol.getD d 0 +
      ((r.draws (r.pos + 2 * d) % (b.MaxVol.getD d 0 - b.MinVol.getD d 0).toNat : Nat) : Int) ∧
    b.MinVol.getD d 0 ≤ drawnExtent b r d ∧ drawnExtent b r d < b.MaxVol.getD d 0 ∧
    cornerRange b r d = b.MaxBounds.P1.getD d 0 - drawnExtent b r d ∧
    0 < cornerRange b r d ∧
    0 ≤ drawnCorner b r d ∧ drawnCorner b r d < cornerRange b r d ∧
    isInt32 (drawnCorner b r d + drawnExtent b r d) := by
  obtain ⟨p1, p2⟩ := hpre d hd
  obtain ⟨⟨a1, a2⟩, ⟨a3, a4⟩, ⟨a5, a6⟩⟩ := h32 d hd
  have hm := hmin d hd
  have w1 : extentRange b d = b.MaxVol.getD d 0 - b.MinVol.getD d 0 :=
    wrap32_of_isInt32 _ ⟨by omega, by omega⟩
  have hx := Int31n_lt ⟨r.draws, r.pos + 2 * d⟩ (b.MaxVol.getD d 0 - b.MinVol.getD d 0)
    (by omega)
  simp only [] at hx
  have w2 : drawnExtent b r d = b.MinVol.getD d 0 +
      ((r.draws (r.pos + 2 * d) % (b.MaxVol.getD d 0 - b.MinVol.getD d 0).toNat : Nat) : Int) := by
    unfold drawnExtent
    rw [w1]
    exact wrap32_of_isInt32 _ ⟨by omega, by omega⟩
  have hlo : b.MinVol.getD d 0 ≤ drawnExtent b r d := by rw [w2]; omega
  have hhi : drawnExtent b r d < b.MaxVol.getD d 0 := by rw [w2]; omega
  have hdelta := p2 _ hlo hhi
  have w3 : cornerRange b r d = b.MaxBounds.P1.getD d 0 - drawnExtent b r d :=
    wrap32_of_isInt32 _ ⟨by omega, by omega⟩
  have hc0 : 0 ≤ drawnCorner b r d := Int.natCast_nonneg _
  have hc1 : drawnCorner b r d < cornerRange b r d :=
    Int31n_lt ⟨r.draws, r.pos + 2 * d + 1⟩ (cornerRange b r d) (by omega)
  exact ⟨w1, by omega, w2, hlo, hhi, w3, by omega, hc0, hc1, ⟨by omega, by omega⟩⟩

theorem makeOrthLoop_exact (b : bvhTest) (hpre : makeOrthPre b) (h32 : int32Config b)
    (hmin : nonnegMinVol b) (r0 : Rand) :
    ∀ (n d : Nat) (orth : Orthotope), d + n = b.DIM →
      orth.P0.length = b.DIM → orth.P1.length = b.DIM →
      ∃ res, makeOrthLoop b n d orth ⟨r0.draws, r0.pos + 2 * d⟩ =
          .ok (res, ⟨r0.draws, r0.pos + 2 * b.DIM⟩) ∧
        res.P0.length = b.DIM ∧ res.P1.length = b.DIM ∧
        (∀ j, j < d → res.P0.getD j 0 = orth.P0.getD j 0 ∧ res.P1.getD j 0 = orth.P1.getD j 0) ∧
        (∀ j, d ≤ j → j < b.DIM →
          res.P0.getD j 0 = drawnCorner b r0 j ∧
          res.P1.getD j 0 = drawnCorner b r0 j + drawnExtent b r0 j) := by
  intro n
  induction n with
  | zero =>
    intro d orth hd h0 h1
    have : d = b.DIM := by omega
    subst this
    exact ⟨orth, rfl, h0, h1, fun j _ => ⟨rfl, rfl⟩, fun j hj1 hj2 => by omega⟩
  | succ n ih =>
    intro d orth hd h0 h1
    have hdlt : d < b.DIM := by omega
    obtain ⟨_, v2, _, _, _, _, v7, _, _, v10⟩ := draw_values b hpre h32 hmin r0 d hdlt
    obtain ⟨res, e1, e2, e3, e4, e5⟩ := ih (d + 1)
      { P0 := orth.P0.set d (drawnCorner b r0 d),
        P1 := orth.P1.set d (drawnCorner b r0 d + drawnExtent b r0 d) }
      (by omega) (by simp [h0]) (by simp [h1])
    refine ⟨res, ?_, e2, e3, ?_, ?_⟩
    · simp only [makeOrthLoop]
      have k1 : wrap32 (b.MaxVol.getD d 0 - b.MinVol.getD d 0) = extentRange b d := rfl
      rw [k1, Int31n_ok _ _ v2]
      simp only []
      have k2 : wrap32 (b.MinVol.getD d 0 +
          ((r0.draws (r0.pos + 2 * d) % (extentRange b d).toNat : Nat) : Int)) =
          drawnExtent b r0 d := rfl
      rw [k2]
      have k3 : wrap32 (b.MaxBounds.P1.getD d 0 - drawnExtent b r0 d) = cornerRange b r0 d := rfl
      rw [k3, Int31n_ok _ _ v7]
      simp only []
      have k4 : ((r0.draws (r0.pos + 2 * d + 1) % (cornerRange b r0 d).toNat : Nat) : Int) =
          drawnCorner b r0 d := rfl
      rw [k4, wrap32_of_isInt32 _ v10]
      have k5 : r0.pos + 2 * d + 1 + 1 = r0.pos + 2 * (d + 1) := by omega
      rw [k5]
      exact e1
    · intro j hj
      obtain ⟨g1, g2⟩ := e4 j (by omega)
      rw [g1, g2]
      exact ⟨getD_set_other _ _ _ _ (by omega), getD_set_other _ _ _ _ (by omega)⟩
    · intro j hj1 hj2
      by_cases hjd : j = d
      · subst hjd
        obtain ⟨g1, g2⟩ := e4 j (by omega)
        rw [g1, g2]
        simp only []
        rw [getD_set_self _ _ _ (by omega), getD_set_self _ _ _ (by omega)]
        exact ⟨rfl, rfl⟩
      · exact e5 j (by omega) hj2

theorem makeOrth_exact (b : bvhTest) (hpre : makeOrthPre b) (h32 : int32Config b)
    (hmin : nonnegMinVol b) (r : Rand) :
    ∃ orth, makeOrth b r = .ok (orth, ⟨r.draws, r.pos + 2 * b.DIM⟩) ∧
      orth.P0.length = b.DIM ∧ orth.P1.length = b.DIM ∧
      ∀ d, d < b.DIM →
        orth.P0.getD d 0 = drawnCorner b r d ∧
        orth.P1.getD d 0 = drawnCorner b r d + drawnExtent b r d := by
  obtain ⟨res, e1, e2, e3, _, e5⟩ := makeOrthLoop_exact b hpre h32 hmin r b.DIM 0
    { P0 := List.replicate b.DIM 0, P1 := List.replicate b.DIM 0 } (by omega)
    (by simp) (by simp)
  simp only [Nat.mul_zero, Nat.add_zero] at e1
  exact ⟨res, e1, e2, e3, fun d hd => e5 d (Nat.zero_le d) hd⟩

/-! ## The values makeOrth has drawn when it returns -/

theorem draw_values_of_accepted (b : bvhTest) (hpre : makeOrthPre b) (h32 : int32Config b)
    (r : Rand) (d : Nat) (hd : d < b.DIM) (hE : 0 < extentRange b d)
    (hC : 0 < cornerRange b r d) :
    extentRange b d = b.MaxVol.getD d 0 - b.MinVol.getD d 0 ∧
    drawnExtent b r d = b.MinVol.getD d 0 +
      ((r.draws (r.pos + 2 * d) % (b.MaxVol.getD d 0 - b.MinVol.getD d 0).toNat : Nat) : Int) ∧
    b.MinVol.getD d 0 ≤ drawnExtent b r d ∧ drawnExtent b r d < b.MaxVol.getD d 0 ∧
    cornerRange b r d = b.MaxBounds.P1.getD d 0 - drawnExtent b r d ∧
    0 ≤ drawnCorner b r d ∧ drawnCorner b r d < cornerRange b r d ∧
    isInt32 (drawnCorner b r d + drawnExtent b r d) := by
  obtain ⟨p1, p2⟩ := hpre d hd
  obtain ⟨⟨a1, a2⟩, ⟨a3, a4⟩, ⟨a5, a6⟩⟩ := h32 d hd
  have w1 : extentRange b d = b.MaxVol.getD d 0 - b.MinVol.getD d 0 := by
    unfold extentRange wrap32 at hE ⊢
    omega
  have hx := Int31n_lt ⟨r.draws, r.pos + 2 * d⟩ (b.MaxVol.getD d 0 - b.MinVol.getD d 0)
    (by omega)
  simp only [] at hx
  have w2 : drawnExtent b r d = b.MinVol.getD d 0 +
      ((r.draws (r.pos + 2 * d) % (b.MaxVol.getD d 0 - b.MinVol.getD d 0).toNat : Nat) : Int) := by
    unfold drawnExtent
    rw [w1]
    exact wrap32_of_isInt32 _ ⟨by omega, by omega⟩
  have hlo : b.MinVol.getD d 0 ≤ drawnExtent b r d := by rw [w2]; omega
  have hhi : drawnExtent b r d < b.MaxVol.getD d 0 := by rw [w2]; omega
  have hdelta := p2 _ hlo hhi
  have w3 : cornerRange b r d = b.MaxBounds.P1.getD d 0 - drawnExtent b r d := by
    unfold cornerRange wrap32 at hC ⊢
    omega
  have hc0 : 0 ≤ drawnCorner b r d := Int.natCast_nonneg _
  have hc1 : drawnCorner b r d < cornerRange b r d :=
    Int31n_lt ⟨r.draws, r.pos + 2 * d + 1⟩ (cornerRange b r d) hC
  exact ⟨w1, w2, hlo, hhi, w3, hc0, hc1, ⟨by omega, by omega⟩⟩

theorem makeOrthLoop_returned (b : bvhTest) (hpre : makeOrthPre b) (h32 : int32Config b)
    (r0 : Rand) :
    ∀ (n d : Nat) (orth res : Orthotope) (r1 : Rand), d + n = b.DIM →
      orth.P0.length = b.DIM → orth.P1.length = b.DIM →
      makeOrthLoop b n d orth ⟨r0.draws, r0.pos + 2 * d⟩ = .ok (res, r1) →
      (∀ j, j < d → res.P0.getD j 0 = orth.P0.getD j 0 ∧ res.P1.getD j 0 = orth.P1.getD j 0) ∧
      (∀ j, d ≤ j → j < b.DIM →
        0 < extentRange b j ∧ 0 < cornerRange b r0 j ∧
        res.P0.getD j 0 = drawnCorner b r0 j ∧
        res.P1.getD j 0 = drawnCorner b r0 j + drawnExtent b r0 j) := by
  intro n
  induction n with
  | zero =>
    intro d orth res r1 hd h0 h1 h
    simp only [makeOrthLoop, Except.ok.injEq, Prod.mk.injEq] at h
    obtain ⟨h, _⟩ := h
    subst h
    exact ⟨fun j _ => ⟨rfl, rfl⟩, fun j hj1 hj2 => by omega⟩
  | succ n ih =>
    intro d orth res r1 hd h0 h1 h
    have hdlt : d < b.DIM := by omega
    simp only [makeOrthLoop] at h
    have k1 : wrap32 (b.MaxVol.getD d 0 - b.MinVol.getD d 0) = extentRange b d := rfl
    rw [k1] at h
    by_cases g1 : extentRange b d ≤ 0
    · rw [Int31n_error _ _ g1] at h
      cases h
    · rw [Int31n_ok _ _ (by omega)] at h
      simp only [] at h
      have k2 : wrap32 (b.MinVol.getD d 0 +
          ((r0.draws (r0.pos + 2 * d) % (extentRange b d).toNat : Nat) : Int)) =
          drawnExtent b r0 d := rfl
      rw [k2] at h
      have k3 : wrap32 (b.MaxBounds.P1.getD d 0 - drawnExtent b r0 d) = cornerRange b r0 d := rfl
      rw [k3] at h
      by_cases g2 : cornerRange b r0 d ≤ 0
      · rw [Int31n_error _ _ g2] at h
        cases h
      · rw [Int31n_ok _ _ (by omega)] at h
        simp only [] at h
        have k4 : ((r0.draws (r0.pos + 2 * d + 1) % (cornerRange b r0 d).toNat : Nat) : Int) =
            drawnCorner b r0 d := rfl
        obtain ⟨_, _, _, _, _, _, _, v8⟩ :=
          draw_values_of_accepted b hpre h32 r0 d hdlt (by omega) (by omega)
        rw [k4, wrap32_of_isInt32 _ v8] at h
        have k5 : r0.pos + 2 * d + 1 + 1 = r0.pos + 2 * (d + 1) := by omega
        rw [k5] at h
        obtain ⟨e4, e5⟩ := ih (d + 1) _ res r1 (by omega) (by simp [h0]) (by simp [h1]) h
        refine ⟨?_, ?_⟩
        · intro j hj
          obtain ⟨q1, q2⟩ := e4 j (by omega)
          rw [q1, q2]
          exact ⟨getD_set_other _ _ _ _ (by omega), getD_set_other _ _ _ _ (by omega)⟩
        · intro j hj1 hj2
          by_cases hjd : j = d
          · subst hjd
            obtain ⟨q1, q2⟩ := e4 j (by omega)
            rw [q1, q2]
            simp only []
            rw [getD_set_self _ _ _ (by omega), getD_set_self _ _ _ (by omega)]
            exact ⟨by omega, by omega, rfl, rfl⟩
          · exact e5 j (by omega) hj2

theorem makeOrth_returned (b : bvhTest) (hpre : makeOrthPre b) (h32 : int32Config b)
    (r : Rand) (orth : Orthotope) (r1 : Rand) (h : makeOrth b r = .ok (orth, r1)) :
    ∀ d, d < b.DIM →
      0 < extentRange b d ∧ 0 < cornerRange b r d ∧
      orth.P0.getD d 0 = drawnCorner b r d ∧
      orth.P1.getD d 0 = drawnCorner b r d + drawnExtent b r d := by
  have h' : makeOrthLoop b b.DIM 0
      { P0 := List.replicate b.DIM 0, P1 := List.replicate b.DIM 0 }
      ⟨r.draws, r.pos + 2 * 0⟩ = .ok (orth, r1) := h
  obtain ⟨_, e5⟩ := makeOrthLoop_returned b hpre h32 r b.DIM 0 _ orth r1 (by omega)
    (by simp) (by simp) h'
  exact fun d hd => e5 d (Nat.zero_le d) hd

/-- C13 (as stated, refuted): `makeOrth` never reads `MaxBounds.P0`.  With `MaxBounds`
the interval from 50 to 100 and extents from `[1, 5)` the precondition holds and
`makeOrth` returns the orthotope from 0 to 1, whose minimum corner is below
`MaxBounds.P0`.  And with the extents `[-2000000000, -1999999990)` in the universe
`[0, 2000000000)` the precondition holds and no orthotope is returned at all. -/
theorem maxBounds_lower_corner_is_ignored :
    makeOrthPre offsetUniverseConfig ∧ int32Config offsetUniverseConfig ∧
    (makeOrth offsetUniverseConfig ⟨fun _ => 0, 0⟩).map Prod.fst = .ok ⟨[0], [1]⟩ ∧
    ¬ (offsetUniverseConfig.MaxBounds.P0.getD 0 0 ≤ (⟨[0], [1]⟩ : Orthotope).P0.getD 0 0) ∧
    makeOrthPre wideRangeConfig ∧ int32Config wideRangeConfig ∧
    makeOrth wideRangeConfig ⟨fun _ => 0, 0⟩ = .error .invalidArgument := by
  refine ⟨?_, ?_, rfl, by decide, ?_, ?_, rfl⟩
  · intro d hd
    have : d = 0 := by simp [offsetUniverseConfig] at hd; exact hd
    subst this
    refine ⟨by decide, fun e h1 h2 => ?_⟩
    simp [offsetUniverseConfig] at h1 h2 ⊢
    omega
  · intro d hd
    have : d = 0 := by simp [offsetUniverseConfig] at hd; exact hd
    subst this
    decide
  · intro d hd
    have : d = 0 := by simp [wideRangeConfig] at hd; exact hd
    subst this
    refine ⟨by decide, fun e h1 h2 => ?_⟩
    simp [wideRangeConfig] at h1 h2 ⊢
    omega
  · intro d hd
    have : d = 0 := by simp [wideRangeConfig] at hd; exact hd
    subst this
    decide

/-- C13 (amended): for a configuration of `int32` values that satisfies the
precondition of `makeOrth`, whose `MaxBounds.P0[d]` is at most 0 and whose `MinVol[d]`
is at least 0 in every dimension, and for every state of the random source, `makeOrth`
returns an orthotope contained in `MaxBounds`: `MaxBounds.P0[d] <= P0[d]` and
`P1[d] <= MaxBounds.P1[d]` in every dimension.  Without the condition on `MinVol`,
every orthotope that is returned is still contained in `MaxBounds`. -/
theorem makeOrth_inside_maxBounds (b : bvhTest) (r : Rand) (hpre : makeOrthPre b)
    (h32 : int32Config b) (hP0 : ∀ d, d < b.DIM → b.MaxBounds.P0.getD d 0 ≤ 0) :
    (nonnegMinVol b → ∃ orth r1, makeOrth b r = .ok (orth, r1) ∧
      ∀ d, d < b.DIM →
        b.MaxBounds.P0.getD d 0 ≤ orth.P0.getD d 0 ∧
        orth.P1.getD d 0 ≤ b.MaxBounds.P1.getD d 0) ∧
    (∀ orth r1, makeOrth b r = .ok (orth, r1) →
      ∀ d, d < b.DIM →
        b.MaxBounds.P0.getD d 0 ≤ orth.P0.getD d 0 ∧
        orth.P1.getD d 0 ≤ b.MaxBounds.P1.getD d 0) := by
  have hpart : ∀ orth r1, makeOrth b r = .ok (orth, r1) →
      ∀ d, d < b.DIM →
        b.MaxBounds.P0.getD d 0 ≤ orth.P0.getD d 0 ∧
        orth.P1.getD d 0 ≤ b.MaxBounds.P1.getD d 0 := by
    intro orth r1 h d hd
    obtain ⟨g1, g2, g3, g4⟩ := makeOrth_returned b hpre h32 r orth r1 h d hd
    obtain ⟨_, _, _, _, v5, v6, v7, _⟩ := draw_values_of_accepted b hpre h32 r d hd g1 g2
    have := hP0 d hd
    rw [g3, g4]
    exact ⟨by omega, by omega⟩
  refine ⟨fun hmin => ?_, hpart⟩
  obtain ⟨orth, e1, _⟩ := makeOrth_exact b hpre h32 hmin r
  exact ⟨orth, _, e1, hpart orth _ e1⟩

/-- Instance of C13 (amended): extents drawn from `[1, 5)` in the universe `[0, 100)`,
whose lower corner is the origin. -/
theorem makeOrth_inside_maxBounds_witness :
    makeOrthPre (sampleConfig 3 2 1) ∧ int32Config (sampleConfig 3 2 1) ∧
    (∀ d, d < (sampleConfig 3 2 1).DIM → (sampleConfig 3 2 1).MaxBounds.P0.getD d 0 ≤ 0) ∧
    nonnegMinVol (sampleConfig 3 2 1) ∧
    ∃ orth r1, makeOrth (sampleConfig 3 2 1) ⟨fun n => n, 0⟩ = .ok (orth, r1) ∧
      ∀ d, d < (sampleConfig 3 2 1).DIM →
        (sampleConfig 3 2 1).MaxBounds.P0.getD d 0 ≤ orth.P0.getD d 0 ∧
        orth.P1.getD d 0 ≤ (sampleConfig 3 2 1).MaxBounds.P1.getD d 0 :=
  ⟨(sampleConfig_pre 3 2 1).1, (sampleConfig_pre 3 2 1).2.1,
    fun d hd => by
      have hd2 : d < 2 := hd
      interval_cases d <;> simp [sampleConfig],
    (sampleConfig_pre 3 2 1).2.2,
    (makeOrth_inside_maxBounds (sampleConfig 3 2 1) ⟨fun n => n, 0⟩ (sampleConfig_pre 3 2 1).1
      (sampleConfig_pre 3 2 1).2.1
      (fun d hd => by
        have hd2 : d < 2 := hd
        interval_cases d <;> simp [sampleConfig])).1 (sampleConfig_pre 3 2 1).2.2⟩

/-- C17 (as stated, refuted): with the extents `[-2000000000, -1999999990)` in the
universe `[0, 2000000000)` the precondition holds, the drawn extent is `-2000000000`,
the subtraction `MaxBounds.P1 - delta = 4000000000` overflows `int32` to a negative
range, and `makeOrth` returns no orthotope. -/
theorem wide_range_subtraction_overflows :
    makeOrthPre wideRangeConfig ∧ int32Config wideRangeConfig ∧
    drawnExtent wideRangeConfig ⟨fun _ => 0, 0⟩ 0 = -2000000000 ∧
    ¬ isInt32 (wideRangeConfig.MaxBounds.P1.getD 0 0 -
      drawnExtent wideRangeConfig ⟨fun _ => 0, 0⟩ 0) ∧
    cornerRange wideRangeConfig ⟨fun _ => 0, 0⟩ 0 = -294967296 ∧
    makeOrth wideRangeConfig ⟨fun _ => 0, 0⟩ = .error .invalidArgument := by
  refine ⟨?_, ?_, rfl, by decide, rfl, rfl⟩
  · intro d hd
    have : d = 0 := by simp [wideRangeConfig] at hd; exact hd
    subst this
    refine ⟨by decide, fun e h1 h2 => ?_⟩
    simp [wideRangeConfig] at h1 h2 ⊢
    omega
  · intro d hd
    have : d = 0 := by simp [wideRangeConfig] at hd; exact hd
    subst this
    decide

/-- C17 (amended): for a configuration of `int32` values that satisfies the
precondition of `makeOrth` and has no negative minimum extent, and for every state of
the random source, `makeOrth` returns an orthotope that has, in every dimension `d`,
its extent `P1[d] - P0[d]` in `[MinVol[d], MaxVol[d])`, its minimum corner `P0[d]` in
`[0, MaxBounds.P1[d] - extent)` and `P1[d] = P0[d] + extent`, the extent and the
corner being the values drawn, and none of the two subtractions and two additions
overflows `int32` (each `int32` result is the mathematical one).  Without the
condition on `MinVol`, every orthotope that is returned still has these properties. -/
theorem makeOrth_extent_and_corner (b : bvhTest) (r : Rand) (hpre : makeOrthPre b)
    (h32 : int32Config b) :
    (nonnegMinVol b → ∃ orth r1, makeOrth b r = .ok (orth, r1)) ∧
    (∀ orth r1, makeOrth b r = .ok (orth, r1) →
      ∀ d, d < b.DIM →
        b.MinVol.getD d 0 ≤ orth.P1.getD d 0 - orth.P0.getD d 0 ∧
        orth.P1.getD d 0 - orth.P0.getD d 0 < b.MaxVol.getD d 0 ∧
        0 ≤ orth.P0.getD d 0 ∧
        orth.P0.getD d 0 < b.MaxBounds.P1.getD d 0 - (orth.P1.getD d 0 - orth.P0.getD d 0) ∧
        orth.P1.getD d 0 - orth.P0.getD d 0 = drawnExtent b r d ∧
        orth.P0.getD d 0 = drawnCorner b r d ∧
        orth.P1.getD d 0 = orth.P0.getD d 0 + drawnExtent b r d ∧
        extentRange b d = b.MaxVol.getD d 0 - b.MinVol.getD d 0 ∧
        drawnExtent b r d = b.MinVol.getD d 0 +
          ((r.draws (r.pos + 2 * d) % (b.MaxVol.getD d 0 - b.MinVol.getD d 0).toNat : Nat) : Int) ∧
        cornerRange b r d = b.MaxBounds.P1.getD d 0 - drawnExtent b r d ∧
        isInt32 (orth.P0.getD d 0 + drawnExtent b r d)) := by
  refine ⟨fun hmin => ?_, ?_⟩
  · obtain ⟨orth, e1, _⟩ := makeOrth_exact b hpre h32 hmin r
    exact ⟨orth, _, e1⟩
  · intro orth r1 h d hd
    obtain ⟨g1, g2, g3, g4⟩ := makeOrth_returned b hpre h32 r orth r1 h d hd
    obtain ⟨v1, v2, v3, v4, v5, v6, v7, v8⟩ :=
      draw_values_of_accepted b hpre h32 r d hd g1 g2
    rw [g3, g4]
    refine ⟨by omega, by omega, v6, by omega, by omega, rfl, rfl, v1, v2, v5, v8⟩

/-- Instance of C17 (amended): extents drawn from `[1, 5)` in the universe `[0, 100)`. -/
theorem makeOrth_extent_and_corner_witness :
    makeOrthPre (sampleConfig 3 2 1) ∧ int32Config (sampleConfig 3 2 1) ∧
    nonnegMinVol (sampleConfig 3 2 1) ∧
    ∃ orth r1, makeOrth (sampleConfig 3 2 1) ⟨fun n => n, 0⟩ = .ok (orth, r1) :=
  ⟨(sampleConfig_pre 3 2 1).1, (sampleConfig_pre 3 2 1).2.1, (sampleConfig_pre 3 2 1).2.2,
    (makeOrth_extent_and_corner (sampleConfig 3 2 1) ⟨fun n => n, 0⟩ (sampleConfig_pre 3 2 1).1
      (sampleConfig_pre 3 2 1).2.1).1 (sampleConfig_pre 3 2 1).2.2⟩

/-! ## One removal attempt, from any state -/

/-- An attempt whose scan finds nothing, in closed form. -/
theorem removeOne_miss {σ : Type} (I : Index σ) (clk : Nat → Int) (a : Nat) (s : State σ)
    (hmiss : ¬ scanFrom s.removed a (s.r.draws s.r.pos % (a + 1)) ≤ a) :
    removeOne I clk a s =
      if a + 1 < s.removals.length then
        ⟨{ s with
            r := ⟨s.r.draws, s.r.pos + 1⟩,
            removals := s.removals.set (a + 1) (s.removals.getD (a + 1) 0 + 1),
            carried := s.carried ++ [a] }, none⟩
      else ⟨{ s with r := ⟨s.r.draws, s.r.pos + 1⟩, dropped := s.dropped ++ [a] }, none⟩ := by
  simp only [removeOne, Intn_step, if_neg hmiss]
  by_cases hlen : a + 1 < s.removals.length
  · simp only [if_pos hlen, bump_eq_set _ _ hlen]
  · simp only [if_neg hlen]

/-- An attempt whose scan finds a slot leaves `carried` and `dropped` alone. -/
theorem removeOne_found_logs {σ : Type} (I : Index σ) (clk : Nat → Int) (a : Nat)
    (s : State σ) (hle : scanFrom s.removed a (s.r.draws s.r.pos % (a + 1)) ≤ a) :
    (removeOne I clk a s).state.carried = s.carried ∧
    (removeOne I clk a s).state.dropped = s.dropped ∧
    (removeOne I clk a s).state.removed =
      Function.update s.removed (scanFrom s.removed a (s.r.draws s.r.pos % (a + 1))) true := by
  simp only [removeOne, Intn_step, if_pos hle]
  cases s.refs[scanFrom s.removed a (s.r.draws s.r.pos % (a + 1))]? <;> exact ⟨rfl, rfl, rfl⟩

theorem scanFrom_eq_of_first (removed : Nat → Bool) (a c t : Nat) (hc : c ≤ a)
    (h1 : c ≤ t) (h2 : t ≤ a) (h3 : removed t = false)
    (h4 : ∀ i, c ≤ i → i < t → removed i = true) : scanFrom removed a c = t := by
  obtain ⟨g1, g2, g3, g4⟩ := scanFrom_spec removed a c hc
  by_contra hne
  rcases Nat.lt_or_gt_of_ne hne with hlt | hgt
  · have := g4 (by omega)
    rw [h4 _ g1 hlt] at this
    exact Bool.noConfusion this
  · have := g3 t h1 hgt
    rw [h3] at this
    exact Bool.noConfusion this

theorem scanFrom_eq_of_all (removed : Nat → Bool) (a c : Nat) (hc : c ≤ a)
    (h : ∀ i, c ≤ i → i ≤ a → removed i = true) : scanFrom removed a c = a + 1 := by
  obtain ⟨g1, g2, _, g4⟩ := scanFrom_spec removed a c hc
  by_contra hne
  have hle : scanFrom removed a c ≤ a := by omega
  have := g4 hle
  rw [h _ g1 hle] at this
  exact Bool.noConfusion this

/-- C15: an attempt at step `a` with drawn candidate `c` (which lies in `[0, a]`)
removes exactly the smallest unremoved slot of `[c, a]` when there is one, `c`
itself when `c` is unremoved: that flag alone is set and, the handle being read from
`refs`, that slot alone is passed to `Remove`; when every slot of `[c, a]` is marked
it removes nothing; and the flags of the slots below `c` are never touched, so the
scan does not wrap around. -/
theorem attempt_removes_first_unremoved_from_candidate {σ : Type} (I : Index σ)
    (clk : Nat → Int) (a : Nat) (s : State σ) :
    s.r.draws s.r.pos % (a + 1) ≤ a ∧
    (∀ t, s.r.draws s.r.pos % (a + 1) ≤ t → t ≤ a → s.removed t = false →
      (∀ i, s.r.draws s.r.pos % (a + 1) ≤ i → i < t → s.removed i = true) →
      (removeOne I clk a s).state.removed = Function.update s.removed t true ∧
      (a < s.refs.length → ∃ ref, s.refs[t]? = some ref ∧
        (removeOne I clk a s).state.hist = s.hist ++ [Op.Remove a t ref])) ∧
    (s.removed (s.r.draws s.r.pos % (a + 1)) = false →
      (removeOne I clk a s).state.removed =
        Function.update s.removed (s.r.draws s.r.pos % (a + 1)) true) ∧
    ((∀ i, s.r.draws s.r.pos % (a + 1) ≤ i → i ≤ a → s.removed i = true) →
      (removeOne I clk a s).state.removed = s.removed ∧
      (removeOne I clk a s).state.hist = s.hist) ∧
    (∀ i, i < s.r.draws s.r.pos % (a + 1) →
      (removeOne I clk a s).state.removed i = s.removed i) := by
  have hc := candidate_le s.r a
  have hfirst : ∀ t, s.r.draws s.r.pos % (a + 1) ≤ t → t ≤ a → s.removed t = false →
      (∀ i, s.r.draws s.r.pos % (a + 1) ≤ i → i < t → s.removed i = true) →
      (removeOne I clk a s).state.removed = Function.update s.removed t true ∧
      (a < s.refs.length → ∃ ref, s.refs[t]? = some ref ∧
        (removeOne I clk a s).state.hist = s.hist ++ [Op.Remove a t ref]) := by
    intro t h1 h2 h3 h4
    have hscan := scanFrom_eq_of_first s.removed a _ t hc h1 h2 h3 h4
    have hle : scanFrom s.removed a (s.r.draws s.r.pos % (a + 1)) ≤ a := by omega
    refine ⟨?_, fun ha => ?_⟩
    · rw [(removeOne_found_logs I clk a s hle).2.2, hscan]
    · rcases removeOne_cases I clk a s ha with ⟨t1, ref, e1, _, _, e4, e5⟩ | ⟨e, _, _⟩ | ⟨e, _, _⟩
      · have : t1 = t := by rw [e1, hscan]
        subst this
        exact ⟨ref, e4, by rw [e5]⟩
      · omega
      · omega
  refine ⟨hc, hfirst, ?_, ?_, ?_⟩
  · intro h
    exact (hfirst _ (le_refl _) hc h (fun i h1 h2 => by omega)).1
  · intro hall
    have hscan := scanFrom_eq_of_all s.removed a _ hc hall
    rw [removeOne_miss I clk a s (by omega)]
    split <;> exact ⟨rfl, rfl⟩
  · intro i hi
    obtain ⟨g1, _, _, _⟩ := scanFrom_spec s.removed a _ hc
    by_cases hle : scanFrom s.removed a (s.r.draws s.r.pos % (a + 1)) ≤ a
    · rw [(removeOne_found_logs I clk a s hle).2.2, Function.update_noteq (by omega)]
    · rw [removeOne_miss I clk a s hle]
      split <;> rfl

/-- C14 (as stated, refuted): in the run with `Additions = 2`, `Removals = 2` and every
raw draw equal to 1, both removals fall on step 1 and both candidates are slot 1.
The first attempt removes slot 1; the second scans from slot 1, finds nothing up to
slot 1 and is dropped, although slot 0 is not removed at that moment. -/
theorem dropped_attempt_with_live_slot_below :
    beforeLastAttempt.r.draws beforeLastAttempt.r.pos % (1 + 1) = 1 ∧
    beforeLastAttempt.removed 0 = false ∧ beforeLastAttempt.removed 1 = true ∧
    (removeOne countingIndex (fun _ => 5) 1 beforeLastAttempt).state.dropped = [1] ∧
    (removeOne countingIndex (fun _ => 5) 1 beforeLastAttempt).state.hist =
      beforeLastAttempt.hist ∧
    (runTest countingIndex (fun _ _ => 1) (fun _ => 5) (sampleConfig 2 2 0)).state.dropped = [1] ∧
    (runTest countingIndex (fun _ _ => 1) (fun _ => 5) (sampleConfig 2 2 0)).state.removed 0 =
      false := by
  refine ⟨rfl, rfl, rfl, rfl, rfl, rfl, rfl⟩

/-- C14 (amended): whenever a removal attempt at step `a` with drawn candidate `c`
exhausts its scan without finding an unremoved slot (the attempt is carried or
dropped), all the slots of `[c, a]` are already removed at that moment; the slots
below `c` are not scanned. -/
theorem exhausted_scan_means_tail_removed {σ : Type} (I : Index σ) (clk : Nat → Int)
    (a : Nat) (s : State σ)
    (hmiss : (removeOne I clk a s).state.carried = s.carried ++ [a] ∨
      (removeOne I clk a s).state.dropped = s.dropped ++ [a]) :
    scanFrom s.removed a (s.r.draws s.r.pos % (a + 1)) = a + 1 ∧
    ∀ i, s.r.draws s.r.pos % (a + 1) ≤ i → i ≤ a → s.removed i = true := by
  obtain ⟨g1, g2, g3, _⟩ := scanFrom_spec s.removed a _ (candidate_le s.r a)
  have hnot : ¬ scanFrom s.removed a (s.r.draws s.r.pos % (a + 1)) ≤ a := by
    intro hle
    obtain ⟨e1, e2, _⟩ := removeOne_found_logs I clk a s hle
    rw [e1, e2] at hmiss
    rcases hmiss with h | h <;> simp at h
  have heq : scanFrom s.removed a (s.r.draws s.r.pos % (a + 1)) = a + 1 := by omega
  exact ⟨heq, fun i h1 h2 => g3 i h1 (by omega)⟩

/-- Instance of C14 (amended): the dropped attempt of the run with `Additions = 2`,
`Removals = 2` and every raw draw equal to 1. -/
theorem exhausted_scan_means_tail_removed_witness :
    (removeOne countingIndex (fun _ => 5) 1 beforeLastAttempt).state.dropped =
      beforeLastAttempt.dropped ++ [1] ∧
    scanFrom beforeLastAttempt.removed 1
      (beforeLastAttempt.r.draws beforeLastAttempt.r.pos % (1 + 1)) = 1 + 1 ∧
    ∀ i, beforeLastAttempt.r.draws beforeLastAttempt.r.pos % (1 + 1) ≤ i → i ≤ 1 →
      beforeLastAttempt.removed i = true :=
  ⟨rfl, exhausted_scan_means_tail_removed countingIndex (fun _ => 5) 1 beforeLastAttempt
    (Or.inr rfl)⟩

/-- C16 (as stated, refuted): the dropped attempt of the run with `Additions = 2`,
`Removals = 2` and every raw draw equal to 1 is made at the last step
(`a + 1 = Additions`) and finds nothing, yet it changes the state: it has consumed one
draw of the shared random source. -/
theorem dropped_attempt_consumes_a_draw :
    ((1 : Nat) : Int) + 1 = (sampleConfig 2 2 0).Additions ∧
    ¬ scanFrom beforeLastAttempt.removed 1
      (beforeLastAttempt.r.draws beforeLastAttempt.r.pos % (1 + 1)) ≤ 1 ∧
    beforeLastAttempt.r.pos = 11 ∧
    (removeOne countingIndex (fun _ => 5) 1 beforeLastAttempt).state.r.pos = 12 := by
  refine ⟨by decide, by decide, rfl, rfl⟩

/-- C16 (amended): a removal attempt at step `a` whose scan finds no unremoved slot
consumes the one draw of its candidate from the random source and, apart from that,
changes the state as follows: if `a + 1` is below the length `N` of the removals
schedule (`N = Additions` in a run), `removals[a+1]` increases by exactly 1 and nothing
else changes; otherwise nothing changes.  In both cases no flag changes, `total` is
unchanged, no call is made on the index, nothing is printed, and `removals[a]`, the
other entries of the removals schedule and the queries schedule are unchanged. -/
theorem missed_attempt_frame {σ : Type} (I : Index σ) (clk : Nat → Int) (a N : Nat)
    (s : State σ) (hN : s.removals.length = N)
    (hmiss : ¬ scanFrom s.removed a (s.r.draws s.r.pos % (a + 1)) ≤ a) :
    (a + 1 < N →
      removeOne I clk a s =
        ⟨{ s with
            r := ⟨s.r.draws, s.r.pos + 1⟩,
            removals := s.removals.set (a + 1) (s.removals.getD (a + 1) 0 + 1),
            carried := s.carried ++ [a] }, none⟩ ∧
      (removeOne I clk a s).state.removals.getD (a + 1) 0 = s.removals.getD (a + 1) 0 + 1) ∧
    (¬ a + 1 < N →
      removeOne I clk a s =
        ⟨{ s with r := ⟨s.r.draws, s.r.pos + 1⟩, dropped := s.dropped ++ [a] }, none⟩ ∧
      (removeOne I clk a s).state.removals = s.removals) ∧
    (removeOne I clk a s).stopped = none ∧
    (removeOne I clk a s).state.r = ⟨s.r.draws, s.r.pos + 1⟩ ∧
    (removeOne I clk a s).state.removed = s.removed ∧
    (removeOne I clk a s).state.total = s.total ∧
    (removeOne I clk a s).state.hist = s.hist ∧
    (removeOne I clk a s).state.out = s.out ∧
    (removeOne I clk a s).state.btree = s.btree ∧
    (removeOne I clk a s).state.refs = s.refs ∧
    (removeOne I clk a s).state.orths = s.orths ∧
    (removeOne I clk a s).state.queries = s.queries ∧
    (removeOne I clk a s).state.ticks = s.ticks ∧
    (removeOne I clk a s).state.subTime = s.subTime ∧
    (removeOne I clk a s).state.removals.length = s.removals.length ∧
    (∀ j, j ≠ a + 1 →
      (removeOne I clk a s).state.removals.getD j 0 = s.removals.getD j 0) := by
  have h := removeOne_miss I clk a s hmiss
  by_cases hlt : a + 1 < N
  · rw [if_pos (by omega)] at h
    rw [h]
    refine ⟨fun _ => ⟨rfl, ?_⟩, fun hn => absurd hlt hn, rfl, rfl, rfl, rfl, rfl, rfl, rfl, rfl,
      rfl, rfl, rfl, rfl, by simp, ?_⟩
    · show (s.removals.set (a + 1) _).getD (a + 1) 0 = _
      exact getD_set_self _ _ _ (by omega)
    · intro j hj
      show (s.removals.set (a + 1) _).getD j 0 = _
      exact getD_set_other _ _ _ _ hj
  · rw [if_neg (by omega)] at h
    rw [h]
    exact ⟨fun hp => absurd hp hlt, fun _ => ⟨rfl, rfl⟩, rfl, rfl, rfl, rfl, rfl, rfl, rfl, rfl,
      rfl, rfl, rfl, rfl, rfl, fun j _ => rfl⟩

/-- Instance of C16 (amended): the dropped attempt of the run with `Additions = 2`,
`Removals = 2` and every raw draw equal to 1. -/
theorem missed_attempt_frame_witness :
    beforeLastAttempt.removals.length = 2 ∧
    ¬ scanFrom beforeLastAttempt.removed 1
      (beforeLastAttempt.r.draws beforeLastAttempt.r.pos % (1 + 1)) ≤ 1 ∧
    (removeOne countingIndex (fun _ => 5) 1 beforeLastAttempt).stopped = none ∧
    (removeOne countingIndex (fun _ => 5) 1 beforeLastAttempt).state.r =
      ⟨beforeLastAttempt.r.draws, beforeLastAttempt.r.pos + 1⟩ ∧
    (removeOne countingIndex (fun _ => 5) 1 beforeLastAttempt).state.removed =
      beforeLastAttempt.removed ∧
    (removeOne countingIndex (fun _ => 5) 1 beforeLastAttempt).state.total =
      beforeLastAttempt.total :=
  ⟨rfl, by decide,
    (missed_attempt_frame countingIndex (fun _ => 5) 1 2 beforeLastAttempt rfl (by decide)).2.2.1,
    (missed_attempt_frame countingIndex (fun _ => 5) 1 2 beforeLastAttempt rfl
      (by decide)).2.2.2.1,
    (missed_attempt_frame countingIndex (fun _ => 5) 1 2 beforeLastAttempt rfl
      (by decide)).2.2.2.2.1,
    (missed_attempt_frame countingIndex (fun _ => 5) 1 2 beforeLastAttempt rfl
      (by decide)).2.2.2.2.2.1⟩

/-! ## The scan does not depend on the bound on its iterations -/

theorem scan_of_exit (removed : Nat → Bool) (a : Nat) :
    ∀ (n t : Nat),
      ¬ (removed (scan removed a n t) = true ∧ scan removed a n t ≤ a) →
      ∀ k, scan removed a (n + k) t = scan removed a n t := by
  intro n
  induction n with
  | zero =>
    intro t hexit k
    simp only [scan] at hexit
    cases k with
    | zero => rfl
    | succ k =>
      simp only [Nat.zero_add, scan]
      rw [if_neg]
      simpa [Bool.and_eq_true] using hexit
  | succ n ih =>
    intro t hexit k
    have e : n + 1 + k = (n + k) + 1 := by omega
    rw [e]
    simp only [scan] at hexit ⊢
    by_cases hc : (removed t && decide (t ≤ a)) = true
    · simp only [if_pos hc] at hexit ⊢
      exact ih (t + 1) hexit k
    · simp only [if_neg hc]

theorem scan_enough (removed : Nat → Bool) (a c n : Nat) (hc : c ≤ a) (hn : a + 1 - c ≤ n) :
    scan removed a n c = scanFrom removed a c := by
  have h := scan_of_exit removed a (a + 1 - c) c (scanFrom_exit removed a c hc) (n - (a + 1 - c))
  have e : a + 1 - c + (n - (a + 1 - c)) = n := by omega
  rw [e] at h
  exact h

/-! ## The kinds of panic that can stop a run -/

theorem distribute_error_kind (r : Rand) (T S : Int) (e : Panic)
    (h : distribute r T S = .error e) : e = .makeslice ∨ e = .invalidArgument := by
  by_cases hneg : S < 0
  · unfold distribute at h
    rw [if_pos hneg] at h
    simp only [Except.error.injEq] at h
    exact Or.inl h.symm
  · by_cases hz : S = 0
    · subst hz
      rw [distribute_zero_steps] at h
      split at h
      · cases h
      · simp only [Except.error.injEq] at h
        exact Or.inr h.symm
    · obtain ⟨ev, h1, _⟩ := distribute_ok r T S (by omega)
      rw [h1] at h
      cases h

theorem setup_stop_kind {σ : Type} (I : Index σ) (NewSource : Int → Nat → Nat) (b : bvhTest) :
    (setup I NewSource b).stopped ≠ some .indexOutOfRange := by
  unfold setup
  dsimp only []
  split
  · rename_i e he
    rcases distribute_error_kind _ _ _ e he with h | h <;> subst h <;> simp
  · split
    · rename_i e he
      rcases distribute_error_kind _ _ _ e he with h | h <;> subst h <;> simp
    · simp

theorem queryOne_stop_kind {σ : Type} (I : Index σ) (clk : Nat → Int) (b : bvhTest) (a : Nat)
    (s : State σ) :
    (queryOne I clk b a s).stopped = none ∨
      (queryOne I clk b a s).stopped = some .invalidArgument := by
  cases h : makeOrth b s.r with
  | error e =>
    rw [queryOne_error I clk b a s e h, makeOrth_error_kind b s.r e h]
    exact Or.inr rfl
  | ok p =>
    obtain ⟨q, r1⟩ := p
    rw [queryOne_ok I clk b a s q r1 h]
    exact Or.inl rfl

theorem queryRuns_stop_kind {σ : Type} (I : Index σ) (clk : Nat → Int) (b : bvhTest) (a : Nat) :
    ∀ (m : Nat) (s : State σ),
      (queryRuns I clk b a m s).stopped = none ∨
        (queryRuns I clk b a m s).stopped = some .invalidArgument := by
  intro m
  induction m with
  | zero => intro s; exact Or.inl rfl
  | succ m ih =>
    intro s
    simp only [queryRuns]
    rcases queryOne_stop_kind I clk b a s with h | h
    · rw [andThen_of_running _ _ h]
      exact ih _
    · rw [andThen_of_stopped _ _ (by rw [h]; simp)]
      exact Or.inr h

theorem step_stop_kind {σ : Type} (I : Index σ) (clk : Nat → Int) (b : bvhTest) (N a : Nat)
    (s : State σ) (hs : Shape N a s) (ha : a < N) :
    ((step I clk b a s).stopped = none ∧ Shape N (a + 1) (step I clk b a s).state) ∨
      (step I clk b a s).stopped = some .invalidArgument := by
  rw [step_eq I clk b N a s hs ha]
  rcases addItem_shape I clk b N a s hs ha with ⟨h0, h1, _⟩ | ⟨h, h1⟩
  · rw [andThen_of_running _ _ h0]
    obtain ⟨g0, g1, _⟩ := attempts_always I clk N a ha (fun _ => True) (fun _ _ _ => trivial)
      ((addItem I clk b a s).state.removals.getD a 0).toNat _ h1 trivial
    rw [andThen_of_running _ _ g0]
    obtain ⟨q1, _⟩ := queryRuns_always I clk b N (a + 1) a (fun _ => True)
      (fun _ _ _ => trivial)
      (((attempts I clk a ((addItem I clk b a s).state.removals.getD a 0).toNat
        (addItem I clk b a s).state).state.queries.getD a 0).toNat) _ g1 trivial
    rcases queryRuns_stop_kind I clk b a
      (((attempts I clk a ((addItem I clk b a s).state.removals.getD a 0).toNat
        (addItem I clk b a s).state).state.queries.getD a 0).toNat)
      (attempts I clk a ((addItem I clk b a s).state.removals.getD a 0).toNat
        (addItem I clk b a s).state).state with hq | hq
    · exact Or.inl ⟨hq, q1⟩
    · exact Or.inr hq
  · rw [andThen_of_stopped _ _ h, andThen_of_stopped _ _ h]
    right
    cases hm : makeOrth b s.r with
    | error e =>
      rw [addItem_error I clk b a s e hm, makeOrth_error_kind b s.r e hm]
    | ok p =>
      obtain ⟨orth, r1⟩ := p
      rw [addItem_ok I clk b a s orth r1 hm (by rw [hs.1]; exact ha)] at h
      exact absurd rfl h

theorem stepsFrom_stop_kind {σ : Type} (I : Index σ) (clk : Nat → Int) (b : bvhTest) :
    ∀ (n a : Nat) (s : State σ), Shape b.Additions.toNat a s → a + n ≤ b.Additions.toNat →
      (stepsFrom I clk b n a s).stopped = none ∨
        (stepsFrom I clk b n a s).stopped = some .invalidArgument := by
  intro n
  induction n with
  | zero => intro a s _ _; exact Or.inl rfl
  | succ n ih =>
    intro a s hs han
    simp only [stepsFrom]
    rw [if_pos (by omega)]
    rcases step_stop_kind I clk b _ a s hs (by omega) with ⟨h1, h2⟩ | h
    · rw [andThen_of_running _ _ h1]
      exact ih (a + 1) _ h2 (by omega)
    · rw [andThen_of_stopped _ _ (by rw [h]; simp)]
      exact Or.inr h

theorem runPrefix_stop_kind {σ : Type} (I : Index σ) (NewSource : Int → Nat → Nat)
    (clk : Nat → Int) (b : bvhTest) (n : Nat) (hn : n ≤ b.Additions.toNat) :
    (runPrefix I NewSource clk b n).stopped ≠ some .indexOutOfRange := by
  unfold runPrefix
  cases hst : (setup I NewSource b).stopped with
  | none =>
    rw [andThen_of_running _ _ hst]
    obtain ⟨hsh, _⟩ := setup_running I NewSource b hst
    rcases stepsFrom_stop_kind I clk b n 0 _ hsh (by omega) with h | h <;> rw [h] <;> simp
  | some e =>
    rw [andThen_of_stopped _ _ (by rw [hst]; simp), hst]
    have := setup_stop_kind I NewSource b
    rw [hst] at this
    exact this

theorem runTest_stop_kind {σ : Type} (I : Index σ) (NewSource : Int → Nat → Nat)
    (clk : Nat → Int) (b : bvhTest) :
    (runTest I NewSource clk b).stopped ≠ some .indexOutOfRange := by
  unfold runTest
  by_cases h1 : b.Additions < 0
  · rw [if_pos h1]; simp
  · rw [if_neg h1]
    by_cases h2 : b.Removals > b.Additions
    · rw [if_pos h2]; simp
    · rw [if_neg h2]
      have hp := runPrefix_stop_kind I NewSource clk b b.Additions.toNat (le_refl _)
      cases hst : (runPrefix I NewSource clk b b.Additions.toNat).stopped with
      | none =>
        rw [andThen_of_running _ _ hst]
        unfold verify
        dsimp only []
        split <;> simp
      | some e =>
        rw [andThen_of_stopped _ _ (by rw [hst]; simp), hst]
        rw [hst] at hp
        exact hp

/-- C18: no run of `runTest` is stopped by an out-of-range index, whatever the
configuration: throughout the main loop `refs`, `removals` and `queries` have the
length `Additions`, so `removals[a]`, `queries[a]` and `refs[a]` are in bounds at
every step `a`; a removal reads `refs[toRemove]` with `toRemove <= a`; the carry
`removals[a+1] += 1` is a slice write that panics when `a + 1` is not below the
length of `removals` (as at the last step), and an attempt performs it only when
`a + 1` is below that length, where it succeeds, so that from any state, whatever
the length of `removals`, an attempt at a step `a` below the length of `refs` is
not stopped; and the forward scan from a candidate `c <= a` stops by its own test
at a value of `[c, a + 1]`, after at most `a + 1` increments, whatever larger
bound is put on its iterations. -/
theorem no_index_out_of_range {σ : Type} (I : Index σ) (NewSource : Int → Nat → Nat)
    (clk : Nat → Int) (b : bvhTest) :
    (runTest I NewSource clk b).stopped ≠ some .indexOutOfRange ∧
    (∀ n, n ≤ b.Additions.toNat →
      (runPrefix I NewSource clk b n).stopped ≠ some .indexOutOfRange ∧
      ((runPrefix I NewSource clk b n).stopped = none →
        (runPrefix I NewSource clk b n).state.refs.length = b.Additions.toNat ∧
        (runPrefix I NewSource clk b n).state.removals.length = b.Additions.toNat ∧
        (runPrefix I NewSource clk b n).state.queries.length = b.Additions.toNat)) ∧
    (∀ (a : Nat) (s : State σ), Shape b.Additions.toNat a s → a < b.Additions.toNat →
      a < s.refs.length ∧ a < s.removals.length ∧ a < s.queries.length ∧
      (addItem I clk b a s).stopped ≠ some .indexOutOfRange ∧
      (step I clk b a s).stopped ≠ some .indexOutOfRange) ∧
    (∀ (a : Nat) (s : State σ), Shape b.Additions.toNat (a + 1) s → a < b.Additions.toNat →
      (removeOne I clk a s).stopped = none ∧
      (scanFrom s.removed a (s.r.draws s.r.pos % (a + 1)) ≤ a →
        scanFrom s.removed a (s.r.draws s.r.pos % (a + 1)) < s.refs.length) ∧
      ((removeOne I clk a s).state.removals ≠ s.removals → a + 1 < s.removals.length)) ∧
    (∀ (a : Nat) (s : State σ), a < s.refs.length →
      (removeOne I clk a s).stopped = none ∧
      (scanFrom s.removed a (s.r.draws s.r.pos % (a + 1)) ≤ a →
        (removeOne I clk a s).state.removals = s.removals) ∧
      (¬ scanFrom s.removed a (s.r.draws s.r.pos % (a + 1)) ≤ a →
        a + 1 < s.removals.length →
        bump s.removals (a + 1) = .ok (removeOne I clk a s).state.removals ∧
        (removeOne I clk a s).state.carried = s.carried ++ [a]) ∧
      (¬ scanFrom s.removed a (s.r.draws s.r.pos % (a + 1)) ≤ a →
        s.removals.length ≤ a + 1 →
        bump s.removals (a + 1) = .error .indexOutOfRange ∧
        (removeOne I clk a s).state.removals = s.removals ∧
        (removeOne I clk a s).state.dropped = s.dropped ++ [a])) ∧
    (∀ (events : List Int) (i : Nat),
      (i < events.length → ∃ ev, bump events i = .ok ev ∧ ev.length = events.length) ∧
      (events.length ≤ i → bump events i = .error .indexOutOfRange)) ∧
    (∀ (removed : Nat → Bool) (a c : Nat), c ≤ a →
      c ≤ scanFrom removed a c ∧ scanFrom removed a c ≤ a + 1 ∧
      scanFrom removed a c - c ≤ a + 1 ∧
      ¬ (removed (scanFrom removed a c) = true ∧ scanFrom removed a c ≤ a) ∧
      ∀ n, a + 1 - c ≤ n → scan removed a n c = scanFrom removed a c) := by
  refine ⟨runTest_stop_kind I NewSource clk b, ?_, ?_, ?_, ?_, ?_, ?_⟩
  · intro n hn
    refine ⟨runPrefix_stop_kind I NewSource clk b n hn, fun hrun => ?_⟩
    obtain ⟨h1, h2, h3, _⟩ := (runPrefix_live I NewSource clk b n hn).2 hrun
    exact ⟨h1, h2, h3⟩
  · intro a s hs ha
    obtain ⟨h1, h2, h3, _⟩ := hs
    refine ⟨by omega, by omega, by omega, ?_, ?_⟩
    · rcases addItem_shape I clk b _ a s ⟨h1, h2, h3, ‹_›⟩ ha with ⟨h0, _⟩ | ⟨_, _⟩
      · rw [h0]; simp
      · cases hm : makeOrth b s.r with
        | error e =>
          rw [addItem_error I clk b a s e hm, makeOrth_error_kind b s.r e hm]
          simp
        | ok p =>
          obtain ⟨orth, r1⟩ := p
          rw [addItem_ok I clk b a s orth r1 hm (by omega)]
          simp
    · rcases step_stop_kind I clk b _ a s ⟨h1, h2, h3, ‹_›⟩ ha with ⟨h0, _⟩ | h0 <;>
        rw [h0] <;> simp
  · intro a s hs ha
    refine ⟨(removeOne_shape I clk _ a s hs ha).1, fun hle => by rw [hs.1]; omega, fun hne => ?_⟩
    by_contra hlen
    rcases removeOne_cases I clk a s (by rw [hs.1]; exact ha) with
      ⟨t, ref, _, _, _, _, h⟩ | ⟨_, hl, _⟩ | ⟨_, _, h⟩
    · rw [h] at hne; exact hne rfl
    · exact hlen hl
    · rw [h] at hne; exact hne rfl
  · intro a s ha
    refine ⟨removeOne_running I clk a s ha, fun hle => ?_, fun hmiss hlen => ?_,
      fun hmiss hlen => ?_⟩
    · rcases removeOne_cases I clk a s ha with
        ⟨t, ref, _, _, _, _, h⟩ | ⟨heq, _, _⟩ | ⟨heq, _, _⟩
      · rw [h]
      · omega
      · omega
    · rw [removeOne_miss I clk a s hmiss, if_pos hlen, bump_eq_set _ _ hlen]
      exact ⟨rfl, rfl⟩
    · rw [removeOne_miss I clk a s hmiss, if_neg (by omega)]
      exact ⟨bump_out_of_range _ _ hlen, rfl, rfl⟩
  · intro events i
    refine ⟨fun h => ?_, fun h => bump_out_of_range events i h⟩
    obtain ⟨ev, h1, h2, _⟩ := bump_ok events i h
    exact ⟨ev, h1, h2⟩
  · intro removed a c hc
    obtain ⟨g1, g2, _, _⟩ := scanFrom_spec removed a c hc
    exact ⟨g1, g2, by omega, scanFrom_exit removed a c hc,
      fun n hn => scan_enough removed a c n hc hn⟩

/-! ## Handles and the alignment of the parallel structures -/

/-- Where a given call sits in a list of calls that has just grown by one. -/
theorem split_at_last (l before after : List Op) (x y : Op)
    (h : l ++ [x] = before ++ y :: after) :
    (after = [] ∧ l = before ∧ x = y) ∨
    ∃ rest, after = rest ++ [x] ∧ l = before ++ y :: rest := by
  rcases List.eq_nil_or_concat after with h0 | ⟨rest, z, h0⟩
  · left
    subst h0
    have h' : l ++ [x] = before ++ [y] := h
    obtain ⟨e1, e2⟩ := List.append_inj' h' rfl
    simp only [List.cons.injEq, and_true] at e2
    exact ⟨rfl, e1, e2⟩
  · right
    rw [List.concat_eq_append] at h0
    subst h0
    have h' : l ++ [x] = (before ++ y :: rest) ++ [z] := by
      rw [h]; simp
    obtain ⟨e1, e2⟩ := List.append_inj' h' rfl
    simp only [List.cons.injEq, and_true] at e2
    subst e2
    exact ⟨rest, rfl, e1⟩

/-- The order part of the alignment survives a call that is not a `Remove`. -/
theorem order_after_other (hist : List Op) (x : Op)
    (hx : ∀ a t ref, x ≠ Op.Remove a t ref)
    (h5 : ∀ before after a t ref, hist = before ++ Op.Remove a t ref :: after →
      ∃ orth, Op.Add t orth ref ∈ before) :
    ∀ before after a t ref, hist ++ [x] = before ++ Op.Remove a t ref :: after →
      ∃ orth, Op.Add t orth ref ∈ before := by
  intro before after a t ref h
  rcases split_at_last hist before after x _ h with ⟨_, _, e⟩ | ⟨rest, _, e⟩
  · exact absurd e (hx a t ref)
  · exact h5 before rest a t ref e

theorem handlesInv_of_fresh {σ : Type} (s : State σ) (n : Nat) (h1 : s.orths = [])
    (h2 : s.hist = []) (h3 : s.refs = List.replicate n 0) : HandlesInv s := by
  refine ⟨?_, ?_, ?_, ?_, ?_⟩
  · intro i hi; rw [h1] at hi; simp at hi
  · intro i _ hi
    rw [h3] at hi ⊢
    simp only [List.length_replicate] at hi
    simp [List.getElem?_replicate, hi]
  · intro a orth ref hmem; rw [h2] at hmem; simp at hmem
  · intro a t ref hmem; rw [h2] at hmem; simp at hmem
  · intro before after a t ref h
    rw [h2] at h
    simp at h

theorem addItem_handles {σ : Type} (I : Index σ) (clk : Nat → Int) (b : bvhTest) (N a : Nat)
    (s : State σ) (hs : Shape N a s) (ha : a < N) (hk : HandlesInv s) :
    HandlesInv (addItem I clk b a s).state := by
  obtain ⟨h1, h2, h3, h4, h5⟩ := hk
  have hlen : s.orths.length = a := hs.2.2.2
  have hrefs : a < s.refs.length := by rw [hs.1]; exact ha
  cases h : makeOrth b s.r with
  | error e => rw [addItem_error I clk b a s e h]; exact ⟨h1, h2, h3, h4, h5⟩
  | ok p =>
    obtain ⟨orth, r1⟩ := p
    rw [addItem_ok I clk b a s orth r1 h hrefs]
    refine ⟨?_, ?_, ?_, ?_, ?_⟩
    · intro i hi
      simp only [List.length_append, List.length_singleton] at hi
      by_cases hia : i < a
      · obtain ⟨o, rf, e1, e2, e3⟩ := h1 i (by omega)
        refine ⟨o, rf, ?_, ?_, ?_⟩
        · show (s.orths ++ [orth])[i]? = _
          rw [List.getElem?_append_left (by omega)]; exact e1
        · show (s.refs.set a _)[i]? = _
          rw [List.getElem?_set_ne (by omega)]; exact e2
        · exact List.mem_append_left _ e3
      · have hieq : i = a := by omega
        subst hieq
        refine ⟨orth, (I.Add s.btree orth (i : Int)).1, ?_, ?_, ?_⟩
        · show (s.orths ++ [orth])[i]? = _
          rw [List.getElem?_append_right (by omega), hlen, Nat.sub_self]; rfl
        · show (s.refs.set i _)[i]? = _
          rw [List.getElem?_set_eq_of_lt _ hrefs]
        · exact List.mem_append_right _ (List.mem_singleton.mpr rfl)
    · intro i hi1 hi2
      simp only [List.length_append, List.length_singleton, List.length_set] at hi1 hi2
      show (s.refs.set a _)[i]? = _
      rw [List.getElem?_set_ne (by omega)]
      exact h2 i (by omega) hi2
    · intro a1 o1 rf1 hmem
      simp only [List.mem_append, List.mem_singleton, Op.Add.injEq] at hmem
      rcases hmem with hmem | ⟨e1, e2, e3⟩
      · obtain ⟨g1, g2⟩ := h3 a1 o1 rf1 hmem
        have hlt : a1 < s.orths.length := by
          by_contra hge
          rw [List.getElem?_eq_none (by omega)] at g1
          cases g1
        refine ⟨?_, ?_⟩
        · show (s.orths ++ [orth])[a1]? = _
          rw [List.getElem?_append_left hlt]; exact g1
        · show (s.refs.set a _)[a1]? = _
          rw [List.getElem?_set_ne (by omega)]; exact g2
      · subst e1; subst e2; subst e3
        refine ⟨?_, ?_⟩
        · show (s.orths ++ [o1])[a1]? = _
          rw [List.getElem?_append_right (by omega), hlen, Nat.sub_self]; rfl
        · show (s.refs.set a1 _)[a1]? = _
          rw [List.getElem?_set_eq_of_lt _ hrefs]
    · intro a1 t rf hmem
      simp only [List.mem_append, List.mem_singleton, reduceCtorEq, or_false] at hmem
      obtain ⟨g1, g2, g3⟩ := h4 a1 t rf hmem
      refine ⟨g1, by simp only [List.length_append, List.length_singleton]; omega, ?_⟩
      show (s.refs.set a _)[t]? = _
      rw [List.getElem?_set_ne (by omega)]; exact g3
    · exact order_after_other s.hist _ (fun _ _ _ => by simp) h5

theorem removeOne_handles {σ : Type} (I : Index σ) (clk : Nat → Int) (N a : Nat)
    (s : State σ) (hs : Shape N (a + 1) s) (ha : a < N) (hk : HandlesInv s) :
    HandlesInv (removeOne I clk a s).state := by
  obtain ⟨h1, h2, h3, h4, h5⟩ := hk
  have hlen : s.orths.length = a + 1 := hs.2.2.2
  rcases removeOne_cases I clk a s (by rw [hs.1]; exact ha) with
    ⟨t, ref, _, hle, _, href, h⟩ | ⟨_, _, h⟩ | ⟨_, _, h⟩
  · rw [h]
    refine ⟨?_, h2, ?_, ?_, ?_⟩
    · intro i hi
      obtain ⟨o, rf, e1, e2, e3⟩ := h1 i hi
      exact ⟨o, rf, e1, e2, List.mem_append_left _ e3⟩
    · intro a1 o1 rf1 hmem
      simp only [List.mem_append, List.mem_singleton, reduceCtorEq, or_false] at hmem
      exact h3 a1 o1 rf1 hmem
    · intro a1 t1 rf1 hmem
      simp only [List.mem_append, List.mem_singleton, Op.Remove.injEq] at hmem
      rcases hmem with hmem | ⟨e1, e2, e3⟩
      · exact h4 a1 t1 rf1 hmem
      · subst e1; subst e2; subst e3
        exact ⟨hle, by show a1 < s.orths.length; omega, href⟩
    · intro before after a1 t1 rf1 hsplit
      rcases split_at_last s.hist before after _ _ hsplit with ⟨_, e2, e3⟩ | ⟨rest, _, e⟩
      · simp only [Op.Remove.injEq] at e3
        obtain ⟨_, q2, q3⟩ := e3
        subst q2; subst q3
        obtain ⟨o, rf, _, g2, g3⟩ := h1 t (by omega)
        rw [href] at g2
        simp only [Option.some.injEq] at g2
        subst g2
        rw [← e2]
        exact ⟨o, g3⟩
      · exact h5 before rest a1 t1 rf1 e
  · rw [h]; exact ⟨h1, h2, h3, h4, h5⟩
  · rw [h]; exact ⟨h1, h2, h3, h4, h5⟩

theorem queryOne_handles {σ : Type} (I : Index σ) (clk : Nat → Int) (b : bvhTest) (a : Nat)
    (s : State σ) (hk : HandlesInv s) : HandlesInv (queryOne I clk b a s).state := by
  obtain ⟨h1, h2, h3, h4, h5⟩ := hk
  cases h : makeOrth b s.r with
  | error e => rw [queryOne_error I clk b a s e h]; exact ⟨h1, h2, h3, h4, h5⟩
  | ok p =>
    obtain ⟨q, r1⟩ := p
    rw [queryOne_ok I clk b a s q r1 h]
    refine ⟨?_, h2, ?_, ?_, ?_⟩
    · intro i hi
      obtain ⟨o, rf, e1, e2, e3⟩ := h1 i hi
      exact ⟨o, rf, e1, e2, List.mem_append_left _ e3⟩
    · intro a1 o1 rf1 hmem
      simp only [List.mem_append, List.mem_singleton, reduceCtorEq, or_false] at hmem
      exact h3 a1 o1 rf1 hmem
    · intro a1 t1 rf1 hmem
      simp only [List.mem_append, List.mem_singleton, reduceCtorEq, or_false] at hmem
      exact h4 a1 t1 rf1 hmem
    · exact order_after_other s.hist _ (fun _ _ _ => by simp) h5

theorem verify_handles {σ : Type} (I : Index σ) (s : State σ) (hk : HandlesInv s) :
    HandlesInv (verify I s).state := by
  obtain ⟨h1, h2, h3, h4, h5⟩ := hk
  refine ⟨?_, h2, ?_, ?_, ?_⟩
  · intro i hi
    obtain ⟨o, rf, e1, e2, e3⟩ := h1 i hi
    exact ⟨o, rf, e1, e2, List.mem_append_left _ e3⟩
  · intro a1 o1 rf1 hmem
    simp only [verify, List.mem_append, List.mem_singleton, reduceCtorEq, or_false] at hmem
    exact h3 a1 o1 rf1 hmem
  · intro a1 t1 rf1 hmem
    simp only [verify, List.mem_append, List.mem_singleton, reduceCtorEq, or_false] at hmem
    exact h4 a1 t1 rf1 hmem
  · exact order_after_other s.hist _ (fun _ _ _ => by simp) h5

theorem setup_handles {σ : Type} (I : Index σ) (NewSource : Int → Nat → Nat) (b : bvhTest) :
    HandlesInv (setup I NewSource b).state := by
  obtain ⟨f1, f2, _, _, _, f6, _⟩ := setup_fields I NewSource b
  exact handlesInv_of_fresh _ _ f2 f6 f1

theorem runPrefix_handles {σ : Type} (I : Index σ) (NewSource : Int → Nat → Nat)
    (clk : Nat → Int) (b : bvhTest) (n : Nat) (hn : n ≤ b.Additions.toNat) :
    HandlesInv (runPrefix I NewSource clk b n).state :=
  (runPrefix_always I NewSource clk b HandlesInv (setup_handles I NewSource b)
    (fun a s hs ha hk => addItem_handles I clk b _ a s hs ha hk)
    (fun a s hs ha hk => removeOne_handles I clk _ a s hs ha hk)
    (fun a s _ _ hk => queryOne_handles I clk b a s hk) n hn).1

theorem runTest_handles {σ : Type} (I : Index σ) (NewSource : Int → Nat → Nat)
    (clk : Nat → Int) (b : bvhTest) : HandlesInv (runTest I NewSource clk b).state :=
  (runTest_always I NewSource clk b HandlesInv
    (handlesInv_of_fresh _ b.Additions.toNat rfl rfl rfl)
    (handlesInv_of_fresh _ b.Additions.toNat rfl rfl rfl)
    (setup_handles I NewSource b)
    (fun a s hs ha hk => addItem_handles I clk b _ a s hs ha hk)
    (fun a s hs ha hk => removeOne_handles I clk _ a s hs ha hk)
    (fun a s _ _ hk => queryOne_handles I clk b a s hk)
    (fun s hk => verify_handles I s hk)).1

/-- C19: in every run, every handle passed to `Remove` at a step `a'` is `refs[t]` for
a slot `t <= a'`, and it is the handle that the `Add` of step `t` returned, that `Add`
coming before the `Remove` in the order of calls (so it is never the zero the slice
was initialised with); each step has one `Add`, and no slot is passed to `Remove`
twice.  The parallel structures stay aligned: once step `a` has finished, `orths`
holds exactly `a + 1` orthotopes, slots `0 .. a` of `orths` and `refs` hold the
orthotope and the handle of the `Add` of their step, the slots of `refs` beyond `a`
still hold the initial zero, and only keys in `[0, a]` of `removed` are true. -/
theorem handles_valid_and_aligned {σ : Type} (I : Index σ) (NewSource : Int → Nat → Nat)
    (clk : Nat → Int) (b : bvhTest) (a : Nat) (ha : (a : Int) < b.Additions)
    (hfin : (runPrefix I NewSource clk b (a + 1)).stopped = none) :
    (∀ a1 t ref, Op.Remove a1 t ref ∈ (runTest I NewSource clk b).state.hist →
      t ≤ a1 ∧ (runTest I NewSource clk b).state.refs[t]? = some ref ∧
      ∃ orth, Op.Add t orth ref ∈ (runTest I NewSource clk b).state.hist) ∧
    (∀ before after a1 t ref,
      (runTest I NewSource clk b).state.hist = before ++ Op.Remove a1 t ref :: after →
      ∃ orth, Op.Add t orth ref ∈ before) ∧
    (∀ a1 orth ref orth1 ref1,
      Op.Add a1 orth ref ∈ (runTest I NewSource clk b).state.hist →
      Op.Add a1 orth1 ref1 ∈ (runTest I NewSource clk b).state.hist →
      orth = orth1 ∧ ref = ref1) ∧
    (removedSlots (runTest I NewSource clk b).state.hist).Nodup ∧
    (runPrefix I NewSource clk b (a + 1)).state.orths.length = a + 1 ∧
    (runPrefix I NewSource clk b (a + 1)).state.refs.length = b.Additions.toNat ∧
    (∀ i, i ≤ a → ∃ orth ref,
      (runPrefix I NewSource clk b (a + 1)).state.orths[i]? = some orth ∧
      (runPrefix I NewSource clk b (a + 1)).state.refs[i]? = some ref ∧
      Op.Add i orth ref ∈ (runPrefix I NewSource clk b (a + 1)).state.hist) ∧
    (∀ i, a < i → i < b.Additions.toNat →
      (runPrefix I NewSource clk b (a + 1)).state.refs[i]? = some 0) ∧
    (∀ i, (runPrefix I NewSource clk b (a + 1)).state.removed i = true → i ≤ a) := by
  obtain ⟨h1, _, h3, h4, h5⟩ := runTest_handles I NewSource clk b
  obtain ⟨⟨_, s2, _⟩, _⟩ := runTest_slots I NewSource clk b
  have hle : a + 1 ≤ b.Additions.toNat := by omega
  obtain ⟨p1, p2, _, _, _⟩ := runPrefix_handles I NewSource clk b (a + 1) hle
  obtain ⟨⟨_, l2, _⟩, lsh⟩ := runPrefix_live I NewSource clk b (a + 1) hle
  obtain ⟨q1, _, _, q4⟩ := lsh hfin
  refine ⟨?_, h5, ?_, s2, q4, q1, ?_, ?_, ?_⟩
  · intro a1 t ref hmem
    obtain ⟨g1, g2, g3⟩ := h4 a1 t ref hmem
    obtain ⟨o, rf, _, e2, e3⟩ := h1 t (by omega)
    rw [g3] at e2
    simp only [Option.some.injEq] at e2
    subst e2
    exact ⟨g1, g3, o, e3⟩
  · intro a1 orth ref orth1 ref1 m1 m2
    obtain ⟨g1, g2⟩ := h3 a1 orth ref m1
    obtain ⟨k1, k2⟩ := h3 a1 orth1 ref1 m2
    rw [g1] at k1
    rw [g2] at k2
    simp only [Option.some.injEq] at k1 k2
    exact ⟨k1, k2⟩
  · intro i hi
    exact p1 i (by rw [q4]; omega)
  · intro i hi1 hi2
    exact p2 i (by rw [q4]; omega) (by rw [q1]; exact hi2)
  · intro i hi
    have := l2 i hi
    rw [q4] at this
    omega

/-- Instance of C19: the run with `Additions = 3`, `Removals = 2`, `Queries = 1` after
step 1. -/
theorem handles_valid_and_aligned_witness :
    ((1 : Nat) : Int) < (sampleConfig 3 2 1).Additions ∧
    (runPrefix countingIndex (fun _ n => n) (fun _ => 5) (sampleConfig 3 2 1) (1 + 1)).stopped = none ∧
    (runPrefix countingIndex (fun _ n => n) (fun _ => 5) (sampleConfig 3 2 1)
      (1 + 1)).state.orths.length = 1 + 1 ∧
    (removedSlots (runTest countingIndex (fun _ n => n) (fun _ => 5)
      (sampleConfig 3 2 1)).state.hist).Nodup :=
  ⟨by decide, rfl,
    (handles_valid_and_aligned countingIndex (fun _ n => n) (fun _ => 5) (sampleConfig 3 2 1) 1
      (by decide) rfl).2.2.2.2.1,
    (handles_valid_and_aligned countingIndex (fun _ n => n) (fun _ => 5) (sampleConfig 3 2 1) 1
      (by decide) rfl).2.2.2.1⟩

end BvhStats
